import Mathlib

/-!
# Verification of the Peano-addition rewriting core (`peano_addition.py`)

Shallow embedding of the tree representation, the edit script engine, the
rewrite-rule matcher `_simplify`, the alignment constructor `peano_alignment`,
the decode step `predict_step` and the generator `_generate_tree`, together
with proofs and refutations of the specification claims.

Trees are flat preorder node-label lists plus adjacency (child-index) lists,
exactly as in the source.  Out-of-range child accesses, which would raise
`IndexError` in Python, are modelled with a default value of `0`; all theorems
keep their inputs inside the defined domain.  Real-valued network scores are
modelled as rationals (the source only compares them against `0.5` thresholds).
-/

namespace Peano

/-- Node labels, as in the source: plain strings over the fixed alphabet. -/
abbrev Label := String

/-- `alphabet = ['+', '0', ..., '9', 'succ', 'root']` from the source. -/
def alphabet : List Label :=
  ["+", "0", "1", "2", "3", "4", "5", "6", "7", "8", "9", "succ", "root"]

/-- A tree: preorder node-label list plus adjacency (ordered child index) list. -/
structure Tree where
  nodes : List Label
  adj : List (List Nat)
deriving DecidableEq, Repr

/-- The three atomic edit operations of `edist.tree_edits` as used by the
source: `Deletion(pos)`, `Insertion(pos, childSlot, label, span)`,
`Replacement(pos, label)`.  Positions are integers because the source computes
them as `i + index_shift[i]` with a signed shift. -/
inductive Edit where
  | del (pos : Int)
  | ins (pos : Int) (slot : Nat) (label : Label) (span : Nat)
  | rep (pos : Int) (label : Label)
deriving DecidableEq, Repr

/-- An edit script: an ordered list of operations. -/
abbrev Script := List Edit

/-- The error kinds of §7 of the specification. -/
inductive Err where
  | outOfRange
  | invalidSpan
  | invalidDecision
  | alignmentInconsistency
  | nonTerminating
deriving DecidableEq, Repr

/-- The digit labels `"0"`..`"9"`. -/
def digitLabels : List Label := ["0", "1", "2", "3", "4", "5", "6", "7", "8", "9"]

/-- Numeric value of a numeral label (`int(...)` in the source), modelled for
the digit labels of the alphabet; `0` for labels that are not numerals. -/
def labelVal (s : Label) : Nat :=
  let i := digitLabels.indexOf s
  if i < 10 then i else 0

/-- Last node of the subtree rooted at `j`: repeatedly follow the last child
(`while adj[j]: j = adj[j][-1]` in `predict_step`), with fuel. -/
def subtreeLast (adj : List (List Nat)) : Nat → Nat → Nat
  | 0, j => j
  | fuel + 1, j =>
    match (adj.getD j []).getLast? with
    | none => j
    | some c => subtreeLast adj fuel c

/-- Modelled from the spec: `Deletion(pos)` of §4.2 (the script engine
`edist.tree_edits` is not part of this repository).  The node at `pos` is
spliced out of its parent's child list (its children take its place, in
order), removed from the node sequence, and every recorded index greater than
`pos` is decremented.  Fails with `OutOfRange` when `pos` is not a valid
index or has no parent. -/
def applyDel (t : Tree) (pos : Int) : Except Err Tree :=
  if pos < 0 then .error .outOfRange else
  let p := pos.toNat
  if t.nodes.length ≤ p then .error .outOfRange else
  match t.adj.findIdx? (fun cs => cs.contains p) with
  | none => .error .outOfRange
  | some par =>
    let children := t.adj.getD par []
    let k := children.indexOf p
    let children2 := children.take k ++ t.adj.getD p [] ++ children.drop (k + 1)
    let adj2 := ((t.adj.set par children2).eraseIdx p).map
      (List.map (fun j => if p < j then j - 1 else j))
    .ok ⟨t.nodes.eraseIdx p, adj2⟩

/-- Modelled from the spec: `Insertion(pos, childSlot, label, span)` of §4.2.
A new node with the given label is created as a child of `pos` at the
position previously occupied by child `childSlot` (or at the end of the
subtree of `pos` when `childSlot` equals the child count), absorbing `span`
consecutive existing children starting at `childSlot` as its own children.
Fails with `InvalidSpan` when `childSlot + span` exceeds the child count. -/
def applyIns (t : Tree) (pos : Int) (slot : Nat) (lbl : Label) (span : Nat) :
    Except Err Tree :=
  if pos < 0 then .error .outOfRange else
  let p := pos.toNat
  if t.nodes.length ≤ p then .error .outOfRange else
  let children := t.adj.getD p []
  if children.length < slot + span then .error .invalidSpan else
  let q := if slot < children.length then children.getD slot 0
           else subtreeLast t.adj t.nodes.length p + 1
  let bump : Nat → Nat := fun j => if q ≤ j then j + 1 else j
  let adjS := t.adj.map (List.map bump)
  let childrenS := children.map bump
  let newKids := ((children.drop slot).take span).map bump
  let children2 := childrenS.take slot ++ q :: childrenS.drop (slot + span)
  let adj2 := (adjS.set p children2).insertIdx q newKids
  .ok ⟨t.nodes.insertIdx q lbl, adj2⟩

/-- Modelled from the spec: `Replacement(pos, label)` of §4.2: label swap in
place; fails with `OutOfRange` when `pos` is invalid. -/
def applyRep (t : Tree) (pos : Int) (lbl : Label) : Except Err Tree :=
  if pos < 0 then .error .outOfRange else
  let p := pos.toNat
  if t.nodes.length ≤ p then .error .outOfRange else
  .ok ⟨t.nodes.set p lbl, t.adj⟩

/-- Apply one edit operation. -/
def applyEdit (t : Tree) : Edit → Except Err Tree
  | .del pos => applyDel t pos
  | .ins pos slot lbl span => applyIns t pos slot lbl span
  | .rep pos lbl => applyRep t pos lbl

/-- Modelled from the spec: `Script.apply` applies the operations strictly in
script order (§4.2). -/
def applyScript (s : Script) (t : Tree) : Except Err Tree :=
  s.foldl (fun acc e => acc.bind (fun u => applyEdit u e)) (.ok t)

/-- The parent map `pi` of the source (`_simplify` lines 194–197 and
`peano_alignment` lines 488–491): for each `i` and each `j ∈ adj[i]`, set
`pi[j] = i`, later assignments overwriting earlier ones; `0` elsewhere. -/
def parentMap (adj : List (List Nat)) : Nat → Nat :=
  (List.range adj.length).foldl
    (fun f i => (adj.getD i []).foldl (fun g j => Function.update g j i) f)
    (fun _ => 0)

/-- `shift[a:] += d` on a shift table modelled as a function. -/
def addSuffix (s : Nat → Int) (a : Nat) (d : Int) : Nat → Int :=
  fun p => if a ≤ p then s p + d else s p

/-- `shift[a:b] += d` on a shift table modelled as a function. -/
def addRange (s : Nat → Int) (a b : Nat) (d : Int) : Nat → Int :=
  fun p => if a ≤ p ∧ p < b then s p + d else s p

/-- One step of the matcher loop of `_simplify` (lines 203–235): the edits
emitted at node `i`, appended to the accumulated script, and the updated
shift table. -/
def matchAt (nodes : List Label) (adj : List (List Nat)) (pf : Nat → Nat)
    (st : Script × (Nat → Int)) (i : Nat) : Script × (Nat → Int) :=
  let script := st.1
  let shift := st.2
  if nodes.getD i "" = "+" then
    let right := (adj.getD i []).getD 1 0
    if nodes.getD right "" = "0" then
      let s1 := addSuffix shift (i + 1) (-1)
      (script ++ [.del (i + shift i), .del (right + s1 right)],
       addSuffix s1 (right + 1) (-1))
    else if nodes.getD right "" = "succ" then
      let s1 := addRange shift (i + 1) (right + 1) 1
      (script ++ [.ins (i + shift i) 0 "succ" 1, .del (right + s1 right)], s1)
    else if nodes.getD right "" ≠ "+" then
      let pred := toString (labelVal (nodes.getD right "") - 1)
      let s1 := addSuffix shift right 1
      (script ++ [.ins (i + shift i) 1 "succ" 1, .rep (right + s1 right) pred], s1)
    else (script, shift)
  else if nodes.getD i "" = "succ" ∧
      (nodes.getD (pf i) "" ≠ "+" ∨ pf i = i - 1) then
    let child := (adj.getD i []).getD 0 0
    if nodes.getD child "" ∉ (["succ", "+"] : List Label) then
      let s1 := addSuffix shift (i + 1) (-1)
      (script ++ [.del (i + shift i),
        .rep (child + s1 child)
          (toString ((labelVal (nodes.getD child "") + 1) % 10))], s1)
    else (script, shift)
  else (script, shift)

/-- One full matcher pass of `_simplify` over a tree: the emitted script and
the final shift table. -/
def passScript (t : Tree) : Script × (Nat → Int) :=
  (List.range t.nodes.length).foldl
    (matchAt t.nodes t.adj (parentMap t.adj)) ([], fun _ => 0)

/-- The fixpoint loop of `_simplify` (lines 188–245), with fuel: returns the
derivation trace (initial tree included), or `none` when the fuel is
exhausted before the matcher emits an empty script, or when an edit fails to
apply. -/
def simplifyFuel (fuel : Nat) (t : Tree) : Option (List Tree) :=
  if (passScript t).1 = [] then some [t]
  else
    match fuel with
    | 0 => none
    | f + 1 =>
      match applyScript (passScript t).1 t with
      | .error _ => none
      | .ok t2 => (simplifyFuel f t2).map (t :: ·)

/-- The scan phase of `peano_alignment` (lines 487–526): builds the partial
map `left_to_right` and the alignment shift table, one node at a time. -/
def alignScanAt (nodes : List Label) (adj : List (List Nat)) (pf : Nat → Nat)
    (st : (Nat → Option Int) × (Nat → Int)) (i : Nat) :
    (Nat → Option Int) × (Nat → Int) :=
  let st2 :=
    if nodes.getD i "" = "+" then
      let right := (adj.getD i []).getD 1 0
      if nodes.getD right "" = "0" then
        (Function.update (Function.update st.1 i (some (-1))) right (some (-1)),
         addSuffix (addSuffix st.2 i (-1)) (right + 1) (-1))
      else if nodes.getD right "" = "succ" then
        (Function.update st.1 right (some (-1)), addRange st.2 (i + 1) (right + 1) 1)
      else if nodes.getD right "" ≠ "+" then
        (st.1, addSuffix st.2 right 1)
      else st
    else if nodes.getD i "" = "succ" ∧
        (nodes.getD (pf i) "" ≠ "+" ∨ pf i = i - 1) then
      let child := (adj.getD i []).getD 0 0
      if nodes.getD child "" ∉ (["succ", "+"] : List Label) then
        (Function.update st.1 i (some (-1)), addSuffix st.2 i (-1))
      else st
    else st
  match st2.1 i with
  | none => (Function.update st2.1 i (some (i + st2.2 i)), st2.2)
  | some _ => st2

/-- The merge phase of `peano_alignment` (lines 528–539): walk the original
indices, emitting `(-1, j)` filler pairs until the cursor reaches the mapped
index, then the matched pair; deleted nodes map to `(i, -1)`. -/
def alignMergeAt (l2r : Nat → Option Int) (st : List (Int × Int) × Int)
    (i : Nat) : List (Int × Int) × Int :=
  let v := (l2r i).getD 0
  if v < 0 then (st.1 ++ [((i : Int), -1)], st.2)
  else
    let fills := (List.range (v - st.2).toNat).map
      (fun k : Nat => ((-1 : Int), st.2 + (k : Int)))
    (st.1 ++ fills ++ [((i : Int), max st.2 v)], max st.2 v + 1)

/-- `peano_alignment(nodes, adj, next_nodes, next_adj)`: the successor-tree
arguments are never read by the source, so the embedding takes only the
first tree.  Returns the list of alignment tuples. -/
def peano_alignment (t : Tree) : List (Int × Int) :=
  let l2r := ((List.range t.nodes.length).foldl
    (alignScanAt t.nodes t.adj (parentMap t.adj)) (fun _ => none, fun _ => 0)).1
  ((List.range t.nodes.length).foldl (alignMergeAt l2r) ([], 0)).1

/-- The decision threshold `0.5` of `predict_step`, written as a raw rational
literal so that it evaluates inside the kernel; `half_eq_one_div_two` below
identifies it with `1 / 2`. -/
def half : ℚ := ⟨1, 2, by norm_num, by norm_num⟩

/-- Index of the first maximal entry of a list (`torch.argmax`). -/
def argmaxIdx (xs : List ℚ) : Nat :=
  xs.findIdx (fun x => x = xs.foldl max (xs.headD 0))

/-- The greedy child-span loop of `predict_step` (lines 434–436): the number
of consecutive association scores above `0.5` starting at slot `c`, staying
below the child count `numc`. -/
def spanLen (row : List ℚ) (numc c : Nat) : Nat :=
  ((List.range (numc - c)).takeWhile (fun k => half < row.getD (c + k) 0)).length

/-- The replacement phase of `predict_step` (lines 413–421): for every node
whose delta score is at most `0.5` in absolute value and whose most likely
label differs from its current label, a `Replacement` at the unshifted
index. -/
def replPhase (alpha : List Label) (nodes : List Label) (delta : List ℚ)
    (types : List (List ℚ)) : Script :=
  (List.range nodes.length).foldl
    (fun sc i =>
      if ¬(|delta.getD i 0| ≤ half) then sc
      else
        let tp := alpha.getD (argmaxIdx (types.getD i [])) ""
        if tp ≠ nodes.getD i "" then sc ++ [.rep (i : Int) tp] else sc)
    []

/-- The insertion phase of `predict_step` (lines 423–447): ascending index
order, most likely child slot, greedy span, and the running insertion shift
table (`ins_shift`). -/
def insPhase (alpha : List Label) (nodes : List Label) (adj : List (List Nat))
    (delta : List ℚ) (types : List (List ℚ)) (cidx : List (List ℚ))
    (cnum : List (List ℚ)) : Script × (Nat → Int) :=
  (List.range nodes.length).foldl
    (fun st i =>
      if delta.getD i 0 ≤ half then st
      else
        let tp := alpha.getD (argmaxIdx (types.getD i [])) ""
        let c := argmaxIdx (cidx.getD i [])
        let numc := (adj.getD i []).length
        let cCount := spanLen (cnum.getD i []) numc c
        let j := if c < numc then (adj.getD i []).getD c 0
                 else subtreeLast adj nodes.length i + 1
        (st.1 ++ [.ins (i + st.2 i) c tp cCount], addSuffix st.2 j 1))
    ([], fun _ => 0)

/-- The deletion phase of `predict_step` (lines 449–454): descending index
order, each position offset by the insertion shift table. -/
def delPhase (nodes : List Label) (delta : List ℚ) (insShift : Nat → Int) :
    Script :=
  (List.range nodes.length).reverse.foldl
    (fun sc i =>
      if -half ≤ delta.getD i 0 then sc
      else sc ++ [.del (i + insShift i)])
    []

/-- The script built by `predict_step` (lines 410–454) from the network
outputs `delta`, `types`, `cidx`, `cnum` (the network itself is an external
collaborator; its outputs are taken as arguments). -/
def predictScript (alpha : List Label) (nodes : List Label)
    (adj : List (List Nat)) (delta : List ℚ) (types : List (List ℚ))
    (cidx : List (List ℚ)) (cnum : List (List ℚ)) : Script :=
  replPhase alpha nodes delta types ++
    (insPhase alpha nodes adj delta types cidx cnum).1 ++
    delPhase nodes delta (insPhase alpha nodes adj delta types cidx cnum).2

/-- `predict_step`: build the script from the network outputs and apply it to
the input tree (lines 410–462). -/
def predict_step (alpha : List Label) (t : Tree) (delta : List ℚ)
    (types : List (List ℚ)) (cidx : List (List ℚ)) (cnum : List (List ℚ)) :
    Except Err (Script × Tree) :=
  let sc := predictScript alpha t.nodes t.adj delta types cidx cnum
  (applyScript sc t).map (fun u => (sc, u))

/-- Generation state of `_generate_tree`: node list, adjacency list, the
stack of pending parents and the remaining addition budget. -/
structure GenState where
  nodes : List Label
  adj : List (List Nat)
  stk : List Nat
  maxAdd : Int
deriving Repr

/-- The generation loop of `_generate_tree` (lines 128–156) with fuel.  The
random draws are an input stream `rand`; a draw with zero probability under
the current distribution (`np.random.choice` can never produce one) makes
the run return `none`: with the source's probability arrays a draw is
possible exactly when it is `0` (the `'+'` entry, only while the addition
budget is positive) or a numeral entry `2 ≤ r < maxInput + 2`. -/
def genLoop (maxInput : Nat) (rand : Nat → Nat) :
    Nat → Nat → GenState → Option (List Label × List (List Nat))
  | 0, _, _ => none
  | fuel + 1, tick, st =>
    match st.stk.getLast? with
    | none => some (st.nodes, st.adj)
    | some p =>
      let stk1 := st.stk.dropLast
      let r := rand tick
      let ok := if 0 < st.maxAdd then r = 0 ∨ (2 ≤ r ∧ r < maxInput + 2)
                else 2 ≤ r ∧ r < maxInput + 2
      if ¬ok then none
      else
        let i := st.nodes.length
        let lbl := alphabet.getD r ""
        let nodes2 := st.nodes ++ [lbl]
        let adj2 := (st.adj.set p ((st.adj.getD p []) ++ [i])) ++ [[]]
        if lbl = "+" then
          genLoop maxInput rand fuel (tick + 1)
            ⟨nodes2, adj2, stk1 ++ [i, i], st.maxAdd - 1⟩
        else
          genLoop maxInput rand fuel (tick + 1) ⟨nodes2, adj2, stk1, st.maxAdd⟩

/-- `_generate_tree(max_additions, max_input)` (lines 86–156) for
`1 ≤ max_input ≤ 9` (outside that range the source raises or reduces
`max_input` modulo 10 before the loop), with the draw stream and fuel made
explicit. -/
def generate_tree (maxAdditions : Int) (maxInput : Nat) (rand : Nat → Nat)
    (fuel : Nat) : Option (List Label × List (List Nat)) :=
  genLoop maxInput rand fuel 0 ⟨["root"], [[]], [0], maxAdditions⟩

/-! ## Structural expression layer

Well-formed input trees (§3 of the specification: a `root` wrapper over an
expression built from binary `"+"`, unary `"succ"` and numeral leaves) are
the flattenings of the following inductive type.  The simultaneous effect of
one matcher pass is the structural function `step` below; the correspondence
between the flat matcher and `step` is proved in the theorem part. -/

/-- Well-formed Peano expressions: numerals `0`–`9`, successor, addition. -/
inductive PExpr where
  | num (k : Fin 10)
  | succ (e : PExpr)
  | plus (l r : PExpr)
deriving DecidableEq, Repr

namespace PExpr

/-- Number of nodes of the flattened expression. -/
def size : PExpr → Nat
  | num _ => 1
  | succ e => e.size + 1
  | plus l r => l.size + r.size + 1

/-- Preorder label list of the flattened expression. -/
def labels : PExpr → List Label
  | num k => [toString (k : Nat)]
  | succ e => "succ" :: e.labels
  | plus l r => "+" :: (l.labels ++ r.labels)

/-- Adjacency rows of the flattened expression when its root sits at
absolute preorder position `o`. -/
def adjAt : PExpr → Nat → List (List Nat)
  | num _, _ => [[]]
  | succ e, o => [o + 1] :: e.adjAt (o + 1)
  | plus l r, o => [o + 1, o + 1 + l.size] :: (l.adjAt (o + 1) ++ r.adjAt (o + 1 + l.size))

/-- Successor of a digit, modulo 10 (rule 4 of the source). -/
def digitSucc (k : Fin 10) : Fin 10 := ⟨((k : Nat) + 1) % 10, Nat.mod_lt _ (by norm_num)⟩

/-- Predecessor of a digit (rule 3 of the source; only used with `k ≥ 1`). -/
def digitPred (k : Fin 10) : Fin 10 := ⟨(k : Nat) - 1, lt_of_le_of_lt (Nat.sub_le _ _) k.isLt⟩

/-- The simultaneous effect of one matcher pass of `_simplify` on a
well-formed expression (in a position where a top-level `succ` may resolve):
rule 1 dissolves `+(m, 0)`, rule 2 moves a right `succ` to the left, rule 3
unfolds a right numeral, rule 4 resolves a `succ` over a numeral; all parts
of the tree fire together in one pass. -/
def step : PExpr → PExpr
  | num k => num k
  | succ (num k) => num (digitSucc k)
  | succ (succ e) => succ (step (succ e))
  | succ (plus l r) => succ (step (plus l r))
  | plus l (num k) =>
    if (k : Nat) = 0 then step l else plus (step l) (succ (num (digitPred k)))
  | plus l (succ r) => plus (succ (step l)) (step r)
  | plus l (plus a b) => plus (step l) (step (plus a b))

/-- Size change of one pass, as an integer. -/
def stepDelta (e : PExpr) : Int := ((step e).size : Int) - (e.size : Int)

/-- Termination measure; the flag tells whether the expression sits in
right-child-of-`+` position (where numerals weigh `5k` and `succ` weighs `4`)
or in a position where a top `succ` may resolve (weights `k` and `2`). -/
def phi (isRight : Bool) : PExpr → Nat
  | num k => if isRight then 5 * k else k
  | succ e => (if isRight then 4 else 2) + phi isRight e
  | plus l r => 1 + 5 * (phi false l + phi true r)

/-- Termination measure in a position where a top `succ` may resolve. -/
def phiA : PExpr → Nat := phi false

/-- Termination measure in right-child-of-`+` position. -/
def phiR : PExpr → Nat := phi true

end PExpr

/-- Flattening of a well-formed expression under the `root` wrapper. -/
def enc (e : PExpr) : Tree := ⟨"root" :: e.labels, [1] :: e.adjAt 1⟩

/-- The structural image of the script emitted by one matcher pass for the
segment of `e` whose original offset is `o` and whose accumulated index shift
is `σ`: exactly the edits `matchAt` emits while scanning that segment. -/
def opsAt : PExpr → Nat → Int → Script
  | .num _, _, _ => []
  | .succ (.num k), o, σ =>
    [.del (o + σ), .rep (o + σ) (toString (((k : Nat) + 1) % 10))]
  | .succ (.succ e), o, σ => opsAt (.succ e) (o + 1) σ
  | .succ (.plus l r), o, σ => opsAt (.plus l r) (o + 1) σ
  | .plus l (.num k), o, σ =>
    if (k : Nat) = 0 then
      .del (o + σ) :: .del ((o + 1 + l.size : Nat) + (σ - 1)) :: opsAt l (o + 1) (σ - 1)
    else
      .ins (o + σ) 1 "succ" 1 ::
        .rep ((o + 1 + l.size : Nat) + (σ + 1)) (toString ((k : Nat) - 1)) ::
          opsAt l (o + 1) σ
  | .plus l (.succ r), o, σ =>
    .ins (o + σ) 0 "succ" 1 :: .del ((o + 1 + l.size : Nat) + (σ + 1)) ::
      (opsAt l (o + 1) (σ + 1) ++ opsAt r (o + 2 + l.size) (σ + PExpr.stepDelta l))
  | .plus l (.plus a b), o, σ =>
    opsAt l (o + 1) σ ++ opsAt (.plus a b) (o + 1 + l.size) (σ + PExpr.stepDelta l)

/-- Iterated pass. -/
def stepN (n : Nat) (e : PExpr) : PExpr := Nat.iterate PExpr.step n e

/-- A well-formed input tree (§3 / §6 of the specification): the flattening
of some Peano expression under the `root` wrapper. -/
def WfInput (t : Tree) : Prop := ∃ e : PExpr, t = enc e

/-- Operator count of a tree: number of `"+"` and `"succ"` nodes. -/
def opCount (t : Tree) : Nat :=
  (t.nodes.filter (fun s => s = "+" ∨ s = "succ")).length

/-- Maximum numeral magnitude of a tree. -/
def maxNumeral (t : Tree) : Nat := (t.nodes.map labelVal).foldl max 0

/-- Modelled from the spec: the fixpoint driver signature
`reduce(initialTree, maxSteps?) → trace` of §4.4 with the optional step cap,
raising `NonTerminating` when the number of rewrite iterations exceeds the
cap (the source `_simplify` takes no such argument).  `none` means the fuel
ran out. -/
def reduceCapped (cap : Option Nat) (fuel : Nat) (t : Tree) :
    Option (Except Err (List Tree)) :=
  if (passScript t).1 = [] then some (.ok [t])
  else if cap = some 0 then some (.error .nonTerminating)
  else
    match fuel with
    | 0 => none
    | f + 1 =>
      match applyScript (passScript t).1 t with
      | .error er => some (.error er)
      | .ok t2 =>
        (reduceCapped (cap.map (· - 1)) f t2).map (fun r => r.map (t :: ·))

/-- The insertion shift table of `predict_step` as it stands when node `i`
is about to be processed: the result of running the insertion phase over the
nodes before `i`. -/
def insShiftAt (alpha : List Label) (nodes : List Label)
    (adj : List (List Nat)) (delta : List ℚ) (types : List (List ℚ))
    (cidx : List (List ℚ)) (cnum : List (List ℚ)) (i : Nat) : Nat → Int :=
  ((List.range i).foldl
    (fun st n =>
      if delta.getD n 0 ≤ half then st
      else
        let tp := alpha.getD (argmaxIdx (types.getD n [])) ""
        let c := argmaxIdx (cidx.getD n [])
        let numc := (adj.getD n []).length
        let cCount := spanLen (cnum.getD n []) numc c
        let j := if c < numc then (adj.getD n []).getD c 0
                 else subtreeLast adj nodes.length n + 1
        (st.1 ++ [.ins (n + st.2 n) c tp cCount], addSuffix st.2 j 1))
    (([] : Script), fun _ => (0 : Int))).2

deriving instance DecidableEq for Except

/-! ## One-hole contexts and segment hypotheses for the correspondence
between the flat matcher pass and the structural `step` function. -/

/-- One-hole context frames around a subexpression: under a `succ`, as the
left operand of a `plus`, or as the right operand of a `plus`. -/
inductive Frame where
  | sfr
  | lfr (r : PExpr)
  | rfr (l : PExpr)
deriving DecidableEq, Repr

/-- A one-hole context: frames listed innermost first. -/
abbrev Ctx := List Frame

/-- Plug an expression into a context. -/
def fill : Ctx → PExpr → PExpr
  | [], e => e
  | .sfr :: c, e => fill c (.succ e)
  | .lfr r :: c, e => fill c (.plus e r)
  | .rfr l :: c, e => fill c (.plus l e)

/-- Preorder position of the hole in `enc (fill c e)`. -/
def holePos : Ctx → Nat
  | [] => 1
  | .sfr :: c => holePos c + 1
  | .lfr _ :: c => holePos c + 1
  | .rfr l :: c => holePos c + 1 + l.size

/-- Labels strictly between the `root` wrapper and the hole segment. -/
def ctxPre : Ctx → List Label
  | [] => []
  | .sfr :: c => ctxPre c ++ ["succ"]
  | .lfr _ :: c => ctxPre c ++ ["+"]
  | .rfr l :: c => ctxPre c ++ "+" :: l.labels

/-- Labels after the hole segment. -/
def ctxPost : Ctx → List Label
  | [] => []
  | .sfr :: c => ctxPost c
  | .lfr r :: c => r.labels ++ ctxPost c
  | .rfr _ :: c => ctxPost c

/-- Adjacency rows before the hole segment (the root row excluded), as a
function of the hole segment's size. -/
def rowsA : Ctx → Nat → List (List Nat)
  | [], _ => []
  | .sfr :: c, s => rowsA c (s + 1) ++ [[holePos c + 1]]
  | .lfr r :: c, s =>
    rowsA c (s + r.size + 1) ++ [[holePos c + 1, holePos c + 1 + s]]
  | .rfr l :: c, s =>
    rowsA c (l.size + s + 1) ++
      ([holePos c + 1, holePos c + 1 + l.size] :: l.adjAt (holePos c + 1))

/-- Adjacency rows after the hole segment, as a function of the hole
segment's size. -/
def rowsB : Ctx → Nat → List (List Nat)
  | [], _ => []
  | .sfr :: c, s => rowsB c (s + 1)
  | .lfr r :: c, s => r.adjAt (holePos c + 1 + s) ++ rowsB c (s + r.size + 1)
  | .rfr l :: c, s => rowsB c (l.size + s + 1)

/-- The node position holding the hole's parent row. -/
def parentIdx : Ctx → Nat
  | [] => 0
  | _ :: c => holePos c

/-- The matcher scan sees the nodes and adjacency rows of the segment of `e`
at offset `o` exactly as in the flattening of `e`. -/
def SegHyp (nodes : List Label) (adj : List (List Nat)) : PExpr → Nat → Prop
  | .num k, o => nodes.getD o "" = toString (k : Nat) ∧ adj.getD o [] = []
  | .succ e, o => nodes.getD o "" = "succ" ∧ adj.getD o [] = [o + 1] ∧
      SegHyp nodes adj e (o + 1)
  | .plus l r, o => nodes.getD o "" = "+" ∧
      adj.getD o [] = [o + 1, o + 1 + l.size] ∧
      SegHyp nodes adj l (o + 1) ∧ SegHyp nodes adj r (o + 1 + l.size)

/-- The parent map agrees with the structural parents inside the segment of
`e` at offset `o`. -/
def PiHyp (pf : Nat → Nat) : PExpr → Nat → Prop
  | .num _, _ => True
  | .succ e, o => pf (o + 1) = o ∧ PiHyp pf e (o + 1)
  | .plus l r, o => pf (o + 1) = o ∧ pf (o + 1 + l.size) = o ∧
      PiHyp pf l (o + 1) ∧ PiHyp pf r (o + 1 + l.size)

/-- Expected final child count of a node by label: the `root` wrapper has one
child, `"+"` has two, numerals are leaves. -/
def expArity (lbl : Label) : Nat :=
  if lbl = "root" then 1 else if lbl = "+" then 2 else 0

/-- The child row of the hole's parent node, as a function of the hole
segment's size: left part (pointer to an elder sibling's head). -/
def prA : Ctx → List Nat
  | .rfr _ :: c => [holePos c + 1]
  | _ => []

/-- Right part of the hole's parent row (pointer to a younger sibling's
head, which sits right after the hole segment). -/
def prB : Ctx → Nat → List Nat
  | .lfr _ :: c, s => [holePos c + 1 + s]
  | _, _ => []

/-- The hole's parent row: elder siblings, the hole head, younger siblings. -/
def parentRow (c : Ctx) (s : Nat) : List Nat := prA c ++ holePos c :: prB c s

/-- The adjacency rows strictly before the hole's parent row (the root row
included). -/
def frontRows : Ctx → Nat → List (List Nat)
  | [], _ => []
  | .sfr :: c, s => [1] :: rowsA c (s + 1)
  | .lfr r :: c, s => [1] :: rowsA c (s + r.size + 1)
  | .rfr l :: c, s => [1] :: rowsA c (l.size + s + 1)

/-- The adjacency rows between the hole's parent row and the hole segment
(the rows of an elder sibling subtree). -/
def sibRows : Ctx → List (List Nat)
  | .rfr l :: c => l.adjAt (holePos c + 1)
  | _ => []

/-- Head guard: when the segment head is a `succ`, the matcher's parent
guard must hold there. -/
def HeadOK (nodes : List Label) (pf : Nat → Nat) : PExpr → Nat → Prop
  | .succ _, o => nodes.getD (pf o) "" ≠ "+" ∨ pf o = o - 1
  | _, _ => True

/-- The value recorded in `left_to_right` for each node of the segment of
`e` at offset `o` with accumulated shift `σ`: `-1` for nodes the pass
deletes, and the node's position in the successor tree otherwise. -/
def alnVal : PExpr → Nat → Int → Nat → Int
  | .num _, o, σ, _ => (o : Int) + σ
  | .succ (.num _), o, σ, j => if j = o then -1 else (o : Int) + σ
  | .succ (.succ x), o, σ, j =>
    if j = o then (o : Int) + σ else alnVal (.succ x) (o + 1) σ j
  | .succ (.plus l r), o, σ, j =>
    if j = o then (o : Int) + σ else alnVal (.plus l r) (o + 1) σ j
  | .plus l (.num k), o, σ, j =>
    if (k : Nat) = 0 then
      if j = o then -1
      else if j = o + 1 + l.size then -1
      else alnVal l (o + 1) (σ - 1) j
    else
      if j = o then (o : Int) + σ
      else if j = o + 1 + l.size then (j : Int) + (σ + 1 + PExpr.stepDelta l)
      else alnVal l (o + 1) σ j
  | .plus l (.succ r), o, σ, j =>
    if j = o then (o : Int) + σ
    else if j = o + 1 + l.size then -1
    else if j < o + 1 + l.size then alnVal l (o + 1) (σ + 1) j
    else alnVal r (o + 2 + l.size) (σ + PExpr.stepDelta l) j
  | .plus l (.plus a b), o, σ, j =>
    if j = o then (o : Int) + σ
    else if j < o + 1 + l.size then alnVal l (o + 1) σ j
    else alnVal (.plus a b) (o + 1 + l.size) (σ + PExpr.stepDelta l) j

/-- The nonnegative entries of an integer list, in order. -/
def keepNonneg (xs : List Int) : List Int := xs.filter (fun v => 0 ≤ v)

/-! ## Theorems -/

/-- The decision threshold constant is one half. -/
theorem half_eq_one_div_two : half = 1 / 2 := by
  rw [half]
  norm_num [Rat.mk'_eq_divInt, Rat.divInt_eq_div]

/-- Unfolding lemma: a driver iteration that fires. -/
theorem simplifyFuel_cons (f : Nat) (t t2 : Tree)
    (h1 : (passScript t).1 ≠ []) (h2 : applyScript (passScript t).1 t = .ok t2) :
    simplifyFuel (f + 1) t = (simplifyFuel f t2).map (t :: ·) := by
  rw [simplifyFuel.eq_def, if_neg h1, h2]

/-- Unfolding lemma: the driver stops at a fixpoint. -/
theorem simplifyFuel_nil (f : Nat) (t : Tree) (h : (passScript t).1 = []) :
    simplifyFuel f t = some [t] := by
  rw [simplifyFuel.eq_def, if_pos h]

/-- **C2**, counterexample.  On the input `root→+(1, succ(0))` the source
returns a three-tree trace: rules 1 and 4 fire in the same pass, so the
claimed intermediate tree `root→succ(1)` never appears and the claimed
four-tree trace is not returned. -/
theorem c2_counterexample :
    simplifyFuel 9 (enc (.plus (.num 1) (.succ (.num 0)))) =
        some [⟨["root", "+", "1", "succ", "0"], [[1], [2, 3], [], [4], []]⟩,
              ⟨["root", "+", "succ", "1", "0"], [[1], [2, 4], [3], [], []]⟩,
              ⟨["root", "2"], [[1], []]⟩] ∧
      simplifyFuel 9 (enc (.plus (.num 1) (.succ (.num 0)))) ≠
        some [⟨["root", "+", "1", "succ", "0"], [[1], [2, 3], [], [4], []]⟩,
              ⟨["root", "+", "succ", "1", "0"], [[1], [2, 4], [3], [], []]⟩,
              ⟨["root", "succ", "1"], [[1], [2], []]⟩,
              ⟨["root", "2"], [[1], []]⟩] := by
  have henc : enc (.plus (.num 1) (.succ (.num 0))) =
      ⟨["root", "+", "1", "succ", "0"], [[1], [2, 3], [], [4], []]⟩ := by decide
  have n1 : (passScript ⟨["root", "+", "1", "succ", "0"],
      [[1], [2, 3], [], [4], []]⟩).1 ≠ [] := by decide
  have e1 : applyScript (passScript ⟨["root", "+", "1", "succ", "0"],
        [[1], [2, 3], [], [4], []]⟩).1
        ⟨["root", "+", "1", "succ", "0"], [[1], [2, 3], [], [4], []]⟩ =
      .ok ⟨["root", "+", "succ", "1", "0"], [[1], [2, 4], [3], [], []]⟩ := by decide
  have n2 : (passScript ⟨["root", "+", "succ", "1", "0"],
      [[1], [2, 4], [3], [], []]⟩).1 ≠ [] := by decide
  have e2 : applyScript (passScript ⟨["root", "+", "succ", "1", "0"],
        [[1], [2, 4], [3], [], []]⟩).1
        ⟨["root", "+", "succ", "1", "0"], [[1], [2, 4], [3], [], []]⟩ =
      .ok ⟨["root", "2"], [[1], []]⟩ := by decide
  have f2 : (passScript ⟨["root", "2"], [[1], []]⟩).1 = [] := by decide
  have htr : simplifyFuel 9 (enc (.plus (.num 1) (.succ (.num 0)))) =
      some [⟨["root", "+", "1", "succ", "0"], [[1], [2, 3], [], [4], []]⟩,
            ⟨["root", "+", "succ", "1", "0"], [[1], [2, 4], [3], [], []]⟩,
            ⟨["root", "2"], [[1], []]⟩] := by
    rw [henc, simplifyFuel_cons 8 _ _ n1 e1, simplifyFuel_cons 7 _ _ n2 e2,
      simplifyFuel_nil 7 _ f2]
    rfl
  exact ⟨htr, by rw [htr]; decide⟩

/-- **C2**, amended.  `root→+(2, 0)` reduces in one step to `root→2`, via a
script of exactly the two deletions removing the `"+"` node and the `"0"`
node; `root→+(1, succ(0))` reduces to `root→+(succ(1), 0)` and then directly
to `root→2` (rules 1 and 4 fire in the same final pass), a three-tree
trace. -/
theorem c2_theorem :
    (passScript (enc (.plus (.num 2) (.num 0)))).1 = [.del 1, .del 2] ∧
      simplifyFuel 9 (enc (.plus (.num 2) (.num 0))) =
        some [⟨["root", "+", "2", "0"], [[1], [2, 3], [], []]⟩,
              ⟨["root", "2"], [[1], []]⟩] ∧
      simplifyFuel 9 (enc (.plus (.num 1) (.succ (.num 0)))) =
        some [⟨["root", "+", "1", "succ", "0"], [[1], [2, 3], [], [4], []]⟩,
              ⟨["root", "+", "succ", "1", "0"], [[1], [2, 4], [3], [], []]⟩,
              ⟨["root", "2"], [[1], []]⟩] := by
  refine ⟨by decide, ?_, ?_⟩
  · have henc : enc (.plus (.num 2) (.num 0)) =
        ⟨["root", "+", "2", "0"], [[1], [2, 3], [], []]⟩ := by decide
    have n1 : (passScript ⟨["root", "+", "2", "0"], [[1], [2, 3], [], []]⟩).1 ≠ [] := by
      decide
    have e1 : applyScript (passScript ⟨["root", "+", "2", "0"],
          [[1], [2, 3], [], []]⟩).1 ⟨["root", "+", "2", "0"], [[1], [2, 3], [], []]⟩ =
        .ok ⟨["root", "2"], [[1], []]⟩ := by decide
    have f1 : (passScript ⟨["root", "2"], [[1], []]⟩).1 = [] := by decide
    rw [henc, simplifyFuel_cons 8 _ _ n1 e1, simplifyFuel_nil 8 _ f1]
    rfl
  · have henc : enc (.plus (.num 1) (.succ (.num 0))) =
        ⟨["root", "+", "1", "succ", "0"], [[1], [2, 3], [], [4], []]⟩ := by decide
    have n1 : (passScript ⟨["root", "+", "1", "succ", "0"],
        [[1], [2, 3], [], [4], []]⟩).1 ≠ [] := by decide
    have e1 : applyScript (passScript ⟨["root", "+", "1", "succ", "0"],
          [[1], [2, 3], [], [4], []]⟩).1
          ⟨["root", "+", "1", "succ", "0"], [[1], [2, 3], [], [4], []]⟩ =
        .ok ⟨["root", "+", "succ", "1", "0"], [[1], [2, 4], [3], [], []]⟩ := by decide
    have n2 : (passScript ⟨["root", "+", "succ", "1", "0"],
        [[1], [2, 4], [3], [], []]⟩).1 ≠ [] := by decide
    have e2 : applyScript (passScript ⟨["root", "+", "succ", "1", "0"],
          [[1], [2, 4], [3], [], []]⟩).1
          ⟨["root", "+", "succ", "1", "0"], [[1], [2, 4], [3], [], []]⟩ =
        .ok ⟨["root", "2"], [[1], []]⟩ := by decide
    have f2 : (passScript ⟨["root", "2"], [[1], []]⟩).1 = [] := by decide
    rw [henc, simplifyFuel_cons 8 _ _ n1 e1, simplifyFuel_cons 7 _ _ n2 e2,
      simplifyFuel_nil 7 _ f2]
    rfl

/-- **C7**, counterexample.  `_simplify` accepts no step-cap argument and
raises no `NonTerminating` error: on a malformed input (the root has two
children) whose reduction takes one rewrite iteration — exceeding a step cap
of `0` — the capped driver described by the specification fails with
`NonTerminating`, while the source returns a normal trace. -/
theorem c7_counterexample :
    reduceCapped (some 0) 9 ⟨["root", "+", "2", "0", "7"], [[1, 4], [2, 3], [], [], []]⟩ =
        some (.error .nonTerminating) ∧
      simplifyFuel 9 ⟨["root", "+", "2", "0", "7"], [[1, 4], [2, 3], [], [], []]⟩ =
        some [⟨["root", "+", "2", "0", "7"], [[1, 4], [2, 3], [], [], []]⟩,
              ⟨["root", "2", "7"], [[1, 2], [], []]⟩] := by
  constructor
  · rw [reduceCapped]
    have n1 : ¬((passScript ⟨["root", "+", "2", "0", "7"],
        [[1, 4], [2, 3], [], [], []]⟩).1 = []) := by decide
    rw [if_neg n1, if_pos rfl]
  · have n1 : (passScript ⟨["root", "+", "2", "0", "7"],
        [[1, 4], [2, 3], [], [], []]⟩).1 ≠ [] := by decide
    have e1 : applyScript (passScript ⟨["root", "+", "2", "0", "7"],
          [[1, 4], [2, 3], [], [], []]⟩).1
          ⟨["root", "+", "2", "0", "7"], [[1, 4], [2, 3], [], [], []]⟩ =
        .ok ⟨["root", "2", "7"], [[1, 2], [], []]⟩ := by decide
    have f1 : (passScript ⟨["root", "2", "7"], [[1, 2], [], []]⟩).1 = [] := by decide
    rw [simplifyFuel_cons 8 _ _ n1 e1, simplifyFuel_nil 8 _ f1]
    rfl

/-- **C7**, amended.  The fixpoint driver `_simplify` takes no step-cap
argument and signals no `NonTerminating` error; whenever it returns a trace
(for any fuel), the trace starts with the input tree and ends with a genuine
fixpoint, a tree on which the matcher emits the empty script. -/
theorem c7_theorem : ∀ (fuel : Nat) (t : Tree) (ts : List Tree),
    simplifyFuel fuel t = some ts →
    ts.head? = some t ∧ ∃ tl, ts.getLast? = some tl ∧ (passScript tl).1 = [] := by
  intro fuel
  induction fuel with
  | zero =>
    intro t ts h
    rw [simplifyFuel.eq_def] at h
    by_cases hc : (passScript t).1 = []
    · rw [if_pos hc] at h
      cases h
      exact ⟨rfl, t, rfl, hc⟩
    · rw [if_neg hc] at h
      cases h
  | succ f ih =>
    intro t ts h
    rw [simplifyFuel.eq_def] at h
    by_cases hc : (passScript t).1 = []
    · rw [if_pos hc] at h
      cases h
      exact ⟨rfl, t, rfl, hc⟩
    · rw [if_neg hc] at h
      cases happ : applyScript (passScript t).1 t with
      | error er => rw [happ] at h; cases h
      | ok t2 =>
        rw [happ] at h
        obtain ⟨ts2, h2, rfl⟩ := Option.map_eq_some'.mp h
        obtain ⟨hhead, tl, hlast, hfix⟩ := ih t2 ts2 h2
        cases ts2 with
        | nil => cases hhead
        | cons a as => exact ⟨rfl, tl, by simpa using hlast, hfix⟩

/-- **C7**, witness for the amended theorem at a concrete run. -/
theorem c7_theorem_witness :
    ([⟨["root", "+", "2", "0"], [[1], [2, 3], [], []]⟩,
        (⟨["root", "2"], [[1], []]⟩ : Tree)].head? =
      some ⟨["root", "+", "2", "0"], [[1], [2, 3], [], []]⟩) ∧
    ∃ tl, ([⟨["root", "+", "2", "0"], [[1], [2, 3], [], []]⟩,
        (⟨["root", "2"], [[1], []]⟩ : Tree)].getLast? = some tl ∧
      (passScript tl).1 = []) := by
  have n1 : (passScript ⟨["root", "+", "2", "0"], [[1], [2, 3], [], []]⟩).1 ≠ [] := by
    decide
  have e1 : applyScript (passScript ⟨["root", "+", "2", "0"],
        [[1], [2, 3], [], []]⟩).1 ⟨["root", "+", "2", "0"], [[1], [2, 3], [], []]⟩ =
      .ok ⟨["root", "2"], [[1], []]⟩ := by decide
  have f1 : (passScript ⟨["root", "2"], [[1], []]⟩).1 = [] := by decide
  exact c7_theorem 9 ⟨["root", "+", "2", "0"], [[1], [2, 3], [], []]⟩ _
    (by rw [simplifyFuel_cons 8 _ _ n1 e1, simplifyFuel_nil 8 _ f1]; rfl)

/-- **C8**, counterexample.  On a malformed input in which two `"+"` nodes
share the same right child, the computed successor index for source node `5`
is `5` while the running successor cursor has already reached `6`, yet
`peano_alignment` raises no `AlignmentInconsistency`: it returns normally,
emitting the pair `(5, 6)` with the cursor value instead. -/
theorem c8_counterexample :
    (((List.range 6).foldl
        (alignScanAt ["root", "+", "+", "1", "succ", "2"]
          [[1], [2, 4], [3, 4], [], [3], []]
          (parentMap [[1], [2, 4], [3, 4], [], [3], []]))
        (fun _ => none, fun _ => 0)).1 5 = some 5) ∧
      (((List.range 5).foldl
        (alignMergeAt (((List.range 6).foldl
          (alignScanAt ["root", "+", "+", "1", "succ", "2"]
            [[1], [2, 4], [3, 4], [], [3], []]
            (parentMap [[1], [2, 4], [3, 4], [], [3], []]))
          (fun _ => none, fun _ => 0)).1))
        ([], 0)).2 = 6) ∧
      peano_alignment ⟨["root", "+", "+", "1", "succ", "2"],
          [[1], [2, 4], [3, 4], [], [3], []]⟩ =
        [(0, 0), (1, 1), (-1, 2), (2, 3), (-1, 4), (3, 5), (4, -1), (5, 6)] := by
  refine ⟨by decide, by decide, by decide⟩

/-- **C8**, amended.  `peano_alignment` never fails: when the computed
successor index `v` for a source node is nonnegative but below the running
successor cursor `j`, the merge pass emits no filler pairs and appends the
pair `(i, j)` built from the cursor instead of `v`, continuing normally. -/
theorem c8_theorem (l2r : Nat → Option Int) (pairs : List (Int × Int))
    (j : Int) (i : Nat) (h0 : 0 ≤ (l2r i).getD 0) (hlt : (l2r i).getD 0 < j) :
    alignMergeAt l2r (pairs, j) i = (pairs ++ [((i : Int), j)], j + 1) := by
  unfold alignMergeAt
  rw [if_neg (not_lt.mpr h0)]
  have hz : ((l2r i).getD 0 - j).toNat = 0 :=
    Int.toNat_of_nonpos (by omega)
  have hm : max j ((l2r i).getD 0) = j := max_eq_left (le_of_lt hlt)
  simp [hz, hm]

/-- **C8**, witness for the amended theorem at a concrete input. -/
theorem c8_theorem_witness :
    alignMergeAt (fun _ => some 0) ([], 1) 0 = ([((0 : Int), 1)], 2) := by
  have := c8_theorem (fun _ => some 0) [] 1 0 (by decide) (by decide)
  simpa using this

/-- **C9**, counterexample.  `predict_step` contains no `InvalidDecision`
check: on a tree whose node `1` has no children, with network outputs whose
most likely child slot is `3` (slot plus span `3 + 0` exceeds the child
count `0`), the insertion is emitted unchecked and the subsequent apply
fails with `InvalidSpan`, not with the claimed `InvalidDecision`. -/
theorem c9_counterexample :
    predictScript alphabet ["root", "1"] [[1], []] [0, 1]
        [[0, 0, 0, 0, 0, 0, 0, 0, 0, 0, 0, 0, 1], [0, 0, 0, 0, 0, 0, 0, 0, 0, 0, 0, 1, 0]]
        [[], [0, 0, 0, 1]] [[], [0, 0, 0, 0]] = [.ins 1 3 "succ" 0] ∧
      predict_step alphabet ⟨["root", "1"], [[1], []]⟩ [0, 1]
        [[0, 0, 0, 0, 0, 0, 0, 0, 0, 0, 0, 0, 1], [0, 0, 0, 0, 0, 0, 0, 0, 0, 0, 0, 1, 0]]
        [[], [0, 0, 0, 1]] [[], [0, 0, 0, 0]] = .error .invalidSpan ∧
      (Err.invalidSpan ≠ Err.invalidDecision) := by
  refine ⟨by decide, by decide, by decide⟩

/-- A single edit application never produces `InvalidDecision`. -/
theorem applyEdit_ne_invalidDecision (t : Tree) (e : Edit) :
    applyEdit t e ≠ .error .invalidDecision := by
  cases e with
  | del pos =>
    simp only [applyEdit, applyDel]
    split
    · simp
    · split
      · simp
      · split <;> simp
  | ins pos slot lbl span =>
    simp only [applyEdit, applyIns]
    split
    · simp
    · split
      · simp
      · split <;> simp
  | rep pos lbl =>
    simp only [applyEdit, applyRep]
    split
    · simp
    · split <;> simp

/-- Applying a whole script never produces `InvalidDecision`. -/
theorem applyScript_ne_invalidDecision (s : Script) (t : Tree) :
    applyScript s t ≠ .error .invalidDecision := by
  suffices h : ∀ (acc : Except Err Tree), acc ≠ .error .invalidDecision →
      s.foldl (fun acc e => acc.bind (fun u => applyEdit u e)) acc ≠
        .error .invalidDecision by
    exact h (.ok t) (by simp)
  induction s with
  | nil => intro acc hacc; exact hacc
  | cons e rest ih =>
    intro acc hacc
    refine ih _ ?_
    cases acc with
    | error er => simpa [Except.bind] using hacc
    | ok u => exact applyEdit_ne_invalidDecision u e

/-- **C9**, amended.  `predict_step` performs no slot/span validation and
never fails with `InvalidDecision`: when the predicted slot `c` is within
the node's child count, the greedy span loop keeps `c + span` within the
child count, and in every case the function's only possible failures are
the apply-time `OutOfRange`/`InvalidSpan` errors. -/
theorem c9_theorem :
    (∀ (row : List ℚ) (numc c : Nat), c ≤ numc → c + spanLen row numc c ≤ numc) ∧
      (∀ (alpha : List Label) (t : Tree) (delta : List ℚ)
        (types cidx cnum : List (List ℚ)),
        predict_step alpha t delta types cidx cnum ≠ .error .invalidDecision) := by
  constructor
  · intro row numc c hc
    have h1 : spanLen row numc c ≤ numc - c := by
      calc spanLen row numc c ≤ (List.range (numc - c)).length :=
            (List.takeWhile_prefix _).length_le
        _ = numc - c := List.length_range _
    omega
  · intro alpha t delta types cidx cnum
    unfold predict_step
    cases happ : applyScript (predictScript alpha t.nodes t.adj delta types cidx cnum) t with
    | error er =>
      have := applyScript_ne_invalidDecision
        (predictScript alpha t.nodes t.adj delta types cidx cnum) t
      rw [happ] at this
      simp only [happ, Except.map_error]
      intro hcontra
      apply this
      cases hcontra
      rfl
    | ok u => simp [happ, Except.map]

/-- **C9**, witness for the amended theorem at concrete inputs. -/
theorem c9_theorem_witness :
    (1 + spanLen [] 2 1 ≤ 2) ∧
      predict_step alphabet ⟨["root"], [[]]⟩ [] [] [] [] ≠ .error .invalidDecision :=
  ⟨c9_theorem.1 [] 2 1 (by norm_num), c9_theorem.2 alphabet _ _ _ _ _⟩

/-- A digit label is neither `"succ"` nor `"+"`. -/
theorem digit_label_notin (d : Fin 10) :
    toString (d : Nat) ∉ (["succ", "+"] : List Label) := by
  revert d
  decide

/-- **C3**.  In every matcher pass state, a node `i` labeled `"succ"` whose
guard holds (parent label not `"+"`, or parent index `i - 1`) and whose
child carries a bare numeral label makes the matcher emit exactly a
`Deletion` of the `succ` node at its shifted position followed by a
`Replacement` of the child, at its post-deletion shifted position, with the
label `(numeral + 1) mod 10`; when the guard fails, or the child is labeled
`"succ"` or `"+"`, nothing is emitted at that node. -/
theorem c3_theorem (nodes : List Label) (adj : List (List Nat))
    (pf : Nat → Nat) (sc : Script) (shift : Nat → Int) (i : Nat)
    (hsucc : nodes.getD i "" = "succ") :
    (((nodes.getD (pf i) "" ≠ "+" ∨ pf i = i - 1) →
      (∃ d : Fin 10, nodes.getD ((adj.getD i []).getD 0 0) "" = toString (d : Nat)) →
      matchAt nodes adj pf (sc, shift) i =
        (sc ++ [.del (i + shift i),
          .rep ((((adj.getD i []).getD 0 0 : Nat) : Int) +
              addSuffix shift (i + 1) (-1) ((adj.getD i []).getD 0 0))
            (toString ((labelVal (nodes.getD ((adj.getD i []).getD 0 0) "") + 1) % 10))],
         addSuffix shift (i + 1) (-1)))) ∧
      ((¬(nodes.getD (pf i) "" ≠ "+" ∨ pf i = i - 1) ∨
          nodes.getD ((adj.getD i []).getD 0 0) "" = "succ" ∨
          nodes.getD ((adj.getD i []).getD 0 0) "" = "+") →
        matchAt nodes adj pf (sc, shift) i = (sc, shift)) := by
  constructor
  · intro hguard hnum
    obtain ⟨d, hd⟩ := hnum
    simp only [matchAt]
    rw [if_neg (show ¬nodes.getD i "" = "+" by rw [hsucc]; decide),
      if_pos ⟨hsucc, hguard⟩,
      if_pos (show nodes.getD ((adj.getD i []).getD 0 0) "" ∉ (["succ", "+"] : List Label)
        from fun hmem => digit_label_notin d (hd ▸ hmem))]
  · intro hfail
    simp only [matchAt]
    rw [if_neg (show ¬nodes.getD i "" = "+" by rw [hsucc]; decide)]
    rcases hfail with hg | hc
    · rw [if_neg (fun h => hg h.2)]
    · by_cases hguard : nodes.getD (pf i) "" ≠ "+" ∨ pf i = i - 1
      · rw [if_pos ⟨hsucc, hguard⟩,
          if_neg (not_not_intro (show nodes.getD ((adj.getD i []).getD 0 0) "" ∈
            (["succ", "+"] : List Label) by rcases hc with h | h <;> rw [h] <;> decide))]
      · rw [if_neg (fun h => hguard h.2)]

/-- **C3**, witness at a concrete pass state. -/
theorem c3_theorem_witness :
    matchAt ["root", "succ", "3"] [[1], [2], []] (fun _ => 0)
        ([], fun _ => 0) 1 =
      ([.del 1, .rep ((2 : Nat) + addSuffix (fun _ => 0) 2 (-1) 2) "4"],
        addSuffix (fun _ => 0) 2 (-1)) := by
  have h := ( c3_theorem ["root", "succ", "3"] [[1], [2], []] (fun _ => 0)
    [] (fun _ => 0) 1 (by decide)).1
    (Or.inl (by decide)) ⟨3, by decide⟩
  simpa using h



/-- Folding a guarded single-edit emitter is filter-then-map. -/
theorem foldl_guard_emit (p : Nat → Bool) (f : Nat → Edit) :
    ∀ (xs : List Nat) (acc : Script),
      xs.foldl (fun sc i => if p i then sc ++ [f i] else sc) acc =
        acc ++ (xs.filter p).map f := by
  intro xs
  induction xs with
  | nil => simp
  | cons a as ih =>
    intro acc
    by_cases h : p a <;> simp [List.foldl_cons, h, ih]

/-- The replacement phase is the ascending filter-map the claim describes. -/
theorem replPhase_eq (alpha nodes : List Label) (delta : List ℚ)
    (types : List (List ℚ)) :
    replPhase alpha nodes delta types =
      (((List.range nodes.length).filter
        (fun i => decide (|delta.getD i 0| ≤ half ∧
          alpha.getD (argmaxIdx (types.getD i [])) "" ≠ nodes.getD i ""))).map
        (fun i => .rep (i : Int) (alpha.getD (argmaxIdx (types.getD i [])) ""))) := by
  have hb : (fun (sc : Script) i =>
      if ¬(|delta.getD i 0| ≤ half) then sc
      else
        let tp := alpha.getD (argmaxIdx (types.getD i [])) ""
        if tp ≠ nodes.getD i "" then sc ++ [.rep (i : Int) tp] else sc) =
      (fun sc i =>
        if (decide (|delta.getD i 0| ≤ half ∧
            alpha.getD (argmaxIdx (types.getD i [])) "" ≠ nodes.getD i "") : Bool)
        then sc ++ [.rep (i : Int) (alpha.getD (argmaxIdx (types.getD i [])) "")]
        else sc) := by
    funext sc i
    split_ifs <;> simp_all
    linarith
  rw [replPhase, hb, foldl_guard_emit]
  simp



/-- The deletion phase is the descending filter-map the claim describes. -/
theorem delPhase_eq (nodes : List Label) (delta : List ℚ) (insShift : Nat → Int) :
    delPhase nodes delta insShift =
      (((List.range nodes.length).reverse.filter
        (fun i => decide (delta.getD i 0 < -half))).map
        (fun i => .del ((i : Int) + insShift i))) := by
  have hb : (fun (sc : Script) i =>
      if -half ≤ delta.getD i 0 then sc
      else sc ++ [.del ((i : Int) + insShift i)]) =
      (fun sc i =>
        if (decide (delta.getD i 0 < -half) : Bool)
        then sc ++ [.del ((i : Int) + insShift i)] else sc) := by
    funext sc i
    split_ifs <;> simp_all
    linarith
  rw [delPhase, hb, foldl_guard_emit]
  simp

/-- The insertion phase over any range prefix is the ascending filter-map
with positions taken from the running shift table. -/
theorem insPhase_aux (alpha : List Label) (nodes : List Label)
    (adj : List (List Nat)) (delta : List ℚ) (types : List (List ℚ))
    (cidx : List (List ℚ)) (cnum : List (List ℚ)) : ∀ m : Nat,
    ((List.range m).foldl
      (fun st i =>
        if delta.getD i 0 ≤ half then st
        else
          let tp := alpha.getD (argmaxIdx (types.getD i [])) ""
          let c := argmaxIdx (cidx.getD i [])
          let numc := (adj.getD i []).length
          let cCount := spanLen (cnum.getD i []) numc c
          let j := if c < numc then (adj.getD i []).getD c 0
                   else subtreeLast adj nodes.length i + 1
          (st.1 ++ [.ins (i + st.2 i) c tp cCount], addSuffix st.2 j 1))
      (([] : Script), fun _ => (0 : Int))).1 =
      ((List.range m).filter (fun i => decide (half < delta.getD i 0))).map
        (fun i => .ins ((i : Int) + insShiftAt alpha nodes adj delta types cidx cnum i i)
          (argmaxIdx (cidx.getD i []))
          (alpha.getD (argmaxIdx (types.getD i [])) "")
          (spanLen (cnum.getD i []) (adj.getD i []).length
            (argmaxIdx (cidx.getD i [])))) := by
  intro m
  induction m with
  | zero => rfl
  | succ m ih =>
    have h2 : ((List.range m).foldl
        (fun st i =>
          if delta.getD i 0 ≤ half then st
          else
            let tp := alpha.getD (argmaxIdx (types.getD i [])) ""
            let c := argmaxIdx (cidx.getD i [])
            let numc := (adj.getD i []).length
            let cCount := spanLen (cnum.getD i []) numc c
            let j := if c < numc then (adj.getD i []).getD c 0
                     else subtreeLast adj nodes.length i + 1
            (st.1 ++ [.ins (i + st.2 i) c tp cCount], addSuffix st.2 j 1))
        (([] : Script), fun _ => (0 : Int))).2 =
        insShiftAt alpha nodes adj delta types cidx cnum m := rfl
    rw [List.range_succ, List.foldl_append, List.filter_append, List.map_append]
    rcases hF : ((List.range m).foldl
        (fun st i =>
          if delta.getD i 0 ≤ half then st
          else
            let tp := alpha.getD (argmaxIdx (types.getD i [])) ""
            let c := argmaxIdx (cidx.getD i [])
            let numc := (adj.getD i []).length
            let cCount := spanLen (cnum.getD i []) numc c
            let j := if c < numc then (adj.getD i []).getD c 0
                     else subtreeLast adj nodes.length i + 1
            (st.1 ++ [.ins (i + st.2 i) c tp cCount], addSuffix st.2 j 1))
        (([] : Script), fun _ => (0 : Int))) with ⟨a1, a2⟩
    rw [hF] at ih h2
    rw [hF, List.foldl_cons, List.foldl_nil]
    dsimp only at ih h2 ⊢
    by_cases h : delta.getD m 0 ≤ half
    · have hd : decide (half < delta.getD m 0) = false :=
        decide_eq_false (not_lt.mpr h)
      have hfm : List.filter (fun i => decide (half < delta.getD i 0)) [m] = [] := by
        simp only [List.filter_cons, List.filter_nil, hd]
        simp
      rw [hfm, List.map_nil, List.append_nil, if_pos h]
      exact ih
    · have hlt := lt_of_not_le h
      have hd : decide (half < delta.getD m 0) = true := decide_eq_true hlt
      have hfm : List.filter (fun i => decide (half < delta.getD i 0)) [m] = [m] := by
        simp only [List.filter_cons, List.filter_nil, hd]
        simp
      rw [hfm, if_neg h, ih, h2]
      simp



/-- **C6**.  `predict_step` builds its script in exactly three phases in this
order: replacements for every node with `|delta| ≤ 0.5` whose most likely
label differs from its current label; then insertions in ascending
node-index order for every node with `delta > 0.5`, using the most likely
child slot and the greedy span `spanLen`, positioned with the running
insertion shift table; then deletions in descending node-index order for
every node with `delta < -0.5`, each position offset by the final insertion
shift table. -/
theorem c6_theorem (alpha : List Label) (nodes : List Label)
    (adj : List (List Nat)) (delta : List ℚ) (types cidx cnum : List (List ℚ)) :
    predictScript alpha nodes adj delta types cidx cnum =
        replPhase alpha nodes delta types ++
          (insPhase alpha nodes adj delta types cidx cnum).1 ++
          delPhase nodes delta (insPhase alpha nodes adj delta types cidx cnum).2 ∧
      replPhase alpha nodes delta types =
        (((List.range nodes.length).filter
          (fun i => decide (|delta.getD i 0| ≤ half ∧
            alpha.getD (argmaxIdx (types.getD i [])) "" ≠ nodes.getD i ""))).map
          (fun i => .rep (i : Int) (alpha.getD (argmaxIdx (types.getD i [])) ""))) ∧
      (insPhase alpha nodes adj delta types cidx cnum).1 =
        ((List.range nodes.length).filter (fun i => decide (half < delta.getD i 0))).map
          (fun i => .ins ((i : Int) + insShiftAt alpha nodes adj delta types cidx cnum i i)
            (argmaxIdx (cidx.getD i []))
            (alpha.getD (argmaxIdx (types.getD i [])) "")
            (spanLen (cnum.getD i []) (adj.getD i []).length (argmaxIdx (cidx.getD i [])))) ∧
      delPhase nodes delta (insPhase alpha nodes adj delta types cidx cnum).2 =
        (((List.range nodes.length).reverse.filter
          (fun i => decide (delta.getD i 0 < -half))).map
          (fun i => .del ((i : Int) + (insPhase alpha nodes adj delta types cidx cnum).2 i))) ∧
      List.Pairwise (· < ·)
        ((List.range nodes.length).filter (fun i => decide (half < delta.getD i 0))) ∧
      List.Pairwise (· > ·)
        ((List.range nodes.length).reverse.filter (fun i => decide (delta.getD i 0 < -half))) :=
  ⟨rfl, replPhase_eq alpha nodes delta types,
    insPhase_aux alpha nodes adj delta types cidx cnum nodes.length,
    delPhase_eq nodes delta _,
    (List.pairwise_lt_range _).sublist (List.filter_sublist _),
    (List.pairwise_reverse.mpr (List.pairwise_lt_range _)).sublist (List.filter_sublist _)⟩



/-- Numeral draws land on digit labels distinct from the operator labels. -/
theorem alphabet_draw (maxInput r : Nat) (h9 : maxInput ≤ 9)
    (h2 : 2 ≤ r) (hlt : r < maxInput + 2) :
    alphabet.getD r "" ∈ digitLabels ∧ alphabet.getD r "" ≠ "0" ∧
      alphabet.getD r "" ≠ "succ" ∧ alphabet.getD r "" ≠ "root" ∧
      alphabet.getD r "" ≠ "+" := by
  have hr : r < 11 := by omega
  interval_cases r <;> simp [alphabet, digitLabels]

/-- One generation step preserves the arity bookkeeping invariant. -/
theorem genStep_inv (maxInput : Nat) (st : GenState) (p : Nat)
    (stk1 : List Nat) (hdec : st.stk = stk1 ++ [p]) (r : Nat)
    (hr : r = 0 ∨ (2 ≤ r ∧ r < maxInput + 2))
    (newstk : List Nat)
    (hcnt : ∀ j, newstk.count j =
      stk1.count j + (if j = st.nodes.length then expArity (alphabet.getD r "") else 0))
    (hmem : ∀ q ∈ newstk, q ∈ stk1 ∨ q = st.nodes.length)
    (hlen : st.nodes.length = st.adj.length)
    (hstk : ∀ q ∈ st.stk, q < st.nodes.length)
    (harity : ∀ i, i < st.nodes.length →
      (st.adj.getD i []).length + st.stk.count i = expArity (st.nodes.getD i ""))
    (hroot : st.nodes.getD 0 "" = "root")
    (hlab : ∀ i, 0 < i → i < st.nodes.length →
      st.nodes.getD i "" = "+" ∨
        ∃ q, 2 ≤ q ∧ q < maxInput + 2 ∧ st.nodes.getD i "" = alphabet.getD q "")
    (hchild : ∀ i, ∀ j ∈ st.adj.getD i [], i < j ∧ j < st.nodes.length)
    (hpos : 0 < st.nodes.length) :
    (st.nodes ++ [alphabet.getD r ""]).length =
        ((st.adj.set p (st.adj.getD p [] ++ [st.nodes.length])) ++ [[]]).length ∧
      (∀ q ∈ newstk, q < (st.nodes ++ [alphabet.getD r ""]).length) ∧
      (∀ i, i < (st.nodes ++ [alphabet.getD r ""]).length →
        ((((st.adj.set p (st.adj.getD p [] ++ [st.nodes.length])) ++ [[]]).getD i []).length
            + newstk.count i =
          expArity ((st.nodes ++ [alphabet.getD r ""]).getD i ""))) ∧
      (st.nodes ++ [alphabet.getD r ""]).getD 0 "" = "root" ∧
      (∀ i, 0 < i → i < (st.nodes ++ [alphabet.getD r ""]).length →
        (st.nodes ++ [alphabet.getD r ""]).getD i "" = "+" ∨
          ∃ q, 2 ≤ q ∧ q < maxInput + 2 ∧
            (st.nodes ++ [alphabet.getD r ""]).getD i "" = alphabet.getD q "") ∧
      (∀ i, ∀ j ∈ (((st.adj.set p (st.adj.getD p [] ++ [st.nodes.length])) ++ [[]]).getD i []),
        i < j ∧ j < (st.nodes ++ [alphabet.getD r ""]).length) ∧
      0 < (st.nodes ++ [alphabet.getD r ""]).length := by
  have hp : p < st.nodes.length := hstk p (by rw [hdec]; simp)
  have hpadj : p < st.adj.length := hlen ▸ hp
  have hstk1 : ∀ q ∈ stk1, q < st.nodes.length := fun q hq =>
    hstk q (by rw [hdec]; exact List.mem_append_left _ hq)
  have hcount1 : ∀ j, st.stk.count j = stk1.count j + (if p = j then 1 else 0) := by
    intro j
    rw [hdec, List.count_append]
    simp [List.count_singleton]
  have hnodes_lt : ∀ q, q < st.nodes.length →
      (st.nodes ++ [alphabet.getD r ""]).getD q "" = st.nodes.getD q "" := by
    intro q hq
    rw [List.getD_eq_getElem?_getD, List.getElem?_append_left hq,
      ← List.getD_eq_getElem?_getD]
  have hnodes_n : (st.nodes ++ [alphabet.getD r ""]).getD st.nodes.length "" =
      alphabet.getD r "" := by
    rw [List.getD_eq_getElem?_getD, List.getElem?_concat_length]
    rfl
  have hadj_set_len : (st.adj.set p (st.adj.getD p [] ++ [st.nodes.length])).length =
      st.adj.length := List.length_set _ _ _
  have hadj_lt : ∀ q, q < st.adj.length → q ≠ p →
      (((st.adj.set p (st.adj.getD p [] ++ [st.nodes.length])) ++ [[]]).getD q []) =
        st.adj.getD q [] := by
    intro q hq hqp
    rw [List.getD_eq_getElem?_getD,
      List.getElem?_append_left (by rw [hadj_set_len]; exact hq),
      List.getElem?_set_ne (fun h => hqp h.symm), ← List.getD_eq_getElem?_getD]
  have hadj_p : (((st.adj.set p (st.adj.getD p [] ++ [st.nodes.length])) ++ [[]]).getD p []) =
      st.adj.getD p [] ++ [st.nodes.length] := by
    rw [List.getD_eq_getElem?_getD,
      List.getElem?_append_left (by rw [hadj_set_len]; exact hpadj),
      List.getElem?_set_self hpadj]
    rfl
  have hadj_n : (((st.adj.set p (st.adj.getD p [] ++ [st.nodes.length])) ++ [[]]).getD
      st.adj.length []) = [] := by
    rw [List.getD_eq_getElem?_getD, ← hadj_set_len, List.getElem?_concat_length]
    rfl
  have hA : (st.adj.set p (st.adj.getD p [] ++ [st.nodes.length])).length =
      st.nodes.length := by
    rw [hadj_set_len]
    exact hlen.symm
  have hadj_nN : (((st.adj.set p (st.adj.getD p [] ++ [st.nodes.length])) ++ [[]]).getD
      st.nodes.length []) = [] := by
    rw [List.getD_eq_getElem?_getD, List.getElem?_append_right (le_of_eq hA), hA]
    simp
  have hadj_big : ∀ q, st.adj.length < q →
      (((st.adj.set p (st.adj.getD p [] ++ [st.nodes.length])) ++ [[]]).getD q []) = [] := by
    intro q hq
    rw [List.getD_eq_getElem?_getD, List.getElem?_eq_none]
    · rfl
    · simp [hadj_set_len]
      omega
  have hstk1count_n : stk1.count st.nodes.length = 0 :=
    List.count_eq_zero.mpr (fun hmem2 => absurd (hstk1 _ hmem2) (lt_irrefl _))
  refine ⟨by simp [hadj_set_len, hlen], ?_, ?_, ?_, ?_, ?_, ?_⟩
  · intro q hq
    rcases hmem q hq with h | h
    · have := hstk1 q h
      simp
      omega
    · simp [h]
  · intro i hi
    rw [List.length_append] at hi
    simp only [List.length_singleton] at hi
    by_cases hin : i = st.nodes.length
    · subst hin
      rw [hnodes_n, hadj_nN, hcnt]
      simp [hstk1count_n]
    · have hilt : i < st.nodes.length := by omega
      rw [hnodes_lt i hilt, hcnt]
      rw [if_neg hin]
      by_cases hip : i = p
      · subst hip
        rw [hadj_p]
        have := harity i hilt
        rw [hcount1 i, if_pos rfl] at this
        simp only [List.length_append, List.length_singleton]
        omega
      · rw [hadj_lt i (hlen ▸ hilt) hip]
        have := harity i hilt
        rw [hcount1 i, if_neg (fun h => hip h.symm)] at this
        omega
  · rw [hnodes_lt 0 hpos]
    exact hroot
  · intro i hi0 hi
    rw [List.length_append, List.length_singleton] at hi
    by_cases hin : i = st.nodes.length
    · subst hin
      rw [hnodes_n]
      rcases hr with h0 | ⟨h2, hlt⟩
      · subst h0
        left
        rfl
      · right
        exact ⟨r, h2, hlt, rfl⟩
    · rw [hnodes_lt i (by omega)]
      exact hlab i hi0 (by omega)
  · intro i j hj
    by_cases hip : i = p
    · rw [hip, hadj_p] at hj
      rcases List.mem_append.mp hj with h | h
      · have h2 := hchild p j h
        refine ⟨hip ▸ h2.1, ?_⟩
        simp only [List.length_append, List.length_singleton]
        omega
      · rw [List.mem_singleton] at h
        subst h
        refine ⟨hip ▸ hp, ?_⟩
        simp
    · by_cases hin : i < st.adj.length
      · rw [hadj_lt i hin hip] at hj
        have h2 := hchild i j hj
        refine ⟨h2.1, ?_⟩
        simp only [List.length_append, List.length_singleton]
        omega
      · by_cases hieq : i = st.adj.length
        · rw [hieq, hadj_n] at hj
          cases hj
        · rw [hadj_big i (by omega)] at hj
          cases hj
  · simp

/-- Invariant preservation for the generation loop: any successful run from a
state satisfying the arity bookkeeping invariant yields a tree satisfying
the final shape properties. -/
theorem genLoop_inv (maxInput : Nat) (h9 : maxInput ≤ 9) (rand : Nat → Nat) :
    ∀ (fuel tick : Nat) (st : GenState) (nodes : List Label)
      (adj : List (List Nat)),
    st.nodes.length = st.adj.length →
    (∀ p ∈ st.stk, p < st.nodes.length) →
    (∀ i, i < st.nodes.length →
      (st.adj.getD i []).length + st.stk.count i = expArity (st.nodes.getD i "")) →
    st.nodes.getD 0 "" = "root" →
    (∀ i, 0 < i → i < st.nodes.length →
      st.nodes.getD i "" = "+" ∨
        ∃ r, 2 ≤ r ∧ r < maxInput + 2 ∧ st.nodes.getD i "" = alphabet.getD r "") →
    (∀ i, ∀ j ∈ st.adj.getD i [], i < j ∧ j < st.nodes.length) →
    0 < st.nodes.length →
    genLoop maxInput rand fuel tick st = some (nodes, adj) →
    (nodes.length = adj.length ∧
      nodes.getD 0 "" = "root" ∧
      (∀ i, i < nodes.length → (adj.getD i []).length = expArity (nodes.getD i "")) ∧
      (∀ i, 0 < i → i < nodes.length →
        nodes.getD i "" = "+" ∨
          ∃ r, 2 ≤ r ∧ r < maxInput + 2 ∧ nodes.getD i "" = alphabet.getD r "") ∧
      (∀ i, ∀ j ∈ adj.getD i [], i < j ∧ j < nodes.length) ∧
      0 < nodes.length) := by
  intro fuel
  induction fuel with
  | zero => intro tick st nodes adj _ _ _ _ _ _ _ hrun; cases hrun
  | succ f ih =>
    intro tick st nodes adj hlen hstk harity hroot hlab hchild hpos hrun
    rw [genLoop] at hrun
    cases hlast : st.stk.getLast? with
    | none =>
      rw [hlast] at hrun
      cases hrun
      have hempty : st.stk = [] := List.getLast?_eq_none_iff.mp hlast
      refine ⟨hlen, hroot, ?_, hlab, hchild, hpos⟩
      intro i hi
      have := harity i hi
      rw [hempty] at this
      simpa using this
    | some p =>
      rw [hlast] at hrun
      obtain ⟨stk1, hdec⟩ := List.getLast?_eq_some_iff.mp hlast
      have hstk1 : st.stk.dropLast = stk1 := by rw [hdec, List.dropLast_concat]
      have hp : p < st.nodes.length := hstk (p) (by rw [hdec]; simp)
      simp only [hstk1] at hrun
      set r := rand tick with hr
      by_cases hok : if 0 < st.maxAdd then r = 0 ∨ (2 ≤ r ∧ r < maxInput + 2)
          else 2 ≤ r ∧ r < maxInput + 2
      · rw [if_neg (not_not_intro hok)] at hrun
        have hr2 : r = 0 ∨ (2 ≤ r ∧ r < maxInput + 2) := by
          by_cases hm : 0 < st.maxAdd
          · rw [if_pos hm] at hok
            exact hok
          · rw [if_neg hm] at hok
            exact Or.inr hok
        by_cases hplus : alphabet.getD r "" = "+"
        · rw [if_pos hplus] at hrun
          have hcnt : ∀ j, (stk1 ++ [st.nodes.length, st.nodes.length]).count j =
              stk1.count j +
                (if j = st.nodes.length then expArity (alphabet.getD r "") else 0) := by
            intro j
            rw [List.count_append]
            by_cases hj : j = st.nodes.length
            · subst hj
              rw [if_pos rfl, hplus]
              have e2 : expArity "+" = 2 := by decide
              simp [e2, List.count_cons]
            · simp [hj, List.count_cons]
          have hmem : ∀ q ∈ stk1 ++ [st.nodes.length, st.nodes.length],
              q ∈ stk1 ∨ q = st.nodes.length := by
            intro q hq
            rcases List.mem_append.mp hq with h | h
            · exact Or.inl h
            · simp only [List.mem_cons, List.mem_singleton] at h
              rcases h with h | h | h
              · exact Or.inr h
              · exact Or.inr h
              · cases h
          obtain ⟨L1, L2, L3, L4, L5, L6, L7⟩ :=
            genStep_inv maxInput st p stk1 hdec r hr2 _ hcnt hmem hlen hstk harity
              hroot hlab hchild hpos
          exact ih (tick + 1) ⟨_, _, _, _⟩ nodes adj L1 L2 L3 L4 L5 L6 L7 hrun
        · rw [if_neg hplus] at hrun
          have hr3 : 2 ≤ r ∧ r < maxInput + 2 := by
            rcases hr2 with h0 | h2
            · exact absurd (by rw [h0]; decide : alphabet.getD r "" = "+") hplus
            · exact h2
          obtain ⟨hdig, hne0, hnesucc, hneroot, hneplus⟩ :=
            alphabet_draw maxInput r h9 hr3.1 hr3.2
          have hexp : expArity (alphabet.getD r "") = 0 := by
            rw [expArity, if_neg hneroot, if_neg hneplus]
          have hcnt : ∀ j, stk1.count j =
              stk1.count j +
                (if j = st.nodes.length then expArity (alphabet.getD r "") else 0) := by
            intro j
            rw [hexp]
            simp
          have hmem : ∀ q ∈ stk1, q ∈ stk1 ∨ q = st.nodes.length := fun q hq => Or.inl hq
          obtain ⟨L1, L2, L3, L4, L5, L6, L7⟩ :=
            genStep_inv maxInput st p stk1 hdec r hr2 _ hcnt hmem hlen hstk harity
              hroot hlab hchild hpos
          exact ih (tick + 1) ⟨_, _, _, _⟩ nodes adj L1 L2 L3 L4 L5 L6 L7 hrun
      · rw [if_pos hok] at hrun
        cases hrun
  


/-- **C10**.  Every tree returned by `_generate_tree` for `1 ≤ max_input ≤ 9`
(for any draw stream the distribution admits) has a `root` node `0` with
exactly one child, every `"+"` node with exactly two children, every numeral
node a leaf, no node labeled `"0"` or `"succ"`, and every child index
strictly greater than its parent index. -/
theorem c10_theorem (maxAdditions : Int) (maxInput : Nat) (rand : Nat → Nat)
    (fuel : Nat) (nodes : List Label) (adj : List (List Nat))
    (h9 : maxInput ≤ 9)
    (hrun : generate_tree maxAdditions maxInput rand fuel = some (nodes, adj)) :
    nodes.getD 0 "" = "root" ∧ (adj.getD 0 []).length = 1 ∧
      (∀ i, i < nodes.length → nodes.getD i "" = "+" → (adj.getD i []).length = 2) ∧
      (∀ i, i < nodes.length → nodes.getD i "" ∈ digitLabels → adj.getD i [] = []) ∧
      (∀ i, i < nodes.length → nodes.getD i "" ≠ "0" ∧ nodes.getD i "" ≠ "succ") ∧
      (∀ i, ∀ j ∈ adj.getD i [], i < j) := by
  obtain ⟨L1, L2, L3, L4, L5, L6⟩ :=
    genLoop_inv maxInput h9 rand fuel 0 ⟨["root"], [[]], [0], maxAdditions⟩ nodes adj
      rfl
      (by intro q hq; simp only [List.mem_singleton] at hq; subst hq; exact Nat.one_pos)
      (by
        intro i hi
        simp only [List.length_singleton] at hi
        have : i = 0 := by omega
        subst this
        rfl)
      rfl
      (by intro i hi0 hi1; simp only [List.length_singleton] at hi1; omega)
      (by
        intro i j hj
        have hnil : ([[]] : List (List Nat)).getD i [] = [] := by
          cases i with
          | zero => rfl
          | succ m => cases m <;> rfl
        rw [hnil] at hj
        cases hj)
      Nat.one_pos
      hrun
  refine ⟨L2, ?_, ?_, ?_, ?_, ?_⟩
  · rw [L3 0 L6, L2]
    decide
  · intro i hi hplus
    rw [L3 i hi, hplus]
    decide
  · intro i hi hdig
    have hz : expArity (nodes.getD i "") = 0 := by
      have : ∀ s ∈ digitLabels, expArity s = 0 := by decide
      exact this _ hdig
    have := L3 i hi
    rw [hz] at this
    exact List.length_eq_zero.mp this
  · intro i hi
    by_cases hi0 : i = 0
    · subst hi0
      rw [L2]
      exact ⟨by decide, by decide⟩
    · rcases L4 i (Nat.pos_of_ne_zero hi0) hi with h | ⟨q, hq2, hqlt, hql⟩
      · rw [h]
        exact ⟨by decide, by decide⟩
      · obtain ⟨_, hne0, hnesucc, _, _⟩ := alphabet_draw maxInput q h9 hq2 hqlt
        rw [hql]
        exact ⟨hne0, hnesucc⟩
  · intro i j hj
    exact (L5 i j hj).1



/-- **C10**, witness: a concrete two-node generated tree. -/
theorem c10_theorem_witness :
    (["root", "1"] : List Label).getD 0 "" = "root" ∧
      (([[1], []] : List (List Nat)).getD 0 []).length = 1 ∧
      (∀ i, i < (["root", "1"] : List Label).length →
        (["root", "1"] : List Label).getD i "" = "+" →
        (([[1], []] : List (List Nat)).getD i []).length = 2) ∧
      (∀ i, i < (["root", "1"] : List Label).length →
        (["root", "1"] : List Label).getD i "" ∈ digitLabels →
        ([[1], []] : List (List Nat)).getD i [] = []) ∧
      (∀ i, i < (["root", "1"] : List Label).length →
        (["root", "1"] : List Label).getD i "" ≠ "0" ∧
          (["root", "1"] : List Label).getD i "" ≠ "succ") ∧
      (∀ i, ∀ j ∈ ([[1], []] : List (List Nat)).getD i [], i < j) :=
  c10_theorem 1 3 (fun _ => 2) 5 ["root", "1"] [[1], []] (by decide) (by decide)

end Peano

namespace Peano

/-- Every expression has at least one node. -/
theorem PExpr.size_pos (e : PExpr) : 0 < e.size := by
  cases e <;> simp [PExpr.size]

/-- The label list has exactly `size` entries. -/
theorem PExpr.labels_length (e : PExpr) : e.labels.length = e.size := by
  induction e with
  | num k => rfl
  | succ e ih => simp [PExpr.labels, PExpr.size, ih]
  | plus l r ihl ihr => simp [PExpr.labels, PExpr.size, ihl, ihr]

/-- The adjacency row list has exactly `size` entries. -/
theorem PExpr.adjAt_length (e : PExpr) (o : Nat) : (e.adjAt o).length = e.size := by
  induction e generalizing o with
  | num k => rfl
  | succ e ih => simp [PExpr.adjAt, PExpr.size, ih]
  | plus l r ihl ihr => simp [PExpr.adjAt, PExpr.size, ihl, ihr]

/-- Entries of the segment's adjacency rows stay strictly inside the
segment, below the row's own node. -/
theorem PExpr.adjAt_bounds (e : PExpr) (o d j : Nat)
    (hj : j ∈ (e.adjAt o).getD d []) : o < j ∧ j < o + e.size ∧ o + d < j := by
  induction e generalizing o d with
  | num k =>
    rcases d with _ | d
    · cases hj
    · have : (PExpr.adjAt (.num k) o).getD (d + 1) [] = [] := by
        cases d <;> rfl
      rw [this] at hj
      cases hj
  | succ e ih =>
    rcases d with _ | d
    · simp only [PExpr.adjAt, List.getD_cons_zero, List.mem_singleton] at hj
      subst hj
      have := e.size_pos
      refine ⟨by omega, by simp [PExpr.size]; omega, by omega⟩
    · simp only [PExpr.adjAt, List.getD_cons_succ] at hj
      obtain ⟨h1, h2, h3⟩ := ih (o + 1) d hj
      refine ⟨by omega, by simp [PExpr.size]; omega, by omega⟩
  | plus l r ihl ihr =>
    rcases d with _ | d
    · simp only [PExpr.adjAt, List.getD_cons_zero, List.mem_cons,
        List.mem_singleton] at hj
      have hl := l.size_pos
      have hr := r.size_pos
      rcases hj with h | h | h
      · subst h
        refine ⟨by omega, by simp [PExpr.size]; omega, by omega⟩
      · subst h
        refine ⟨by omega, by simp [PExpr.size]; omega, by omega⟩
      · cases h
    · simp only [PExpr.adjAt, List.getD_cons_succ] at hj
      by_cases hd : d < l.size
      · rw [List.getD_eq_getElem?_getD,
          List.getElem?_append_left (by rw [l.adjAt_length]; exact hd),
          ← List.getD_eq_getElem?_getD] at hj
        obtain ⟨h1, h2, h3⟩ := ihl (o + 1) d hj
        refine ⟨by omega, by simp [PExpr.size]; omega, by omega⟩
      · rw [List.getD_eq_getElem?_getD,
          List.getElem?_append_right (by rw [l.adjAt_length]; omega),
          l.adjAt_length, ← List.getD_eq_getElem?_getD] at hj
        obtain ⟨h1, h2, h3⟩ := ihr (o + 1 + l.size) (d - l.size) hj
        refine ⟨by omega, by simp [PExpr.size]; omega, by omega⟩

end Peano

namespace Peano

/-- Flattening a filled context decomposes into the context parts around
the segment of the plugged expression. -/
theorem enc_fill (c : Ctx) (e : PExpr) :
    enc (fill c e) =
      ⟨"root" :: (ctxPre c ++ e.labels ++ ctxPost c),
       [1] :: (rowsA c e.size ++ e.adjAt (holePos c) ++ rowsB c e.size)⟩ := by
  induction c generalizing e with
  | nil => simp [fill, enc, ctxPre, ctxPost, rowsA, rowsB, holePos]
  | cons f c ih =>
    cases f with
    | sfr =>
      rw [fill, ih]
      simp [ctxPre, ctxPost, rowsA, rowsB, holePos, PExpr.labels, PExpr.adjAt,
        PExpr.size, List.append_assoc]
    | lfr r =>
      rw [fill, ih]
      simp [ctxPre, ctxPost, rowsA, rowsB, holePos, PExpr.labels, PExpr.adjAt,
        PExpr.size, List.append_assoc]
    | rfr l =>
      rw [fill, ih]
      simp [ctxPre, ctxPost, rowsA, rowsB, holePos, PExpr.labels, PExpr.adjAt,
        PExpr.size, List.append_assoc]

end Peano

namespace Peano

section ListToolkit

variable {α : Type}

/-- Erase the element between two list parts. -/
theorem eraseIdx_append_mid (A B : List α) (y : α) :
    (A ++ y :: B).eraseIdx A.length = A ++ B := by
  induction A with
  | nil => rfl
  | cons a A ih => simp [List.eraseIdx, ih]

/-- Set the element between two list parts. -/
theorem set_append_mid (A B : List α) (y z : α) :
    (A ++ y :: B).set A.length z = A ++ z :: B := by
  induction A with
  | nil => rfl
  | cons a A ih => simp [List.set, ih]

/-- Insert an element between two list parts. -/
theorem insertIdx_append_mid (A B : List α) (z : α) :
    (A ++ B).insertIdx A.length z = A ++ z :: B := by
  induction A with
  | nil => rfl
  | cons a A ih =>
    show a :: (A ++ B).insertIdx A.length z = a :: (A ++ z :: B)
    exact congrArg _ ih

/-- Read the element between two list parts. -/
theorem getD_append_mid (A B : List α) (y d : α) :
    (A ++ y :: B).getD A.length d = y := by
  induction A with
  | nil => rfl
  | cons a A ih => simpa using ih

/-- Read past a prefix. -/
theorem getD_append_plus (A B : List α) (k : Nat) (d : α) :
    (A ++ B).getD (A.length + k) d = B.getD k d := by
  induction A with
  | nil => simp
  | cons a A ih =>
    simp only [List.cons_append, List.length_cons]
    rw [show A.length + 1 + k = (A.length + k) + 1 by omega]
    simpa using ih

/-- Read inside a prefix. -/
theorem getD_append_lt (A B : List α) (k : Nat) (d : α) (h : k < A.length) :
    (A ++ B).getD k d = A.getD k d := by
  rw [List.getD_eq_getElem?_getD, List.getElem?_append_left h,
    ← List.getD_eq_getElem?_getD]

/-- `findIdx?` skips a prefix with no matches. -/
theorem findIdx_skip (p : α → Bool) (A B : List α) (h : ∀ x ∈ A, ¬p x) :
    (A ++ B).findIdx? p = (B.findIdx? p).map (· + A.length) := by
  induction A with
  | nil => simp
  | cons a A ih =>
    have ha : p a = false := by
      have := h a (List.mem_cons_self a A)
      simpa using this
    simp only [List.cons_append, List.findIdx?_cons, ha, Bool.false_eq_true,
      if_false, Nat.zero_add]
    rw [List.findIdx?_succ, ih (fun x hx => h x (List.mem_cons_of_mem a hx))]
    cases B.findIdx? p <;> simp [Option.map_map]
    omega

/-- Setting an entry to its current value changes nothing. -/
theorem set_getD_self (L : List α) (i : Nat) (d : α) (v : α)
    (hv : L.getD i d = v) (hi : i < L.length) : L.set i v = L := by
  subst hv
  rw [List.getD_eq_getElem?_getD, List.getElem?_eq_getElem hi]
  apply List.ext_getElem?
  intro n
  rw [List.getElem?_set]
  split
  · next hn => subst hn; simp [List.getElem?_eq_getElem hi]
  · rfl

end ListToolkit

end Peano

namespace Peano

theorem holePos_pos (c : Ctx) : 1 ≤ holePos c := by
  induction c with
  | nil => exact le_refl 1
  | cons f c ih => cases f <;> simp [holePos] <;> omega

theorem parentIdx_lt (c : Ctx) : parentIdx c < holePos c := by
  cases c with
  | nil => exact Nat.zero_lt_one
  | cons f c =>
    have := holePos_pos c
    have := PExpr.size_pos
    cases f <;> simp [parentIdx, holePos] <;> omega

theorem ctxPre_length (c : Ctx) : (ctxPre c).length + 1 = holePos c := by
  induction c with
  | nil => rfl
  | cons f c ih =>
    cases f with
    | sfr => simp [ctxPre, holePos]; omega
    | lfr r => simp [ctxPre, holePos]; omega
    | rfr l => simp [ctxPre, holePos, PExpr.labels_length]; omega

theorem rowsA_length (c : Ctx) (s : Nat) :
    (rowsA c s).length + 1 = holePos c := by
  induction c generalizing s with
  | nil => rfl
  | cons f c ih =>
    cases f with
    | sfr => simp [rowsA, holePos, ← ih (s + 1)]
    | lfr r => simp [rowsA, holePos, ← ih (s + r.size + 1)]
    | rfr l =>
      simp [rowsA, holePos, PExpr.adjAt_length, ← ih (l.size + s + 1)]
      omega

/-- Membership form of the adjacency-entry bounds. -/
theorem PExpr.adjAt_mem (e : PExpr) (o : Nat) (L : List Nat) (j : Nat)
    (hL : L ∈ e.adjAt o) (hj : j ∈ L) : o < j ∧ j < o + e.size := by
  induction e generalizing o with
  | num k =>
    simp only [PExpr.adjAt, List.mem_singleton] at hL
    subst hL; cases hj
  | succ e ih =>
    have hsz : (PExpr.succ e).size = e.size + 1 := rfl
    simp only [PExpr.adjAt, List.mem_cons] at hL
    rcases hL with h | h
    · subst h
      simp only [List.mem_singleton] at hj
      subst hj
      have := e.size_pos
      omega
    · obtain ⟨h1, h2⟩ := ih (o + 1) h
      omega
  | plus l r ihl ihr =>
    have hsz : (PExpr.plus l r).size = l.size + r.size + 1 := rfl
    simp only [PExpr.adjAt, List.mem_cons, List.mem_append] at hL
    have hls := l.size_pos
    have hrs := r.size_pos
    rcases hL with h | h | h
    · subst h
      simp only [List.mem_cons, List.mem_singleton] at hj
      rcases hj with h | h | h
      · subst h; omega
      · subst h; omega
      · cases h
    · obtain ⟨h1, h2⟩ := ihl (o + 1) h
      omega
    · obtain ⟨h1, h2⟩ := ihr (o + 1 + l.size) h
      omega

/-- Entries of the rows before the hole point at or before the hole head, or
past the hole segment. -/
theorem rowsA_mem (c : Ctx) (s : Nat) (L : List Nat) (j : Nat)
    (hL : L ∈ rowsA c s) (hj : j ∈ L) :
    1 ≤ j ∧ (j ≤ holePos c ∨ holePos c + s ≤ j) := by
  induction c generalizing s with
  | nil => cases hL
  | cons f c ih =>
    have hhp := holePos_pos c
    cases f with
    | sfr =>
      simp only [rowsA, List.mem_append, List.mem_singleton] at hL
      rcases hL with h | h
      · obtain ⟨h1, h2⟩ := ih (s + 1) h
        simp only [holePos]; omega
      · subst h
        simp only [List.mem_singleton] at hj
        subst hj; simp only [holePos]; omega
    | lfr r =>
      simp only [rowsA, List.mem_append, List.mem_singleton] at hL
      rcases hL with h | h
      · obtain ⟨h1, h2⟩ := ih (s + r.size + 1) h
        simp only [holePos]; omega
      · subst h
        simp only [List.mem_cons, List.mem_singleton] at hj
        rcases hj with h | h | h
        · subst h; simp only [holePos]; omega
        · subst h; simp only [holePos]; omega
        · cases h
    | rfr l =>
      have hls := l.size_pos
      simp only [rowsA, List.mem_append, List.mem_cons] at hL
      rcases hL with h | h | h
      · obtain ⟨h1, h2⟩ := ih (l.size + s + 1) h
        simp only [holePos]; omega
      · subst h
        simp only [List.mem_cons, List.mem_singleton] at hj
        rcases hj with h | h | h
        · subst h; simp only [holePos]; omega
        · subst h; simp only [holePos]; omega
        · cases h
      · obtain ⟨h1, h2⟩ := PExpr.adjAt_mem l (holePos c + 1) L j h hj
        simp only [holePos]; omega

/-- Entries of the rows after the hole point strictly past the hole
segment. -/
theorem rowsB_mem (c : Ctx) (s : Nat) (L : List Nat) (j : Nat)
    (hL : L ∈ rowsB c s) (hj : j ∈ L) : holePos c + s < j := by
  induction c generalizing s with
  | nil => cases hL
  | cons f c ih =>
    cases f with
    | sfr =>
      have := ih (s + 1) hL
      simp only [holePos]; omega
    | lfr r =>
      simp only [rowsB, List.mem_append] at hL
      rcases hL with h | h
      · obtain ⟨h1, h2⟩ := PExpr.adjAt_mem r (holePos c + 1 + s) L j h hj
        simp only [holePos]; omega
      · have := ih (s + r.size + 1) h
        simp only [holePos]; omega
    | rfr l =>
      have := ih (l.size + s + 1) hL
      simp only [holePos]; omega

theorem prA_mem (c : Ctx) (j : Nat) (hj : j ∈ prA c) :
    parentIdx c < j ∧ j < holePos c := by
  match c with
  | [] => cases hj
  | .sfr :: c => cases hj
  | .lfr r :: c => cases hj
  | .rfr l :: c =>
    have := l.size_pos
    simp only [prA, List.mem_singleton] at hj
    subst hj
    simp only [parentIdx, holePos]; omega

theorem prB_mem (c : Ctx) (s : Nat) (j : Nat) (hj : j ∈ prB c s) :
    j = holePos c + s := by
  match c with
  | [] => cases hj
  | .sfr :: c => cases hj
  | .lfr r :: c =>
    simp only [prB, List.mem_singleton] at hj
    subst hj; simp only [holePos]
  | .rfr l :: c => cases hj

/-- The root row and the rows before the hole decompose around the hole's
parent row. -/
theorem front_eq (c : Ctx) (s : Nat) :
    [1] :: rowsA c s = frontRows c s ++ parentRow c s :: sibRows c := by
  match c with
  | [] => rfl
  | .sfr :: c => simp [rowsA, frontRows, parentRow, prA, prB, sibRows, holePos]
  | .lfr r :: c => simp [rowsA, frontRows, parentRow, prA, prB, sibRows, holePos]
  | .rfr l :: c => simp [rowsA, frontRows, parentRow, prA, prB, sibRows, holePos]

theorem frontRows_length (c : Ctx) (s : Nat) :
    (frontRows c s).length = parentIdx c := by
  match c with
  | [] => rfl
  | .sfr :: c => simp [frontRows, parentIdx, ← rowsA_length c (s + 1)]
  | .lfr r :: c => simp [frontRows, parentIdx, ← rowsA_length c (s + r.size + 1)]
  | .rfr l :: c => simp [frontRows, parentIdx, ← rowsA_length c (l.size + s + 1)]

theorem frontRows_mem (c : Ctx) (s : Nat) (L : List Nat) (j : Nat)
    (hL : L ∈ frontRows c s) (hj : j ∈ L) :
    1 ≤ j ∧ (j ≤ parentIdx c ∨ holePos c + s ≤ j) := by
  have hhp : ∀ c' : Ctx, 1 ≤ holePos c' := holePos_pos
  match c with
  | [] => cases hL
  | .sfr :: c =>
    simp only [frontRows, List.mem_cons] at hL
    rcases hL with h | h
    · subst h; simp only [List.mem_singleton] at hj; subst hj
      have := hhp c; simp only [parentIdx, holePos]; omega
    · obtain ⟨h1, h2⟩ := rowsA_mem c (s + 1) L j h hj
      simp only [parentIdx, holePos]; omega
  | .lfr r :: c =>
    simp only [frontRows, List.mem_cons] at hL
    rcases hL with h | h
    · subst h; simp only [List.mem_singleton] at hj; subst hj
      have := hhp c; simp only [parentIdx, holePos]; omega
    · obtain ⟨h1, h2⟩ := rowsA_mem c (s + r.size + 1) L j h hj
      simp only [parentIdx, holePos]; omega
  | .rfr l :: c =>
    simp only [frontRows, List.mem_cons] at hL
    rcases hL with h | h
    · subst h; simp only [List.mem_singleton] at hj; subst hj
      have := hhp c; simp only [parentIdx, holePos]; omega
    · obtain ⟨h1, h2⟩ := rowsA_mem c (l.size + s + 1) L j h hj
      simp only [parentIdx, holePos]; omega

theorem sibRows_mem (c : Ctx) (L : List Nat) (j : Nat)
    (hL : L ∈ sibRows c) (hj : j ∈ L) :
    parentIdx c < j ∧ j < holePos c := by
  match c with
  | [] => cases hL
  | .sfr :: c => cases hL
  | .lfr r :: c => cases hL
  | .rfr l :: c =>
    obtain ⟨h1, h2⟩ := PExpr.adjAt_mem l (holePos c + 1) L j hL hj
    simp only [parentIdx, holePos]; omega

end Peano

namespace Peano

section ListToolkit2

variable {α : Type}

theorem take_append_mid (A B : List α) (y : α) :
    (A ++ y :: B).take A.length = A := by
  have := List.take_left A (y :: B)
  simpa using this

theorem drop_append_mid (A B : List α) (y : α) :
    (A ++ y :: B).drop (A.length + 1) = B := by
  induction A with
  | nil => rfl
  | cons a A ih => simpa using ih

theorem indexOf_append_mid [BEq α] [LawfulBEq α] (A B : List α) (y : α)
    (h : ∀ x ∈ A, x ≠ y) : (A ++ y :: B).indexOf y = A.length := by
  induction A with
  | nil => simp [List.indexOf_cons]
  | cons a A ih =>
    have ha : (a == y) = false := by
      simpa using h a (List.mem_cons_self a A)
    simp only [List.cons_append, List.indexOf_cons, ha, cond_false]
    rw [ih (fun x hx => h x (List.mem_cons_of_mem a hx))]
    rfl

/-- `findIdx?` for a containment test finds the unique row holding `p`. -/
theorem find_mid (A B : List (List Nat)) (r : List Nat) (p : Nat)
    (hA : ∀ L ∈ A, p ∉ L) (hr : p ∈ r) :
    (A ++ r :: B).findIdx? (fun L => L.contains p) = some A.length := by
  rw [findIdx_skip _ A (r :: B)
    (fun L hL => by simpa [List.elem_iff] using hA L hL)]
  rw [List.findIdx?_cons, if_pos (by simpa [List.elem_iff] using hr)]
  simp

/-- Congruence for a map over adjacency rows. -/
theorem map_rows_congr (f g : Nat → Nat) (rows : List (List Nat))
    (h : ∀ L ∈ rows, ∀ j ∈ L, f j = g j) :
    rows.map (List.map f) = rows.map (List.map g) :=
  List.map_congr_left fun L hL => List.map_congr_left fun j hj => h L hL j hj

/-- A map that fixes every entry of the rows does nothing. -/
theorem map_rows_id (g : Nat → Nat) (rows : List (List Nat))
    (h : ∀ L ∈ rows, ∀ j ∈ L, g j = j) :
    rows.map (List.map g) = rows := by
  have := map_rows_congr g id rows h
  simpa using this

end ListToolkit2

/-- Reindexing a segment's adjacency rows by a translation on the segment's
positions moves the segment. -/
theorem PExpr.adjAt_translate (e : PExpr) (o o' : Nat) (g : Nat → Nat)
    (hg : ∀ m : Nat, g (o + m) = o' + m) :
    (e.adjAt o).map (List.map g) = e.adjAt o' := by
  induction e generalizing o o' with
  | num k => rfl
  | succ e ih =>
    have h1 : g (o + 1) = o' + 1 := hg 1
    simp only [PExpr.adjAt, List.map_cons, List.map_singleton, h1]
    rw [ih (o + 1) (o' + 1) (fun m => by
      rw [show o + 1 + m = o + (1 + m) from by omega, hg (1 + m)]; omega)]
    simp
  | plus l r ihl ihr =>
    have h1 : g (o + 1) = o' + 1 := hg 1
    have h2 : g (o + 1 + l.size) = o' + 1 + l.size := by
      rw [show o + 1 + l.size = o + (1 + l.size) from by omega, hg (1 + l.size)]
      omega
    simp only [PExpr.adjAt, List.map_cons, List.map_append, h1, h2]
    rw [ihl (o + 1) (o' + 1) (fun m => by
        rw [show o + 1 + m = o + (1 + m) from by omega, hg (1 + m)]; omega),
      ihr (o + 1 + l.size) (o' + 1 + l.size) (fun m => by
        rw [show o + 1 + l.size + m = o + (1 + l.size + m) from by omega,
          hg (1 + l.size + m)]
        omega)]
    simp

end Peano

namespace Peano

/-- Reindexing the rows before the hole: a map that fixes positions up to
the hole head and translates positions past the hole segment retargets the
segment size. -/
theorem rowsA_map (c : Ctx) (s s' : Nat) (g : Nat → Nat)
    (hlow : ∀ j, 1 ≤ j → j ≤ holePos c → g j = j)
    (hhigh : ∀ m : Nat, g (holePos c + s + m) = holePos c + s' + m) :
    (rowsA c s).map (List.map g) = rowsA c s' := by
  induction c generalizing s s' with
  | nil => rfl
  | cons f c ih =>
    cases f with
    | sfr =>
      simp only [holePos] at hlow hhigh
      simp only [rowsA, List.map_append, List.map_cons, List.map_nil,
        List.map_singleton]
      rw [ih (s + 1) (s' + 1)
        (fun j h1 h2 => hlow j h1 (by omega))
        (fun m => by
          rw [show holePos c + (s + 1) + m = holePos c + 1 + s + m from by omega,
            hhigh m]
          omega),
        hlow (holePos c + 1) (by omega) (by omega)]
    | lfr r =>
      simp only [holePos] at hlow hhigh
      simp only [rowsA, List.map_append, List.map_cons, List.map_nil]
      rw [ih (s + r.size + 1) (s' + r.size + 1)
        (fun j h1 h2 => hlow j h1 (by omega))
        (fun m => by
          rw [show holePos c + (s + r.size + 1) + m
              = holePos c + 1 + s + (r.size + m) from by omega,
            hhigh (r.size + m)]
          omega),
        hlow (holePos c + 1) (by omega) (by omega),
        show g (holePos c + 1 + s) = holePos c + 1 + s' from by
          simpa using hhigh 0]
    | rfr l =>
      simp only [holePos] at hlow hhigh
      simp only [rowsA, List.map_append, List.map_cons, List.map_nil]
      have hls := l.size_pos
      rw [ih (l.size + s + 1) (l.size + s' + 1)
        (fun j h1 h2 => hlow j h1 (by omega))
        (fun m => by
          rw [show holePos c + (l.size + s + 1) + m
              = holePos c + 1 + l.size + s + m from by omega,
            hhigh m]
          omega),
        hlow (holePos c + 1) (by omega) (by omega),
        hlow (holePos c + 1 + l.size) (by omega) (by omega),
        map_rows_id g (l.adjAt (holePos c + 1)) (fun L hL j hj => by
          obtain ⟨h1, h2⟩ := PExpr.adjAt_mem l (holePos c + 1) L j hL hj
          exact hlow j (by omega) (by omega))]

/-- Reindexing the rows after the hole. -/
theorem rowsB_map (c : Ctx) (s s' : Nat) (g : Nat → Nat)
    (hlow : ∀ j, 1 ≤ j → j ≤ holePos c → g j = j)
    (hhigh : ∀ m : Nat, g (holePos c + s + m) = holePos c + s' + m) :
    (rowsB c s).map (List.map g) = rowsB c s' := by
  induction c generalizing s s' with
  | nil => rfl
  | cons f c ih =>
    cases f with
    | sfr =>
      simp only [holePos] at hlow hhigh
      simp only [rowsB]
      exact ih (s + 1) (s' + 1)
        (fun j h1 h2 => hlow j h1 (by omega))
        (fun m => by
          rw [show holePos c + (s + 1) + m = holePos c + 1 + s + m from by omega,
            hhigh m]
          omega)
    | lfr r =>
      simp only [holePos] at hlow hhigh
      simp only [rowsB, List.map_append]
      rw [PExpr.adjAt_translate r (holePos c + 1 + s) (holePos c + 1 + s') g
          (fun m => by
            rw [show holePos c + 1 + s + m = holePos c + 1 + s + m from rfl,
              hhigh m]),
        ih (s + r.size + 1) (s' + r.size + 1)
          (fun j h1 h2 => hlow j h1 (by omega))
          (fun m => by
            rw [show holePos c + (s + r.size + 1) + m
                = holePos c + 1 + s + (r.size + m) from by omega,
              hhigh (r.size + m)]
            omega)]
    | rfr l =>
      simp only [holePos] at hlow hhigh
      simp only [rowsB]
      exact ih (l.size + s + 1) (l.size + s' + 1)
        (fun j h1 h2 => hlow j h1 (by omega))
        (fun m => by
          rw [show holePos c + (l.size + s + 1) + m
              = holePos c + 1 + l.size + s + m from by omega,
            hhigh m]
          omega)

/-- Reindexing the rows strictly before the hole's parent row. -/
theorem frontRows_map (c : Ctx) (s s' : Nat) (g : Nat → Nat)
    (hlow : ∀ j, 1 ≤ j → j ≤ holePos c → g j = j)
    (hhigh : ∀ m : Nat, g (holePos c + s + m) = holePos c + s' + m) :
    (frontRows c s).map (List.map g) = frontRows c s' := by
  cases c with
  | nil => rfl
  | cons f c =>
    have hhp := holePos_pos c
    cases f with
    | sfr =>
      simp only [holePos] at hlow hhigh
      simp only [frontRows, List.map_cons, List.map_singleton]
      rw [hlow 1 (by omega) (by omega),
        rowsA_map c (s + 1) (s' + 1) g
          (fun j h1 h2 => hlow j h1 (by omega))
          (fun m => by
            rw [show holePos c + (s + 1) + m = holePos c + 1 + s + m from by
              omega, hhigh m]
            omega)]
      simp
    | lfr r =>
      simp only [holePos] at hlow hhigh
      simp only [frontRows, List.map_cons, List.map_singleton]
      rw [hlow 1 (by omega) (by omega),
        rowsA_map c (s + r.size + 1) (s' + r.size + 1) g
          (fun j h1 h2 => hlow j h1 (by omega))
          (fun m => by
            rw [show holePos c + (s + r.size + 1) + m
                = holePos c + 1 + s + (r.size + m) from by omega,
              hhigh (r.size + m)]
            omega)]
      simp
    | rfr l =>
      simp only [holePos] at hlow hhigh
      simp only [frontRows, List.map_cons, List.map_singleton]
      rw [hlow 1 (by omega) (by omega),
        rowsA_map c (l.size + s + 1) (l.size + s' + 1) g
          (fun j h1 h2 => hlow j h1 (by omega))
          (fun m => by
            rw [show holePos c + (l.size + s + 1) + m
                = holePos c + 1 + l.size + s + m from by omega,
              hhigh m]
            omega)]
      simp

/-- The elder-sibling part of the parent row is fixed by such a map. -/
theorem prA_map (c : Ctx) (g : Nat → Nat)
    (hlow : ∀ j, 1 ≤ j → j ≤ holePos c → g j = j) :
    (prA c).map g = prA c := by
  match c with
  | [] => rfl
  | .sfr :: c => rfl
  | .lfr r :: c => rfl
  | .rfr l :: c =>
    have := l.size_pos
    simp only [holePos] at hlow
    simp only [prA, List.map_singleton]
    rw [hlow (holePos c + 1) (by have := holePos_pos c; omega) (by omega)]

/-- The younger-sibling part of the parent row translates with the segment
size. -/
theorem prB_map (c : Ctx) (s s' : Nat) (g : Nat → Nat)
    (hhigh : ∀ m : Nat, g (holePos c + s + m) = holePos c + s' + m) :
    (prB c s).map g = prB c s' := by
  match c with
  | [] => rfl
  | .sfr :: c => rfl
  | .lfr r :: c =>
    simp only [holePos] at hhigh
    simp only [prB, List.map_singleton]
    rw [show holePos c + 1 + s = holePos c + 1 + s + 0 from rfl, hhigh 0]
    simp
  | .rfr l :: c => rfl

/-- The sibling rows between parent and hole are fixed by such a map. -/
theorem sibRows_map (c : Ctx) (g : Nat → Nat)
    (hlow : ∀ j, 1 ≤ j → j ≤ holePos c → g j = j) :
    (sibRows c).map (List.map g) = sibRows c := by
  apply map_rows_id
  intro L hL j hj
  obtain ⟨h1, h2⟩ := sibRows_mem c L j hL hj
  exact hlow j (by omega) (by omega)

end Peano

namespace Peano

theorem scriptFold_error (s : Script) (er : Err) :
    s.foldl (fun (acc : Except Err Tree) e => acc.bind (fun u => applyEdit u e))
      (.error er) = .error er := by
  induction s with
  | nil => rfl
  | cons op s ih => simpa [Except.bind] using ih

theorem applyScript_eq_fold (s : Script) (t : Tree) :
    applyScript s t = s.foldl
      (fun (acc : Except Err Tree) e => acc.bind (fun u => applyEdit u e))
      (.ok t) := rfl

theorem applyScript_cons (op : Edit) (s : Script) (t : Tree) :
    applyScript (op :: s) t =
      match applyEdit t op with
      | .error er => .error er
      | .ok u => applyScript s u := by
  rw [applyScript_eq_fold, List.foldl_cons]
  cases h : applyEdit t op with
  | error er =>
    rw [show Except.bind (.ok t) (fun u => applyEdit u op) = applyEdit t op
      from rfl, h]
    exact scriptFold_error s er
  | ok u =>
    rw [show Except.bind (.ok t) (fun u => applyEdit u op) = applyEdit t op
      from rfl, h]
    rfl

theorem applyScript_append (s1 s2 : Script) (t : Tree) :
    applyScript (s1 ++ s2) t =
      match applyScript s1 t with
      | .error er => .error er
      | .ok u => applyScript s2 u := by
  rw [applyScript_eq_fold, List.foldl_append]
  cases h : applyScript s1 t with
  | error er =>
    rw [← applyScript_eq_fold, h]
    exact scriptFold_error s2 er
  | ok u =>
    rw [← applyScript_eq_fold, h]
    rfl

theorem fill_nodesLength (c : Ctx) (e : PExpr) :
    (enc (fill c e)).nodes.length = holePos c + e.size + (ctxPost c).length := by
  rw [enc_fill]
  have h1 := ctxPre_length c
  have h2 := e.labels_length
  simp only [List.length_cons, List.length_append]
  omega

/-- Replacement of the label of a numeral hole. -/
theorem LDrep (c : Ctx) (k k' : Fin 10) :
    applyRep (enc (fill c (.num k))) (holePos c : Int) (toString (k' : Nat))
      = .ok (enc (fill c (.num k'))) := by
  have hlen := fill_nodesLength c (.num k)
  have hpre := ctxPre_length c
  rw [enc_fill, enc_fill]
  unfold applyRep
  rw [if_neg (by omega)]
  simp only [Int.toNat_natCast]
  rw [if_neg (by simp [PExpr.labels]; omega)]
  congr 1
  simp only [Tree.mk.injEq]
  constructor
  · rw [show ("root" :: (ctxPre c ++ PExpr.labels (.num k) ++ ctxPost c))
        = ("root" :: ctxPre c) ++ toString (k : Nat) :: ctxPost c from by
      simp [PExpr.labels],
      show holePos c = ("root" :: ctxPre c).length from by simp; omega,
      set_append_mid]
    simp [PExpr.labels]
  · rfl

end Peano

namespace Peano

/-- Unfolding of a successful in-range deletion. -/
theorem applyDel_spec (t : Tree) (p : Nat) (hp : p < t.nodes.length)
    (par : Nat)
    (hfind : t.adj.findIdx? (fun cs => cs.contains p) = some par) :
    applyDel t (p : Int) = .ok ⟨t.nodes.eraseIdx p,
      (((t.adj.set par ((t.adj.getD par []).take ((t.adj.getD par []).indexOf p)
          ++ t.adj.getD p []
          ++ (t.adj.getD par []).drop
              ((t.adj.getD par []).indexOf p + 1))).eraseIdx p).map
        (List.map (fun j => if p < j then j - 1 else j)))⟩ := by
  unfold applyDel
  rw [if_neg (by omega)]
  simp only [Int.toNat_natCast]
  rw [if_neg (by omega)]
  rw [hfind]

/-- Unfolding of a successful insertion at an existing child slot. -/
theorem applyIns_spec (t : Tree) (p : Nat) (hp : p < t.nodes.length)
    (slot : Nat) (lbl : Label) (span : Nat)
    (hspan : slot + span ≤ (t.adj.getD p []).length)
    (hslot : slot < (t.adj.getD p []).length) (q : Nat)
    (hq : (t.adj.getD p []).getD slot 0 = q) :
    applyIns t (p : Int) slot lbl span = .ok
      ⟨t.nodes.insertIdx q lbl,
       (((t.adj.map (List.map (fun j => if q ≤ j then j + 1 else j))).set p
          (((t.adj.getD p []).map (fun j => if q ≤ j then j + 1 else j)).take slot
            ++ q :: ((t.adj.getD p []).map
                (fun j => if q ≤ j then j + 1 else j)).drop (slot + span))).insertIdx q
         ((((t.adj.getD p []).drop slot).take span).map
           (fun j => if q ≤ j then j + 1 else j)))⟩ := by
  unfold applyIns
  rw [if_neg (by omega)]
  simp only [Int.toNat_natCast]
  rw [if_neg (by omega), if_neg (by omega), if_pos hslot, hq]

end Peano

namespace Peano

theorem getD_append_len {α : Type} (A B : List α) (d : α) :
    (A ++ B).getD A.length d = B.getD 0 d := by
  have := getD_append_plus A B 0 d
  simpa using this

theorem frontSib_length (c : Ctx) (s : Nat) :
    (frontRows c s).length + 1 + (sibRows c).length = holePos c := by
  have h1 := congrArg List.length (front_eq c s)
  have h2 := rowsA_length c s
  simp only [List.length_cons, List.length_append] at h1
  omega

theorem parentRow_indexOf (c : Ctx) (s : Nat) :
    (parentRow c s).indexOf (holePos c) = (prA c).length := by
  unfold parentRow
  exact indexOf_append_mid (prA c) (prB c s) (holePos c)
    (fun x hx => by have := prA_mem c x hx; omega)

theorem holePos_mem_parentRow (c : Ctx) (s : Nat) :
    holePos c ∈ parentRow c s := by
  unfold parentRow
  exact List.mem_append_right _ (List.mem_cons_self _ _)

theorem holePos_notin_frontRows (c : Ctx) (s : Nat) (L : List Nat)
    (hL : L ∈ frontRows c s) (hs : 1 ≤ s) : holePos c ∉ L := by
  intro hmem
  obtain ⟨h1, h2⟩ := frontRows_mem c s L _ hL hmem
  have := parentIdx_lt c
  omega

theorem eraseIdx_append_mid2 {α : Type} (A B : List α) (y : α) (n : Nat)
    (h : A.length = n) : (A ++ y :: B).eraseIdx n = A ++ B := by
  subst h; exact eraseIdx_append_mid A B y

theorem set_append_mid2 {α : Type} (A B : List α) (y z : α) (n : Nat)
    (h : A.length = n) : (A ++ y :: B).set n z = A ++ z :: B := by
  subst h; exact set_append_mid A B y z

theorem insertIdx_append_mid2 {α : Type} (A B : List α) (z : α) (n : Nat)
    (h : A.length = n) : (A ++ B).insertIdx n z = A ++ z :: B := by
  subst h; exact insertIdx_append_mid A B z

theorem getD_append_mid2 {α : Type} (A B : List α) (y d : α) (n : Nat)
    (h : A.length = n) : (A ++ y :: B).getD n d = y := by
  subst h; exact getD_append_mid A B y d

theorem getD_append_len2 {α : Type} (A B : List α) (d : α) (n : Nat)
    (h : A.length = n) : (A ++ B).getD n d = B.getD 0 d := by
  subst h; exact getD_append_len A B d

/-- Deleting a `succ` node at the hole head relinks its parent to the
single child and closes the gap. -/
theorem LDdelS (c : Ctx) (x : PExpr) :
    applyDel (enc (fill c (.succ x))) (holePos c : Int) = .ok (enc (fill c x)) := by
  have hsx : (PExpr.succ x).size = x.size + 1 := rfl
  have hxs := x.size_pos
  have hpre := ctxPre_length c
  have hPpos := holePos_pos c
  have hPlt := parentIdx_lt c
  rw [enc_fill c (.succ x)]
  have hadj : ([1] :: (rowsA c (PExpr.succ x).size
        ++ (PExpr.succ x).adjAt (holePos c) ++ rowsB c (PExpr.succ x).size))
      = frontRows c (x.size + 1) ++ parentRow c (x.size + 1) ::
          (sibRows c ++ ([holePos c + 1] ::
            (x.adjAt (holePos c + 1) ++ rowsB c (x.size + 1)))) := by
    rw [hsx, show (PExpr.succ x).adjAt (holePos c)
        = [holePos c + 1] :: x.adjAt (holePos c + 1) from rfl,
      show ([1] :: (rowsA c (x.size + 1)
          ++ ([holePos c + 1] :: x.adjAt (holePos c + 1))
          ++ rowsB c (x.size + 1)))
        = ([1] :: rowsA c (x.size + 1))
          ++ (([holePos c + 1] :: x.adjAt (holePos c + 1))
            ++ rowsB c (x.size + 1)) from by simp,
      front_eq c (x.size + 1)]
    simp [List.append_assoc]
  have hfind : ([1] :: (rowsA c (PExpr.succ x).size
        ++ (PExpr.succ x).adjAt (holePos c)
        ++ rowsB c (PExpr.succ x).size)).findIdx?
        (fun cs => cs.contains (holePos c)) = some (parentIdx c) := by
    rw [hadj, find_mid _ _ _ _
      (fun L hL => holePos_notin_frontRows c (x.size + 1) L hL (by omega))
      (holePos_mem_parentRow c (x.size + 1)),
      frontRows_length]
  have hlen : ("root" :: (ctxPre c ++ (PExpr.succ x).labels
      ++ ctxPost c)).length = holePos c + x.size + 1 + (ctxPost c).length := by
    have := (PExpr.succ x).labels_length
    simp only [List.length_cons, List.length_append]
    omega
  rw [applyDel_spec _ (holePos c) (by rw [show (Tree.mk
      ("root" :: (ctxPre c ++ (PExpr.succ x).labels ++ ctxPost c))
      ([1] :: (rowsA c (PExpr.succ x).size ++ (PExpr.succ x).adjAt (holePos c)
        ++ rowsB c (PExpr.succ x).size))).nodes.length
      = holePos c + x.size + 1 + (ctxPost c).length from hlen]; omega)
    (parentIdx c) hfind]
  rw [enc_fill c x]
  congr 1
  simp only [Tree.mk.injEq]
  constructor
  · -- node list: erase the "succ" label at the hole head
    rw [show ("root" :: (ctxPre c ++ (PExpr.succ x).labels ++ ctxPost c))
        = ("root" :: ctxPre c) ++ "succ" :: (x.labels ++ ctxPost c) from by
      simp [PExpr.labels],
      show holePos c = ("root" :: ctxPre c).length from by simp; omega,
      eraseIdx_append_mid]
    simp
  · -- adjacency list
    have hgetPar : ([1] :: (rowsA c (PExpr.succ x).size
          ++ (PExpr.succ x).adjAt (holePos c)
          ++ rowsB c (PExpr.succ x).size)).getD (parentIdx c) []
        = parentRow c (x.size + 1) := by
      rw [hadj]
      exact getD_append_mid2 _ _ _ _ _ (frontRows_length c (x.size + 1))
    have hgetP : ([1] :: (rowsA c (PExpr.succ x).size
          ++ (PExpr.succ x).adjAt (holePos c)
          ++ rowsB c (PExpr.succ x).size)).getD (holePos c) []
        = [holePos c + 1] := by
      rw [hsx, show (PExpr.succ x).adjAt (holePos c)
          = [holePos c + 1] :: x.adjAt (holePos c + 1) from rfl,
        show ([1] :: (rowsA c (x.size + 1)
            ++ ([holePos c + 1] :: x.adjAt (holePos c + 1))
            ++ rowsB c (x.size + 1)))
          = ([1] :: rowsA c (x.size + 1))
            ++ (([holePos c + 1] :: x.adjAt (holePos c + 1))
              ++ rowsB c (x.size + 1)) from by simp,
        getD_append_len2 _ _ _ _ (by
          have := rowsA_length c (x.size + 1); simp; omega)]
      rfl
    rw [hgetPar, hgetP, parentRow_indexOf]
    rw [show (parentRow c (x.size + 1)).take (prA c).length = prA c from by
      unfold parentRow; exact take_append_mid _ _ _,
      show (parentRow c (x.size + 1)).drop ((prA c).length + 1)
        = prB c (x.size + 1) from by
      unfold parentRow; exact drop_append_mid _ _ _]
    rw [hadj, set_append_mid2 _ _ _ _ _ (frontRows_length c (x.size + 1))]
    rw [show (frontRows c (x.size + 1)
          ++ (prA c ++ [holePos c + 1] ++ prB c (x.size + 1)) ::
            (sibRows c ++ ([holePos c + 1] ::
              (x.adjAt (holePos c + 1) ++ rowsB c (x.size + 1)))))
        = (frontRows c (x.size + 1)
            ++ (prA c ++ [holePos c + 1] ++ prB c (x.size + 1)) :: sibRows c)
          ++ [holePos c + 1] ::
            (x.adjAt (holePos c + 1) ++ rowsB c (x.size + 1)) from by simp]
    rw [eraseIdx_append_mid2 _ _ _ _ (by
      have := frontSib_length c (x.size + 1); simp; omega)]
    simp only [List.map_append, List.map_cons]
    rw [frontRows_map c (x.size + 1) x.size _
        (fun j h1 h2 => if_neg (by omega))
        (fun m => by
          rw [if_pos (by omega : holePos c < holePos c + (x.size + 1) + m)]
          omega),
      sibRows_map c _ (fun j h1 h2 => if_neg (by omega)),
      rowsB_map c (x.size + 1) x.size _
        (fun j h1 h2 => if_neg (by omega))
        (fun m => by
          rw [if_pos (by omega : holePos c < holePos c + (x.size + 1) + m)]
          omega),
      PExpr.adjAt_translate x (holePos c + 1) (holePos c) _
        (fun m => by
          rw [if_pos (by omega : holePos c < holePos c + 1 + m)]
          omega),
      prA_map c _ (fun j h1 h2 => if_neg (by omega)),
      prB_map c (x.size + 1) x.size _
        (fun m => by
          rw [if_pos (by omega : holePos c < holePos c + (x.size + 1) + m)]
          omega)]
    rw [show (if holePos c < holePos c + 1 then holePos c + 1 - 1
        else holePos c + 1) = holePos c from by rw [if_pos (by omega)]; omega]
    conv_rhs => rw [show ([1] :: (rowsA c x.size ++ x.adjAt (holePos c)
        ++ rowsB c x.size))
      = ([1] :: rowsA c x.size)
        ++ (x.adjAt (holePos c) ++ rowsB c x.size) from by simp,
      front_eq c x.size]
    unfold parentRow
    simp [List.append_assoc]

end Peano

namespace Peano

/-- First deletion of rule 1: removing the `+` node splices both operands
into the hole's parent row. -/
theorem LD1a (c : Ctx) (l : PExpr) (k : Fin 10) :
    applyDel (enc (fill c (.plus l (.num k)))) (holePos c : Int) = .ok
      ⟨("root" :: ctxPre c) ++ (l.labels ++ toString (k : Nat) :: ctxPost c),
       (frontRows c (l.size + 1)
          ++ (prA c ++ [holePos c, holePos c + l.size] ++ prB c (l.size + 1)) ::
            sibRows c)
         ++ (l.adjAt (holePos c) ++ [] :: rowsB c (l.size + 1))⟩ := by
  have hsz : (PExpr.plus l (.num k)).size = l.size + 2 := by
    simp [PExpr.size]
  have hls := l.size_pos
  have hpre := ctxPre_length c
  have hPpos := holePos_pos c
  have hPlt := parentIdx_lt c
  rw [enc_fill c (.plus l (.num k))]
  have hadj : ([1] :: (rowsA c (PExpr.plus l (.num k)).size
        ++ (PExpr.plus l (.num k)).adjAt (holePos c)
        ++ rowsB c (PExpr.plus l (.num k)).size))
      = frontRows c (l.size + 2) ++ parentRow c (l.size + 2) ::
          (sibRows c ++ ([holePos c + 1, holePos c + 1 + l.size] ::
            ((l.adjAt (holePos c + 1) ++ [[]]) ++ rowsB c (l.size + 2)))) := by
    rw [hsz, show (PExpr.plus l (.num k)).adjAt (holePos c)
        = [holePos c + 1, holePos c + 1 + l.size] ::
          (l.adjAt (holePos c + 1) ++ [[]]) from rfl,
      show ([1] :: (rowsA c (l.size + 2)
          ++ ([holePos c + 1, holePos c + 1 + l.size] ::
            (l.adjAt (holePos c + 1) ++ [[]]))
          ++ rowsB c (l.size + 2)))
        = ([1] :: rowsA c (l.size + 2))
          ++ (([holePos c + 1, holePos c + 1 + l.size] ::
            (l.adjAt (holePos c + 1) ++ [[]])) ++ rowsB c (l.size + 2)) from by
        simp,
      front_eq c (l.size + 2)]
    simp [List.append_assoc]
  have hfind : ([1] :: (rowsA c (PExpr.plus l (.num k)).size
        ++ (PExpr.plus l (.num k)).adjAt (holePos c)
        ++ rowsB c (PExpr.plus l (.num k)).size)).findIdx?
        (fun cs => cs.contains (holePos c)) = some (parentIdx c) := by
    rw [hadj, find_mid _ _ _ _
      (fun L hL => holePos_notin_frontRows c (l.size + 2) L hL (by omega))
      (holePos_mem_parentRow c (l.size + 2)),
      frontRows_length]
  have hlen : ("root" :: (ctxPre c ++ (PExpr.plus l (.num k)).labels
      ++ ctxPost c)).length
      = holePos c + l.size + 2 + (ctxPost c).length := by
    have := (PExpr.plus l (.num k)).labels_length
    simp only [List.length_cons, List.length_append]
    omega
  rw [applyDel_spec _ (holePos c) (by
      show holePos c < ("root" :: (ctxPre c ++ (PExpr.plus l (.num k)).labels
        ++ ctxPost c)).length
      omega)
    (parentIdx c) hfind]
  congr 1
  simp only [Tree.mk.injEq]
  constructor
  · rw [show ("root" :: (ctxPre c ++ (PExpr.plus l (.num k)).labels
        ++ ctxPost c))
        = ("root" :: ctxPre c) ++ "+" ::
          (l.labels ++ toString (k : Nat) :: ctxPost c) from by
      simp [PExpr.labels],
      eraseIdx_append_mid2 _ _ _ _ (by simp; omega)]
  · have hgetPar : ([1] :: (rowsA c (PExpr.plus l (.num k)).size
          ++ (PExpr.plus l (.num k)).adjAt (holePos c)
          ++ rowsB c (PExpr.plus l (.num k)).size)).getD (parentIdx c) []
        = parentRow c (l.size + 2) := by
      rw [hadj]
      exact getD_append_mid2 _ _ _ _ _ (frontRows_length c (l.size + 2))
    have hgetP : ([1] :: (rowsA c (PExpr.plus l (.num k)).size
          ++ (PExpr.plus l (.num k)).adjAt (holePos c)
          ++ rowsB c (PExpr.plus l (.num k)).size)).getD (holePos c) []
        = [holePos c + 1, holePos c + 1 + l.size] := by
      rw [hsz, show (PExpr.plus l (.num k)).adjAt (holePos c)
          = [holePos c + 1, holePos c + 1 + l.size] ::
            (l.adjAt (holePos c + 1) ++ [[]]) from rfl,
        show ([1] :: (rowsA c (l.size + 2)
            ++ ([holePos c + 1, holePos c + 1 + l.size] ::
              (l.adjAt (holePos c + 1) ++ [[]]))
            ++ rowsB c (l.size + 2)))
          = ([1] :: rowsA c (l.size + 2))
            ++ (([holePos c + 1, holePos c + 1 + l.size] ::
              (l.adjAt (holePos c + 1) ++ [[]])) ++ rowsB c (l.size + 2)) from by
          simp,
        getD_append_len2 _ _ _ _ (by
          have := rowsA_length c (l.size + 2); simp; omega)]
      rfl
    rw [hgetPar, hgetP, parentRow_indexOf]
    rw [show (parentRow c (l.size + 2)).take (prA c).length = prA c from by
      unfold parentRow; exact take_append_mid _ _ _,
      show (parentRow c (l.size + 2)).drop ((prA c).length + 1)
        = prB c (l.size + 2) from by
      unfold parentRow; exact drop_append_mid _ _ _]
    rw [hadj, set_append_mid2 _ _ _ _ _ (frontRows_length c (l.size + 2))]
    rw [show (frontRows c (l.size + 2)
          ++ (prA c ++ [holePos c + 1, holePos c + 1 + l.size]
              ++ prB c (l.size + 2)) ::
            (sibRows c ++ ([holePos c + 1, holePos c + 1 + l.size] ::
              ((l.adjAt (holePos c + 1) ++ [[]]) ++ rowsB c (l.size + 2)))))
        = (frontRows c (l.size + 2)
            ++ (prA c ++ [holePos c + 1, holePos c + 1 + l.size]
                ++ prB c (l.size + 2)) :: sibRows c)
          ++ [holePos c + 1, holePos c + 1 + l.size] ::
            ((l.adjAt (holePos c + 1) ++ [[]]) ++ rowsB c (l.size + 2)) from by
      simp]
    rw [eraseIdx_append_mid2 _ _ _ _ (by
      have := frontSib_length c (l.size + 2); simp; omega)]
    simp only [List.map_append, List.map_cons, List.map_nil]
    rw [frontRows_map c (l.size + 2) (l.size + 1) _
        (fun j h1 h2 => if_neg (by omega))
        (fun m => by
          rw [if_pos (by omega : holePos c < holePos c + (l.size + 2) + m)]
          omega),
      sibRows_map c _ (fun j h1 h2 => if_neg (by omega)),
      rowsB_map c (l.size + 2) (l.size + 1) _
        (fun j h1 h2 => if_neg (by omega))
        (fun m => by
          rw [if_pos (by omega : holePos c < holePos c + (l.size + 2) + m)]
          omega),
      PExpr.adjAt_translate l (holePos c + 1) (holePos c) _
        (fun m => by
          rw [if_pos (by omega : holePos c < holePos c + 1 + m)]
          omega),
      prA_map c _ (fun j h1 h2 => if_neg (by omega)),
      prB_map c (l.size + 2) (l.size + 1) _
        (fun m => by
          rw [if_pos (by omega : holePos c < holePos c + (l.size + 2) + m)]
          omega)]
    rw [show (if holePos c < holePos c + 1 then holePos c + 1 - 1
        else holePos c + 1) = holePos c from by rw [if_pos (by omega)]; omega,
      show (if holePos c < holePos c + 1 + l.size then holePos c + 1 + l.size - 1
        else holePos c + 1 + l.size) = holePos c + l.size from by
      rw [if_pos (by omega)]; omega]
    simp [List.append_assoc]

end Peano

namespace Peano

/-- Second deletion of rule 1: removing the `0` leaf restores an
expression flattening with the left operand in the hole. -/
theorem LD1b (c : Ctx) (l : PExpr) (k : Fin 10) :
    applyDel
      ⟨("root" :: ctxPre c) ++ (l.labels ++ toString (k : Nat) :: ctxPost c),
       (frontRows c (l.size + 1)
          ++ (prA c ++ [holePos c, holePos c + l.size] ++ prB c (l.size + 1)) ::
            sibRows c)
         ++ (l.adjAt (holePos c) ++ [] :: rowsB c (l.size + 1))⟩
      ((holePos c + l.size : Nat) : Int) = .ok (enc (fill c l)) := by
  have hls := l.size_pos
  have hpre := ctxPre_length c
  have hPpos := holePos_pos c
  have hPlt := parentIdx_lt c
  have hfsl := frontSib_length c (l.size + 1)
  have hal := l.adjAt_length (holePos c)
  have hll := l.labels_length
  have hadj : ((frontRows c (l.size + 1)
          ++ (prA c ++ [holePos c, holePos c + l.size] ++ prB c (l.size + 1)) ::
            sibRows c)
         ++ (l.adjAt (holePos c) ++ [] :: rowsB c (l.size + 1)))
      = frontRows c (l.size + 1)
          ++ (prA c ++ [holePos c, holePos c + l.size] ++ prB c (l.size + 1)) ::
            (sibRows c ++ (l.adjAt (holePos c) ++ [] :: rowsB c (l.size + 1))) := by
    simp
  have hfind : ((frontRows c (l.size + 1)
          ++ (prA c ++ [holePos c, holePos c + l.size] ++ prB c (l.size + 1)) ::
            sibRows c)
         ++ (l.adjAt (holePos c) ++ [] :: rowsB c (l.size + 1))).findIdx?
        (fun cs => cs.contains (holePos c + l.size)) = some (parentIdx c) := by
    rw [hadj, find_mid _ _ _ _
      (fun L hL hmem => by
        obtain ⟨h1, h2⟩ := frontRows_mem c (l.size + 1) L _ hL hmem
        omega)
      (by simp),
      frontRows_length]
  rw [applyDel_spec _ (holePos c + l.size) (by simp; omega) (parentIdx c) hfind]
  rw [enc_fill c l]
  congr 1
  simp only [Tree.mk.injEq]
  constructor
  · rw [show (("root" :: ctxPre c)
        ++ (l.labels ++ toString (k : Nat) :: ctxPost c))
        = (("root" :: ctxPre c) ++ l.labels)
          ++ toString (k : Nat) :: ctxPost c from by simp,
      eraseIdx_append_mid2 _ _ _ _ (by simp; omega)]
    simp
  · have hgetPar : ((frontRows c (l.size + 1)
          ++ (prA c ++ [holePos c, holePos c + l.size] ++ prB c (l.size + 1)) ::
            sibRows c)
         ++ (l.adjAt (holePos c) ++ [] :: rowsB c (l.size + 1))).getD
          (parentIdx c) []
        = prA c ++ [holePos c, holePos c + l.size] ++ prB c (l.size + 1) := by
      rw [hadj]
      exact getD_append_mid2 _ _ _ _ _ (frontRows_length c (l.size + 1))
    have hgetP : ((frontRows c (l.size + 1)
          ++ (prA c ++ [holePos c, holePos c + l.size] ++ prB c (l.size + 1)) ::
            sibRows c)
         ++ (l.adjAt (holePos c) ++ [] :: rowsB c (l.size + 1))).getD
          (holePos c + l.size) [] = [] := by
      rw [show ((frontRows c (l.size + 1)
          ++ (prA c ++ [holePos c, holePos c + l.size] ++ prB c (l.size + 1)) ::
            sibRows c)
         ++ (l.adjAt (holePos c) ++ [] :: rowsB c (l.size + 1)))
        = ((frontRows c (l.size + 1)
            ++ (prA c ++ [holePos c, holePos c + l.size]
                ++ prB c (l.size + 1)) :: sibRows c)
           ++ l.adjAt (holePos c)) ++ [] :: rowsB c (l.size + 1) from by simp,
        getD_append_mid2 _ _ _ _ _ (by simp; omega)]
    have hsplit : (prA c ++ [holePos c, holePos c + l.size]
          ++ prB c (l.size + 1))
        = (prA c ++ [holePos c]) ++ (holePos c + l.size) :: prB c (l.size + 1)
        := by simp
    have hio : (prA c ++ [holePos c, holePos c + l.size]
          ++ prB c (l.size + 1)).indexOf (holePos c + l.size)
        = (prA c).length + 1 := by
      rw [hsplit, indexOf_append_mid _ _ _ (fun x hx => by
        simp only [List.mem_append, List.mem_singleton] at hx
        rcases hx with h | h
        · have := prA_mem c x h; omega
        · subst h; omega)]
      simp
    have htk : (prA c ++ [holePos c, holePos c + l.size]
          ++ prB c (l.size + 1)).take ((prA c).length + 1)
        = prA c ++ [holePos c] := by
      rw [hsplit, show (prA c).length + 1 = (prA c ++ [holePos c]).length
        from by simp]
      exact take_append_mid _ _ _
    have hdp : (prA c ++ [holePos c, holePos c + l.size]
          ++ prB c (l.size + 1)).drop ((prA c).length + 1 + 1)
        = prB c (l.size + 1) := by
      rw [hsplit, show (prA c).length + 1 + 1 = (prA c ++ [holePos c]).length + 1
        from by simp]
      exact drop_append_mid _ _ _
    rw [hgetPar, hgetP, hio, htk, hdp]
    rw [hadj, set_append_mid2 _ _ _ _ _ (frontRows_length c (l.size + 1))]
    rw [show (frontRows c (l.size + 1)
          ++ ((prA c ++ [holePos c]) ++ [] ++ prB c (l.size + 1)) ::
            (sibRows c ++ (l.adjAt (holePos c) ++ [] :: rowsB c (l.size + 1))))
        = ((frontRows c (l.size + 1)
            ++ ((prA c ++ [holePos c]) ++ [] ++ prB c (l.size + 1)) ::
              sibRows c) ++ l.adjAt (holePos c))
          ++ [] :: rowsB c (l.size + 1) from by simp,
      eraseIdx_append_mid2 _ _ _ _ (by simp; omega)]
    simp only [List.map_append, List.map_cons, List.map_nil]
    rw [frontRows_map c (l.size + 1) l.size _
        (fun j h1 h2 => if_neg (by omega))
        (fun m => by
          rw [if_pos (by omega :
            holePos c + l.size < holePos c + (l.size + 1) + m)]
          omega),
      sibRows_map c _ (fun j h1 h2 => if_neg (by omega)),
      rowsB_map c (l.size + 1) l.size _
        (fun j h1 h2 => if_neg (by omega))
        (fun m => by
          rw [if_pos (by omega :
            holePos c + l.size < holePos c + (l.size + 1) + m)]
          omega),
      map_rows_id _ (l.adjAt (holePos c)) (fun L hL j hj => by
        obtain ⟨h1, h2⟩ := PExpr.adjAt_mem l (holePos c) L j hL hj
        exact if_neg (by omega)),
      prA_map c _ (fun j h1 h2 => if_neg (by omega)),
      prB_map c (l.size + 1) l.size _
        (fun m => by
          rw [if_pos (by omega :
            holePos c + l.size < holePos c + (l.size + 1) + m)]
          omega)]
    rw [show (if holePos c + l.size < holePos c then holePos c - 1
        else holePos c) = holePos c from by rw [if_neg (by omega)]]
    conv_rhs => rw [show ([1] :: (rowsA c l.size ++ l.adjAt (holePos c)
        ++ rowsB c l.size))
      = ([1] :: rowsA c l.size)
        ++ (l.adjAt (holePos c) ++ rowsB c l.size) from by simp,
      front_eq c l.size]
    unfold parentRow
    simp [List.append_assoc]

theorem applyScript_del_ok (pos : Int) (s : Script) (t u : Tree)
    (h : applyDel t pos = .ok u) :
    applyScript (.del pos :: s) t = applyScript s u := by
  rw [applyScript_cons, show applyEdit t (.del pos) = applyDel t pos from rfl, h]

theorem applyScript_rep_ok (pos : Int) (lbl : Label) (s : Script) (t u : Tree)
    (h : applyRep t pos lbl = .ok u) :
    applyScript (.rep pos lbl :: s) t = applyScript s u := by
  rw [applyScript_cons,
    show applyEdit t (.rep pos lbl) = applyRep t pos lbl from rfl, h]

theorem applyScript_ins_ok (pos : Int) (slot : Nat) (lbl : Label) (span : Nat)
    (s : Script) (t u : Tree) (h : applyIns t pos slot lbl span = .ok u) :
    applyScript (.ins pos slot lbl span :: s) t = applyScript s u := by
  rw [applyScript_cons,
    show applyEdit t (.ins pos slot lbl span)
      = applyIns t pos slot lbl span from rfl, h]

/-- Rule 1 of the matcher: the `Deletion` pair removing `+` and the zero
leaf rewrites `+(l, 0)` to `l` in place. -/
theorem LD1 (c : Ctx) (l : PExpr) (k : Fin 10) :
    applyScript [.del (holePos c : Int), .del ((holePos c + l.size : Nat) : Int)]
      (enc (fill c (.plus l (.num k)))) = .ok (enc (fill c l)) := by
  rw [applyScript_del_ok _ _ _ _ (LD1a c l k),
    applyScript_del_ok _ _ _ _ (LD1b c l k)]
  rfl

end Peano

namespace Peano

/-- Rule 2's insertion: a new `succ` over the left operand of a `+` at the
hole head. -/
theorem LDins0 (c : Ctx) (l r : PExpr) :
    applyIns (enc (fill c (.plus l r))) (holePos c : Int) 0 "succ" 1
      = .ok (enc (fill c (.plus (.succ l) r))) := by
  have hsz : (PExpr.plus l r).size = l.size + r.size + 1 := rfl
  have hls := l.size_pos
  have hrs := r.size_pos
  have hpre := ctxPre_length c
  have hPpos := holePos_pos c
  have hral := rowsA_length c (l.size + r.size + 1)
  have hral2 := rowsA_length c (l.size + r.size + 2)
  have hll := l.labels_length
  rw [enc_fill c (.plus l r)]
  have hgetP : ([1] :: (rowsA c (PExpr.plus l r).size
        ++ (PExpr.plus l r).adjAt (holePos c)
        ++ rowsB c (PExpr.plus l r).size)).getD (holePos c) []
      = [holePos c + 1, holePos c + 1 + l.size] := by
    rw [hsz, show (PExpr.plus l r).adjAt (holePos c)
        = [holePos c + 1, holePos c + 1 + l.size] ::
          (l.adjAt (holePos c + 1) ++ r.adjAt (holePos c + 1 + l.size)) from rfl,
      show ([1] :: (rowsA c (l.size + r.size + 1)
          ++ ([holePos c + 1, holePos c + 1 + l.size] ::
            (l.adjAt (holePos c + 1) ++ r.adjAt (holePos c + 1 + l.size)))
          ++ rowsB c (l.size + r.size + 1)))
        = ([1] :: rowsA c (l.size + r.size + 1))
          ++ (([holePos c + 1, holePos c + 1 + l.size] ::
            (l.adjAt (holePos c + 1) ++ r.adjAt (holePos c + 1 + l.size)))
            ++ rowsB c (l.size + r.size + 1)) from by simp,
      getD_append_len2 _ _ _ _ (by simp; omega)]
    rfl
  rw [applyIns_spec _ (holePos c) (by
      have := (PExpr.plus l r).labels_length
      simp only [List.length_cons, List.length_append]
      simp only [hsz] at this
      omega)
    0 "succ" 1 (by rw [hgetP]; simp) (by rw [hgetP]; simp)
    (holePos c + 1) (by rw [hgetP]; rfl)]
  rw [enc_fill c (.plus (.succ l) r)]
  congr 1
  simp only [Tree.mk.injEq]
  constructor
  · rw [show ("root" :: (ctxPre c ++ (PExpr.plus l r).labels ++ ctxPost c))
        = (("root" :: ctxPre c) ++ ["+"])
          ++ (l.labels ++ (r.labels ++ ctxPost c)) from by
      simp [PExpr.labels],
      insertIdx_append_mid2 _ _ _ _ (by simp; omega)]
    simp [PExpr.labels]
  · rw [hgetP]
    rw [show ([1] :: (rowsA c (PExpr.plus l r).size
          ++ (PExpr.plus l r).adjAt (holePos c)
          ++ rowsB c (PExpr.plus l r).size))
        = ([1] :: (rowsA c (l.size + r.size + 1)
          ++ ([holePos c + 1, holePos c + 1 + l.size] ::
            (l.adjAt (holePos c + 1) ++ r.adjAt (holePos c + 1 + l.size)))
          ++ rowsB c (l.size + r.size + 1))) from rfl]
    simp only [List.map_cons, List.map_append, List.map_nil]
    rw [rowsA_map c (l.size + r.size + 1) (l.size + r.size + 2) _
        (fun j h1 h2 => if_neg (by omega))
        (fun m => by
          rw [if_pos (by omega :
            holePos c + 1 ≤ holePos c + (l.size + r.size + 1) + m)]
          omega),
      rowsB_map c (l.size + r.size + 1) (l.size + r.size + 2) _
        (fun j h1 h2 => if_neg (by omega))
        (fun m => by
          rw [if_pos (by omega :
            holePos c + 1 ≤ holePos c + (l.size + r.size + 1) + m)]
          omega),
      PExpr.adjAt_translate l (holePos c + 1) (holePos c + 2) _
        (fun m => by
          rw [if_pos (by omega : holePos c + 1 ≤ holePos c + 1 + m)]
          omega),
      PExpr.adjAt_translate r (holePos c + 1 + l.size) (holePos c + 2 + l.size) _
        (fun m => by
          rw [if_pos (by omega : holePos c + 1 ≤ holePos c + 1 + l.size + m)]
          omega)]
    rw [show (if holePos c + 1 ≤ 1 then 1 + 1 else 1) = 1 from by
      rw [if_neg (by omega)],
      show (if holePos c + 1 ≤ holePos c + 1 then holePos c + 1 + 1
        else holePos c + 1) = holePos c + 2 from by rw [if_pos (by omega)],
      show (if holePos c + 1 ≤ holePos c + 1 + l.size
        then holePos c + 1 + l.size + 1 else holePos c + 1 + l.size)
        = holePos c + 2 + l.size from by rw [if_pos (by omega)]; omega]
    rw [show ([1] :: (rowsA c (l.size + r.size + 2)
          ++ ([holePos c + 2, holePos c + 2 + l.size] ::
            (l.adjAt (holePos c + 2) ++ r.adjAt (holePos c + 2 + l.size)))
          ++ rowsB c (l.size + r.size + 2)))
        = ([1] :: rowsA c (l.size + r.size + 2))
          ++ ([holePos c + 2, holePos c + 2 + l.size] ::
            (l.adjAt (holePos c + 2) ++ r.adjAt (holePos c + 2 + l.size)
              ++ rowsB c (l.size + r.size + 2))) from by simp,
      set_append_mid2 _ _ _ _ _ (by simp; omega)]
    simp only [List.take_zero, List.nil_append, List.drop_succ_cons,
      List.drop_zero, List.map_nil]
    rw [show (List.map (fun j => if holePos c + 1 ≤ j then j + 1 else j)
        (List.take 1 [holePos c + 1, holePos c + 1 + l.size]))
        = [holePos c + 2] from by simp,
      show ([1] :: rowsA c (l.size + r.size + 2)
          ++ [holePos c + 1, holePos c + 2 + l.size] ::
            (l.adjAt (holePos c + 2) ++ r.adjAt (holePos c + 2 + l.size)
              ++ rowsB c (l.size + r.size + 2)))
        = (([1] :: rowsA c (l.size + r.size + 2))
            ++ [[holePos c + 1, holePos c + 2 + l.size]])
          ++ (l.adjAt (holePos c + 2) ++ r.adjAt (holePos c + 2 + l.size)
              ++ rowsB c (l.size + r.size + 2)) from by simp,
      insertIdx_append_mid2 _ _ _ _ (by simp; omega)]
    conv_rhs => rw [show (l.succ.plus r).size = l.size + r.size + 2 from by
        simp only [PExpr.size]; omega,
      show (l.succ.plus r).adjAt (holePos c)
        = [holePos c + 1, holePos c + 2 + l.size] ::
          (([holePos c + 2] :: l.adjAt (holePos c + 2))
            ++ r.adjAt (holePos c + 2 + l.size)) from by
        simp only [PExpr.adjAt, PExpr.size]
        rw [show holePos c + 1 + (l.size + 1) = holePos c + 2 + l.size from by
            omega,
          show holePos c + 1 + 1 = holePos c + 2 from by omega]]
    simp

end Peano

namespace Peano

/-- Rule 3's insertion: a new `succ` over the right operand of a `+` at the
hole head. -/
theorem LDins1 (c : Ctx) (l r : PExpr) :
    applyIns (enc (fill c (.plus l r))) (holePos c : Int) 1 "succ" 1
      = .ok (enc (fill c (.plus l (.succ r)))) := by
  have hsz : (PExpr.plus l r).size = l.size + r.size + 1 := rfl
  have hls := l.size_pos
  have hrs := r.size_pos
  have hpre := ctxPre_length c
  have hPpos := holePos_pos c
  have hral := rowsA_length c (l.size + r.size + 1)
  have hral2 := rowsA_length c (l.size + r.size + 2)
  have hll := l.labels_length
  have hlal := l.adjAt_length (holePos c + 1)
  rw [enc_fill c (.plus l r)]
  have hgetP : ([1] :: (rowsA c (PExpr.plus l r).size
        ++ (PExpr.plus l r).adjAt (holePos c)
        ++ rowsB c (PExpr.plus l r).size)).getD (holePos c) []
      = [holePos c + 1, holePos c + 1 + l.size] := by
    rw [hsz, show (PExpr.plus l r).adjAt (holePos c)
        = [holePos c + 1, holePos c + 1 + l.size] ::
          (l.adjAt (holePos c + 1) ++ r.adjAt (holePos c + 1 + l.size)) from rfl,
      show ([1] :: (rowsA c (l.size + r.size + 1)
          ++ ([holePos c + 1, holePos c + 1 + l.size] ::
            (l.adjAt (holePos c + 1) ++ r.adjAt (holePos c + 1 + l.size)))
          ++ rowsB c (l.size + r.size + 1)))
        = ([1] :: rowsA c (l.size + r.size + 1))
          ++ (([holePos c + 1, holePos c + 1 + l.size] ::
            (l.adjAt (holePos c + 1) ++ r.adjAt (holePos c + 1 + l.size)))
            ++ rowsB c (l.size + r.size + 1)) from by simp,
      getD_append_len2 _ _ _ _ (by simp; omega)]
    rfl
  rw [applyIns_spec _ (holePos c) (by
      have := (PExpr.plus l r).labels_length
      simp only [List.length_cons, List.length_append]
      simp only [hsz] at this
      omega)
    1 "succ" 1 (by rw [hgetP]; simp) (by rw [hgetP]; simp)
    (holePos c + 1 + l.size) (by rw [hgetP]; rfl)]
  rw [enc_fill c (.plus l (.succ r))]
  congr 1
  simp only [Tree.mk.injEq]
  constructor
  · rw [show ("root" :: (ctxPre c ++ (PExpr.plus l r).labels ++ ctxPost c))
        = (("root" :: ctxPre c) ++ "+" :: l.labels)
          ++ (r.labels ++ ctxPost c) from by
      simp [PExpr.labels],
      insertIdx_append_mid2 _ _ _ _ (by simp; omega)]
    simp [PExpr.labels]
  · rw [hgetP]
    rw [show ([1] :: (rowsA c (PExpr.plus l r).size
          ++ (PExpr.plus l r).adjAt (holePos c)
          ++ rowsB c (PExpr.plus l r).size))
        = ([1] :: (rowsA c (l.size + r.size + 1)
          ++ ([holePos c + 1, holePos c + 1 + l.size] ::
            (l.adjAt (holePos c + 1) ++ r.adjAt (holePos c + 1 + l.size)))
          ++ rowsB c (l.size + r.size + 1))) from rfl]
    simp only [List.map_cons, List.map_append, List.map_nil]
    rw [rowsA_map c (l.size + r.size + 1) (l.size + r.size + 2) _
        (fun j h1 h2 => if_neg (by omega))
        (fun m => by
          rw [if_pos (by omega :
            holePos c + 1 + l.size ≤ holePos c + (l.size + r.size + 1) + m)]
          omega),
      rowsB_map c (l.size + r.size + 1) (l.size + r.size + 2) _
        (fun j h1 h2 => if_neg (by omega))
        (fun m => by
          rw [if_pos (by omega :
            holePos c + 1 + l.size ≤ holePos c + (l.size + r.size + 1) + m)]
          omega),
      map_rows_id _ (l.adjAt (holePos c + 1)) (fun L hL j hj => by
        obtain ⟨h1, h2⟩ := PExpr.adjAt_mem l (holePos c + 1) L j hL hj
        exact if_neg (by omega)),
      PExpr.adjAt_translate r (holePos c + 1 + l.size)
        (holePos c + 2 + l.size) _
        (fun m => by
          rw [if_pos (by omega :
            holePos c + 1 + l.size ≤ holePos c + 1 + l.size + m)]
          omega)]
    rw [show (if holePos c + 1 + l.size ≤ 1 then 1 + 1 else 1) = 1 from by
      rw [if_neg (by omega)],
      show (if holePos c + 1 + l.size ≤ holePos c + 1 then holePos c + 1 + 1
        else holePos c + 1) = holePos c + 1 from by rw [if_neg (by omega)],
      show (if holePos c + 1 + l.size ≤ holePos c + 1 + l.size
        then holePos c + 1 + l.size + 1 else holePos c + 1 + l.size)
        = holePos c + 2 + l.size from by rw [if_pos (by omega)]; omega]
    simp only [List.take_succ_cons, List.take_zero, List.nil_append,
      List.drop_succ_cons, List.drop_zero, List.map_nil, List.map_cons]
    rw [show (if holePos c + 1 + l.size ≤ holePos c + 1 + l.size
        then holePos c + 1 + l.size + 1 else holePos c + 1 + l.size)
        = holePos c + 2 + l.size from by rw [if_pos (by omega)]; omega]
    rw [show ([1] :: (rowsA c (l.size + r.size + 2)
          ++ [holePos c + 1, holePos c + 2 + l.size] ::
            (l.adjAt (holePos c + 1) ++ r.adjAt (holePos c + 2 + l.size))
          ++ rowsB c (l.size + r.size + 2)))
        = ([1] :: rowsA c (l.size + r.size + 2))
          ++ [holePos c + 1, holePos c + 2 + l.size] ::
            (l.adjAt (holePos c + 1) ++ r.adjAt (holePos c + 2 + l.size)
              ++ rowsB c (l.size + r.size + 2)) from by simp,
      set_append_mid2 _ _ _ _ _ (by simp; omega)]
    rw [show (([1] :: rowsA c (l.size + r.size + 2))
          ++ ([holePos c + 1] ++ [holePos c + 1 + l.size]) ::
            (l.adjAt (holePos c + 1) ++ r.adjAt (holePos c + 2 + l.size)
              ++ rowsB c (l.size + r.size + 2)))
        = ((([1] :: rowsA c (l.size + r.size + 2))
            ++ [[holePos c + 1, holePos c + 1 + l.size]])
           ++ l.adjAt (holePos c + 1))
          ++ (r.adjAt (holePos c + 2 + l.size)
              ++ rowsB c (l.size + r.size + 2)) from by simp,
      insertIdx_append_mid2 _ _ _ _ (by simp; omega)]
    conv_rhs => rw [show (l.plus r.succ).size = l.size + r.size + 2 from by
        simp only [PExpr.size]; omega,
      show (l.plus r.succ).adjAt (holePos c)
        = [holePos c + 1, holePos c + 1 + l.size] ::
          (l.adjAt (holePos c + 1)
            ++ ([holePos c + 2 + l.size] :: r.adjAt (holePos c + 2 + l.size)))
        from by
        simp only [PExpr.adjAt, PExpr.size]
        rw [show holePos c + 1 + l.size + 1 = holePos c + 2 + l.size from by
          omega]]
    simp

end Peano

namespace Peano

theorem applyScript_append_ok (s1 s2 : Script) (t u : Tree)
    (h : applyScript s1 t = .ok u) :
    applyScript (s1 ++ s2) t = applyScript s2 u := by
  rw [applyScript_append, h]

/-- Main correspondence: applied at the hole position, the structural image
of one matcher pass rewrites the flattening of `fill c e` into the
flattening of `fill c (step e)`. -/
theorem mainD (e : PExpr) : ∀ (c : Ctx) (o : Nat) (σ : Int),
    (o : Int) + σ = (holePos c : Int) →
    applyScript (opsAt e o σ) (enc (fill c e)) = .ok (enc (fill c (PExpr.step e))) := by
  induction e using PExpr.step.induct with
  | case1 k =>
    intro c o σ h
    rfl
  | case2 k =>
    intro c o σ h
    show applyScript [.del (↑o + σ),
      .rep (↑o + σ) (toString (((k : Nat) + 1) % 10))] _ = _
    rw [h,
      show toString (((k : Nat) + 1) % 10)
        = toString ((PExpr.digitSucc k : Fin 10) : Nat) from rfl,
      applyScript_del_ok _ _ _ _ (LDdelS c (.num k)),
      applyScript_rep_ok _ _ _ _ _ (LDrep c k (PExpr.digitSucc k))]
    rfl
  | case3 e ih =>
    intro c o σ h
    exact ih (.sfr :: c) (o + 1) σ (by
      show ((o + 1 : Nat) : Int) + σ = ((holePos c + 1 : Nat) : Int)
      push_cast
      push_cast at h
      omega)
  | case4 l r ih =>
    intro c o σ h
    exact ih (.sfr :: c) (o + 1) σ (by
      show ((o + 1 : Nat) : Int) + σ = ((holePos c + 1 : Nat) : Int)
      push_cast
      push_cast at h
      omega)
  | case5 l k hk ih =>
    intro c o σ h
    show applyScript (if (k : Nat) = 0 then _ else _) _ = _
    rw [if_pos hk, h,
      show ((o + 1 + l.size : Nat) : Int) + (σ - 1)
        = ((holePos c + l.size : Nat) : Int) from by
        push_cast; push_cast at h; omega,
      applyScript_del_ok _ _ _ _ (LD1a c l k),
      applyScript_del_ok _ _ _ _ (LD1b c l k),
      ih c (o + 1) (σ - 1) (by push_cast; push_cast at h; omega),
      show PExpr.step (l.plus (.num k)) = PExpr.step l from by
        show (if (k : Nat) = 0 then _ else _) = _
        rw [if_pos hk]]
  | case6 l k hk ih =>
    intro c o σ h
    show applyScript (if (k : Nat) = 0 then _ else _) _ = _
    rw [if_neg hk, h,
      show ((o + 1 + l.size : Nat) : Int) + (σ + 1)
        = ((holePos (.sfr :: .rfr l :: c) : Nat) : Int) from by
        simp only [holePos]
        push_cast; push_cast at h; omega,
      show toString ((k : Nat) - 1)
        = toString ((PExpr.digitPred k : Fin 10) : Nat) from rfl,
      applyScript_ins_ok _ _ _ _ _ _ _ (LDins1 c l (.num k)),
      show fill c (l.plus (PExpr.succ (.num k)))
        = fill (.sfr :: .rfr l :: c) (.num k) from rfl,
      applyScript_rep_ok _ _ _ _ _
        (LDrep (.sfr :: .rfr l :: c) k (PExpr.digitPred k)),
      show fill (.sfr :: .rfr l :: c) (.num (PExpr.digitPred k))
        = fill (.lfr (.succ (.num (PExpr.digitPred k))) :: c) l from rfl,
      ih (.lfr (.succ (.num (PExpr.digitPred k))) :: c) (o + 1) σ (by
        show ((o + 1 : Nat) : Int) + σ = ((holePos c + 1 : Nat) : Int)
        push_cast; push_cast at h; omega),
      show PExpr.step (l.plus (.num k))
        = (PExpr.step l).plus (.succ (.num (PExpr.digitPred k))) from by
        show (if (k : Nat) = 0 then _ else _) = _
        rw [if_neg hk]]
    rfl
  | case7 l r ihl ihr =>
    intro c o σ h
    show applyScript (.ins (↑o + σ) 0 "succ" 1 ::
      .del (((o + 1 + l.size : Nat) : Int) + (σ + 1)) :: _) _ = _
    rw [h,
      show ((o + 1 + l.size : Nat) : Int) + (σ + 1)
        = ((holePos (.rfr (.succ l) :: c) : Nat) : Int) from by
        simp only [holePos, PExpr.size]
        push_cast; push_cast at h; omega,
      applyScript_ins_ok _ _ _ _ _ _ _ (LDins0 c l (.succ r)),
      show fill c ((PExpr.succ l).plus (.succ r))
        = fill (.rfr (.succ l) :: c) (.succ r) from rfl,
      applyScript_del_ok _ _ _ _ (LDdelS (.rfr (.succ l) :: c) r),
      show fill (.rfr (.succ l) :: c) r
        = fill (.sfr :: .lfr r :: c) l from rfl,
      applyScript_append_ok _ _ _ _
        (ihl (.sfr :: .lfr r :: c) (o + 1) (σ + 1) (by
          show ((o + 1 : Nat) : Int) + (σ + 1)
            = ((holePos c + 1 + 1 : Nat) : Int)
          push_cast; push_cast at h; omega)),
      show fill (.sfr :: .lfr r :: c) (PExpr.step l)
        = fill (.rfr (.succ (PExpr.step l)) :: c) r from rfl,
      ihr (.rfr (.succ (PExpr.step l)) :: c) (o + 2 + l.size)
        (σ + PExpr.stepDelta l) (by
          show ((o + 2 + l.size : Nat) : Int) + (σ + PExpr.stepDelta l)
            = ((holePos c + 1 + ((PExpr.step l).size + 1) : Nat) : Int)
          unfold PExpr.stepDelta
          push_cast; push_cast at h; omega)]
    rfl
  | case8 l a b ihl ihr =>
    intro c o σ h
    show applyScript (opsAt l (o + 1) σ
      ++ opsAt (.plus a b) (o + 1 + l.size) (σ + PExpr.stepDelta l)) _ = _
    rw [show fill c (l.plus (a.plus b))
        = fill (.lfr (.plus a b) :: c) l from rfl,
      applyScript_append_ok _ _ _ _
        (ihl (.lfr (.plus a b) :: c) (o + 1) σ (by
          show ((o + 1 : Nat) : Int) + σ = ((holePos c + 1 : Nat) : Int)
          push_cast; push_cast at h; omega)),
      show fill (.lfr (.plus a b) :: c) (PExpr.step l)
        = fill (.rfr (PExpr.step l) :: c) (.plus a b) from rfl,
      ihr (.rfr (PExpr.step l) :: c) (o + 1 + l.size)
        (σ + PExpr.stepDelta l) (by
          show ((o + 1 + l.size : Nat) : Int) + (σ + PExpr.stepDelta l)
            = ((holePos c + 1 + (PExpr.step l).size : Nat) : Int)
          unfold PExpr.stepDelta
          push_cast; push_cast at h; omega)]
    rfl

end Peano

namespace Peano

theorem labelVal_digit (k : Fin 10) : labelVal (toString (k : Nat)) = (k : Nat) := by
  revert k
  decide

theorem digit_eq_zero_iff (k : Fin 10) :
    toString (k : Nat) = "0" ↔ (k : Nat) = 0 := by
  revert k
  decide

theorem digit_ne_succ (k : Fin 10) : toString (k : Nat) ≠ "succ" := by
  revert k
  decide

theorem digit_ne_plus (k : Fin 10) : toString (k : Nat) ≠ "+" := by
  revert k
  decide

theorem matchAt_plus0 (nodes : List Label) (adj : List (List Nat))
    (pf : Nat → Nat) (sc : Script) (shift : Nat → Int) (i : Nat)
    (hp : nodes.getD i "" = "+")
    (h0 : nodes.getD ((adj.getD i []).getD 1 0) "" = "0") :
    matchAt nodes adj pf (sc, shift) i
      = (sc ++ [.del (i + shift i),
          .del ((((adj.getD i []).getD 1 0 : Nat) : Int)
            + addSuffix shift (i + 1) (-1) ((adj.getD i []).getD 1 0))],
         addSuffix (addSuffix shift (i + 1) (-1))
           ((adj.getD i []).getD 1 0 + 1) (-1)) := by
  simp only [matchAt]
  rw [if_pos hp, if_pos h0]

theorem matchAt_plusSucc (nodes : List Label) (adj : List (List Nat))
    (pf : Nat → Nat) (sc : Script) (shift : Nat → Int) (i : Nat)
    (hp : nodes.getD i "" = "+")
    (hs : nodes.getD ((adj.getD i []).getD 1 0) "" = "succ") :
    matchAt nodes adj pf (sc, shift) i
      = (sc ++ [.ins (i + shift i) 0 "succ" 1,
          .del ((((adj.getD i []).getD 1 0 : Nat) : Int)
            + addRange shift (i + 1) ((adj.getD i []).getD 1 0 + 1) 1
                ((adj.getD i []).getD 1 0))],
         addRange shift (i + 1) ((adj.getD i []).getD 1 0 + 1) 1) := by
  simp only [matchAt]
  rw [if_pos hp, if_neg (by rw [hs]; decide), if_pos hs]

theorem matchAt_plusNum (nodes : List Label) (adj : List (List Nat))
    (pf : Nat → Nat) (sc : Script) (shift : Nat → Int) (i : Nat)
    (hp : nodes.getD i "" = "+")
    (h0 : nodes.getD ((adj.getD i []).getD 1 0) "" ≠ "0")
    (hs : nodes.getD ((adj.getD i []).getD 1 0) "" ≠ "succ")
    (hpl : nodes.getD ((adj.getD i []).getD 1 0) "" ≠ "+") :
    matchAt nodes adj pf (sc, shift) i
      = (sc ++ [.ins (i + shift i) 1 "succ" 1,
          .rep ((((adj.getD i []).getD 1 0 : Nat) : Int)
            + addSuffix shift ((adj.getD i []).getD 1 0) 1
                ((adj.getD i []).getD 1 0))
            (toString (labelVal (nodes.getD ((adj.getD i []).getD 1 0) "") - 1))],
         addSuffix shift ((adj.getD i []).getD 1 0) 1) := by
  simp only [matchAt]
  rw [if_pos hp, if_neg h0, if_neg hs, if_pos hpl]

theorem matchAt_plusPlus (nodes : List Label) (adj : List (List Nat))
    (pf : Nat → Nat) (sc : Script) (shift : Nat → Int) (i : Nat)
    (hp : nodes.getD i "" = "+")
    (hpl : nodes.getD ((adj.getD i []).getD 1 0) "" = "+") :
    matchAt nodes adj pf (sc, shift) i = (sc, shift) := by
  simp only [matchAt]
  rw [if_pos hp, if_neg (by rw [hpl]; decide), if_neg (by rw [hpl]; decide),
    if_neg (not_not_intro hpl)]

theorem matchAt_skip (nodes : List Label) (adj : List (List Nat))
    (pf : Nat → Nat) (sc : Script) (shift : Nat → Int) (i : Nat)
    (hp : nodes.getD i "" ≠ "+") (hs : nodes.getD i "" ≠ "succ") :
    matchAt nodes adj pf (sc, shift) i = (sc, shift) := by
  simp only [matchAt]
  rw [if_neg hp, if_neg (fun h => hs h.1)]

theorem matchAt_succNum (nodes : List Label) (adj : List (List Nat))
    (pf : Nat → Nat) (sc : Script) (shift : Nat → Int) (i : Nat)
    (hs : nodes.getD i "" = "succ")
    (hguard : nodes.getD (pf i) "" ≠ "+" ∨ pf i = i - 1)
    (d : Fin 10)
    (hd : nodes.getD ((adj.getD i []).getD 0 0) "" = toString (d : Nat)) :
    matchAt nodes adj pf (sc, shift) i
      = (sc ++ [.del (i + shift i),
          .rep ((((adj.getD i []).getD 0 0 : Nat) : Int)
            + addSuffix shift (i + 1) (-1) ((adj.getD i []).getD 0 0))
            (toString ((labelVal (nodes.getD ((adj.getD i []).getD 0 0) "") + 1)
              % 10))],
         addSuffix shift (i + 1) (-1)) := by
  simp only [matchAt]
  rw [if_neg (show ¬nodes.getD i "" = "+" by rw [hs]; decide),
    if_pos ⟨hs, hguard⟩,
    if_pos (show nodes.getD ((adj.getD i []).getD 0 0) ""
        ∉ (["succ", "+"] : List Label)
      from fun hmem => digit_label_notin d (hd ▸ hmem))]

theorem matchAt_succChildOp (nodes : List Label) (adj : List (List Nat))
    (pf : Nat → Nat) (sc : Script) (shift : Nat → Int) (i : Nat)
    (hs : nodes.getD i "" = "succ")
    (hc : nodes.getD ((adj.getD i []).getD 0 0) "" = "succ"
      ∨ nodes.getD ((adj.getD i []).getD 0 0) "" = "+") :
    matchAt nodes adj pf (sc, shift) i = (sc, shift) := by
  simp only [matchAt]
  rw [if_neg (show ¬nodes.getD i "" = "+" by rw [hs]; decide)]
  by_cases hguard : nodes.getD (pf i) "" ≠ "+" ∨ pf i = i - 1
  · rw [if_pos ⟨hs, hguard⟩,
      if_neg (not_not_intro (show nodes.getD ((adj.getD i []).getD 0 0) ""
        ∈ (["succ", "+"] : List Label) by
        rcases hc with h | h <;> rw [h] <;> decide))]
  · rw [if_neg (fun h => hguard h.2)]

theorem matchAt_succGuardFail (nodes : List Label) (adj : List (List Nat))
    (pf : Nat → Nat) (sc : Script) (shift : Nat → Int) (i : Nat)
    (hs : nodes.getD i "" = "succ")
    (hg : ¬(nodes.getD (pf i) "" ≠ "+" ∨ pf i = i - 1)) :
    matchAt nodes adj pf (sc, shift) i = (sc, shift) := by
  simp only [matchAt]
  rw [if_neg (show ¬nodes.getD i "" = "+" by rw [hs]; decide),
    if_neg (fun h => hg h.2)]

theorem headOK_left (nodes : List Label) (pf : Nat → Nat) (x : PExpr) (o : Nat)
    (h : pf (o + 1) = o) : HeadOK nodes pf x (o + 1) := by
  cases x with
  | num k => trivial
  | succ e => exact Or.inr (by omega)
  | plus l r => trivial

theorem headOK_parent_ne (nodes : List Label) (pf : Nat → Nat) (x : PExpr)
    (o p : Nat) (h : pf o = p) (hne : nodes.getD p "" ≠ "+") :
    HeadOK nodes pf x o := by
  cases x with
  | num k => trivial
  | succ e => exact Or.inl (by rw [h]; exact hne)
  | plus l r => trivial

theorem range'_split (s m n : Nat) :
    List.range' s (m + n) = List.range' s m ++ List.range' (s + m) n := by
  rw [Nat.add_comm m n, ← List.range'_append s m n 1]
  simp

end Peano

namespace Peano

/-- One matcher pass over the segment of `e` at offset `o` appends exactly
the structural script `opsAt e o σ` and shifts every position past the
segment by the segment's size change. -/
theorem scanSeg (nodes : List Label) (adj : List (List Nat)) (pf : Nat → Nat)
    (e : PExpr) : ∀ (o : Nat) (σ : Int) (sc : Script) (sh : Nat → Int),
    1 ≤ o → SegHyp nodes adj e o → PiHyp pf e o → HeadOK nodes pf e o →
    (∀ p, o ≤ p → p < o + e.size → sh p = σ) →
    ∃ sh' : Nat → Int,
      (List.range' o e.size).foldl (matchAt nodes adj pf) (sc, sh)
        = (sc ++ opsAt e o σ, sh')
      ∧ (∀ p, p < o → sh' p = sh p)
      ∧ (∀ p, o + e.size ≤ p → sh' p = sh p + PExpr.stepDelta e) := by
  induction e using PExpr.step.induct with
  | case1 k =>
    intro o σ sc sh ho hseg hpi hhead hconst
    obtain ⟨hn, ha⟩ := hseg
    refine ⟨sh, ?_, fun p h => rfl, fun p h => ?_⟩
    · rw [show (PExpr.num k).size = 1 from rfl,
        show List.range' o 1 = [o] from rfl, List.foldl_cons, List.foldl_nil,
        matchAt_skip nodes adj pf sc sh o
          (by rw [hn]; exact digit_ne_plus k)
          (by rw [hn]; exact digit_ne_succ k)]
      simp [opsAt]
    · simp [PExpr.stepDelta, PExpr.step, PExpr.size]
  | case2 k =>
    intro o σ sc sh ho hseg hpi hhead hconst
    obtain ⟨hn, hrow, hn2, hrow2⟩ := hseg
    have hsz : (PExpr.succ (PExpr.num k)).size = 2 := rfl
    have hchild : (adj.getD o []).getD 0 0 = o + 1 := by rw [hrow]; rfl
    refine ⟨addSuffix sh (o + 1) (-1), ?_, fun p h => ?_, fun p h => ?_⟩
    · rw [hsz, show List.range' o 2 = [o, o + 1] from rfl, List.foldl_cons,
        matchAt_succNum nodes adj pf sc sh o hn hhead k (by rw [hchild]; exact hn2),
        List.foldl_cons, List.foldl_nil,
        matchAt_skip nodes adj pf _ _ (o + 1)
          (by rw [hn2]; exact digit_ne_plus k)
          (by rw [hn2]; exact digit_ne_succ k)]
      rw [hchild, hconst o (by omega) (by rw [hsz]; omega)]
      rw [show addSuffix sh (o + 1) (-1) (o + 1) = σ - 1 from by
        unfold addSuffix
        rw [if_pos (by omega), hconst (o + 1) (by omega) (by rw [hsz]; omega)]
        ring]
      rw [hn2, labelVal_digit]
      show _ = (sc ++ [.del (↑o + σ), .rep (↑o + σ) _], _)
      rw [show ((o + 1 : Nat) : Int) + (σ - 1) = ↑o + σ from by push_cast; ring]
    · unfold addSuffix
      rw [if_neg (by omega)]
    · unfold addSuffix
      rw [if_pos (by omega)]
      rw [show PExpr.stepDelta (.succ (.num k)) = -1 from by
        simp [PExpr.stepDelta, PExpr.step, PExpr.size]]
  | case3 x ih =>
    intro o σ sc sh ho hseg hpi hhead hconst
    obtain ⟨hn, hrow, hseg2⟩ := hseg
    obtain ⟨hpf, hpi2⟩ := hpi
    have hn2 : nodes.getD (o + 1) "" = "succ" := hseg2.1
    have hchild : (adj.getD o []).getD 0 0 = o + 1 := by rw [hrow]; rfl
    obtain ⟨sh', heq, hlt, hge⟩ := ih (o + 1) σ sc sh (by omega) hseg2 hpi2
      (headOK_parent_ne nodes pf _ (o + 1) o hpf (by rw [hn]; decide))
      (fun p h1 h2 => hconst p (by omega) (by
        rw [show (PExpr.succ (.succ x)).size = (PExpr.succ x).size + 1 from rfl]
        omega))
    refine ⟨sh', ?_, fun p h => hlt p (by omega), fun p h => ?_⟩
    · rw [show (PExpr.succ (.succ x)).size = 1 + (PExpr.succ x).size from by
        rw [show (PExpr.succ (.succ x)).size = (PExpr.succ x).size + 1 from rfl]
        omega,
        range'_split o 1 (PExpr.succ x).size,
        show List.range' o 1 = [o] from rfl, List.foldl_append,
        List.foldl_cons, List.foldl_nil,
        matchAt_succChildOp nodes adj pf sc sh o hn
          (Or.inl (by rw [hchild]; exact hn2)),
        heq]
      rfl
    · rw [hge p (by
        rw [show (PExpr.succ (.succ x)).size = (PExpr.succ x).size + 1 from rfl]
          at h
        omega)]
      rw [show PExpr.stepDelta (.succ (.succ x)) = PExpr.stepDelta (.succ x)
        from by
        simp only [PExpr.stepDelta, PExpr.step, PExpr.size]
        push_cast
        ring]
  | case4 l r ih =>
    intro o σ sc sh ho hseg hpi hhead hconst
    obtain ⟨hn, hrow, hseg2⟩ := hseg
    obtain ⟨hpf, hpi2⟩ := hpi
    have hn2 : nodes.getD (o + 1) "" = "+" := hseg2.1
    have hchild : (adj.getD o []).getD 0 0 = o + 1 := by rw [hrow]; rfl
    obtain ⟨sh', heq, hlt, hge⟩ := ih (o + 1) σ sc sh (by omega) hseg2 hpi2
      trivial
      (fun p h1 h2 => hconst p (by omega) (by
        rw [show (PExpr.succ (.plus l r)).size = (PExpr.plus l r).size + 1
          from rfl]
        omega))
    refine ⟨sh', ?_, fun p h => hlt p (by omega), fun p h => ?_⟩
    · rw [show (PExpr.succ (.plus l r)).size = 1 + (PExpr.plus l r).size from by
        rw [show (PExpr.succ (.plus l r)).size = (PExpr.plus l r).size + 1
          from rfl]
        omega,
        range'_split o 1 (PExpr.plus l r).size,
        show List.range' o 1 = [o] from rfl, List.foldl_append,
        List.foldl_cons, List.foldl_nil,
        matchAt_succChildOp nodes adj pf sc sh o hn
          (Or.inr (by rw [hchild]; exact hn2)),
        heq]
      rfl
    · rw [hge p (by
        rw [show (PExpr.succ (.plus l r)).size = (PExpr.plus l r).size + 1
          from rfl] at h
        omega)]
      rw [show PExpr.stepDelta (.succ (.plus l r))
          = PExpr.stepDelta (.plus l r) from by
        simp only [PExpr.stepDelta, PExpr.step, PExpr.size]
        push_cast
        ring]
  | case5 l k hk ih =>
    intro o σ sc sh ho hseg hpi hhead hconst
    obtain ⟨hn, hrow, hsegl, hsegr⟩ := hseg
    obtain ⟨hpfl, hpfr, hpil, hpir⟩ := hpi
    have hls := l.size_pos
    have hsz : (PExpr.plus l (.num k)).size = l.size + 2 := by
      simp [PExpr.size]
    have hright : (adj.getD o []).getD 1 0 = o + 1 + l.size := by rw [hrow]; rfl
    have hn2 : nodes.getD (o + 1 + l.size) "" = "0" := by
      have := hsegr.1
      rwa [show toString ((k : Fin 10) : Nat) = "0" from
        (digit_eq_zero_iff k).mpr hk] at this
    -- the head emission
    have hhead1 := matchAt_plus0 nodes adj pf sc sh o hn (by rw [hright]; exact hn2)
    rw [hright] at hhead1
    -- the shift after the head
    obtain ⟨sh', heq, hlt, hge⟩ := ih (o + 1) (σ - 1)
      (sc ++ [.del (↑o + sh o),
        .del (((o + 1 + l.size : Nat) : Int)
          + addSuffix sh (o + 1) (-1) (o + 1 + l.size))])
      (addSuffix (addSuffix sh (o + 1) (-1)) (o + 1 + l.size + 1) (-1))
      (by omega) hsegl hpil (headOK_left nodes pf l o hpfl)
      (fun p h1 h2 => by
        unfold addSuffix
        rw [if_neg (by omega), if_pos (by omega),
          hconst p (by omega) (by rw [hsz]; omega)]
        ring)
    refine ⟨sh', ?_, fun p h => ?_, fun p h => ?_⟩
    · rw [hsz, show l.size + 2 = 1 + (l.size + 1) from by omega,
        range'_split o 1 (l.size + 1),
        show List.range' o 1 = [o] from rfl, List.foldl_append,
        List.foldl_cons, List.foldl_nil, hhead1,
        range'_split (o + 1) l.size 1, List.foldl_append, heq,
        show List.range' (o + 1 + l.size) 1 = [o + 1 + l.size] from rfl,
        List.foldl_cons, List.foldl_nil,
        matchAt_skip nodes adj pf _ _ (o + 1 + l.size)
          (by rw [hn2]; decide) (by rw [hn2]; decide)]
      rw [hconst o (by omega) (by rw [hsz]; omega),
        show addSuffix sh (o + 1) (-1) (o + 1 + l.size) = σ - 1 from by
          unfold addSuffix
          rw [if_pos (by omega), hconst (o + 1 + l.size) (by omega)
            (by rw [hsz]; omega)]
          ring]
      show _ = (sc ++ opsAt (.plus l (.num k)) o σ, sh')
      rw [show opsAt (.plus l (.num k)) o σ
          = .del (↑o + σ) :: .del (((o + 1 + l.size : Nat) : Int) + (σ - 1)) ::
            opsAt l (o + 1) (σ - 1) from by
        show (if (k : Nat) = 0 then _ else _) = _
        rw [if_pos hk]]
      simp
    · rw [hlt p (by omega)]
      unfold addSuffix
      rw [if_neg (by omega), if_neg (by omega)]
    · rw [hge p (by rw [hsz] at h; omega)]
      unfold addSuffix
      rw [if_pos (by omega), if_pos (by omega)]
      rw [show PExpr.stepDelta (.plus l (.num k)) = PExpr.stepDelta l - 2 from by
        simp only [PExpr.stepDelta, PExpr.size,
          show PExpr.step (.plus l (.num k)) = PExpr.step l from by
            show (if (k : Nat) = 0 then _ else _) = _
            rw [if_pos hk]]
        push_cast
        ring]
      ring
  | case6 l k hk ih =>
    intro o σ sc sh ho hseg hpi hhead hconst
    obtain ⟨hn, hrow, hsegl, hsegr⟩ := hseg
    obtain ⟨hpfl, hpfr, hpil, hpir⟩ := hpi
    have hls := l.size_pos
    have hsz : (PExpr.plus l (.num k)).size = l.size + 2 := by
      simp [PExpr.size]
    have hright : (adj.getD o []).getD 1 0 = o + 1 + l.size := by rw [hrow]; rfl
    have hn2 : nodes.getD (o + 1 + l.size) "" = toString ((k : Fin 10) : Nat) :=
      hsegr.1
    have hhead1 := matchAt_plusNum nodes adj pf sc sh o hn
      (by rw [hright, hn2]; exact fun hx => hk ((digit_eq_zero_iff k).mp hx))
      (by rw [hright, hn2]; exact digit_ne_succ k)
      (by rw [hright, hn2]; exact digit_ne_plus k)
    rw [hright] at hhead1
    obtain ⟨sh', heq, hlt, hge⟩ := ih (o + 1) σ
      (sc ++ [.ins (↑o + sh o) 1 "succ" 1,
        .rep (((o + 1 + l.size : Nat) : Int)
            + addSuffix sh (o + 1 + l.size) 1 (o + 1 + l.size))
          (toString (labelVal (nodes.getD (o + 1 + l.size) "") - 1))])
      (addSuffix sh (o + 1 + l.size) 1)
      (by omega) hsegl hpil (headOK_left nodes pf l o hpfl)
      (fun p h1 h2 => by
        unfold addSuffix
        rw [if_neg (by omega), hconst p (by omega) (by rw [hsz]; omega)])
    refine ⟨sh', ?_, fun p h => ?_, fun p h => ?_⟩
    · rw [hsz, show l.size + 2 = 1 + (l.size + 1) from by omega,
        range'_split o 1 (l.size + 1),
        show List.range' o 1 = [o] from rfl, List.foldl_append,
        List.foldl_cons, List.foldl_nil, hhead1,
        range'_split (o + 1) l.size 1, List.foldl_append, heq,
        show List.range' (o + 1 + l.size) 1 = [o + 1 + l.size] from rfl,
        List.foldl_cons, List.foldl_nil,
        matchAt_skip nodes adj pf _ _ (o + 1 + l.size)
          (by rw [hn2]; exact digit_ne_plus k)
          (by rw [hn2]; exact digit_ne_succ k)]
      rw [hconst o (by omega) (by rw [hsz]; omega),
        show addSuffix sh (o + 1 + l.size) 1 (o + 1 + l.size) = σ + 1 from by
          unfold addSuffix
          rw [if_pos (by omega), hconst (o + 1 + l.size) (by omega)
            (by rw [hsz]; omega)],
        hn2, labelVal_digit]
      show _ = (sc ++ opsAt (.plus l (.num k)) o σ, sh')
      rw [show opsAt (.plus l (.num k)) o σ
          = .ins (↑o + σ) 1 "succ" 1 ::
            .rep (((o + 1 + l.size : Nat) : Int) + (σ + 1))
              (toString ((k : Nat) - 1)) ::
            opsAt l (o + 1) σ from by
        show (if (k : Nat) = 0 then _ else _) = _
        rw [if_neg hk]]
      simp
    · rw [hlt p (by omega)]
      unfold addSuffix
      rw [if_neg (by omega)]
    · rw [hge p (by rw [hsz] at h; omega)]
      unfold addSuffix
      rw [if_pos (by omega)]
      rw [show PExpr.stepDelta (.plus l (.num k)) = PExpr.stepDelta l + 1 from by
        simp only [PExpr.stepDelta, PExpr.size,
          show PExpr.step (.plus l (.num k))
            = (PExpr.step l).plus (.succ (.num (PExpr.digitPred k))) from by
            show (if (k : Nat) = 0 then _ else _) = _
            rw [if_neg hk]]
        push_cast
        ring]
      ring
  | case7 l r ihl ihr =>
    intro o σ sc sh ho hseg hpi hhead hconst
    obtain ⟨hn, hrow, hsegl, hsegr⟩ := hseg
    obtain ⟨hpfl, hpfr, hpil, hpir⟩ := hpi
    have hls := l.size_pos
    have hrs := r.size_pos
    have hsz : (PExpr.plus l (.succ r)).size = l.size + r.size + 2 := by
      simp [PExpr.size]
      omega
    have hright : (adj.getD o []).getD 1 0 = o + 1 + l.size := by rw [hrow]; rfl
    obtain ⟨hn2, hrow2, hsegr2⟩ := hsegr
    obtain ⟨hpf2, hpir2⟩ := hpir
    have hhead1 := matchAt_plusSucc nodes adj pf sc sh o hn
      (by rw [hright]; exact hn2)
    rw [hright] at hhead1
    obtain ⟨sh3, heq3, hlt3, hge3⟩ := ihl (o + 1) (σ + 1)
      (sc ++ [.ins (↑o + sh o) 0 "succ" 1,
        .del (((o + 1 + l.size : Nat) : Int)
          + addRange sh (o + 1) (o + 1 + l.size + 1) 1 (o + 1 + l.size))])
      (addRange sh (o + 1) (o + 1 + l.size + 1) 1)
      (by omega) hsegl hpil (headOK_left nodes pf l o hpfl)
      (fun p h1 h2 => by
        unfold addRange
        rw [if_pos (by omega), hconst p (by omega) (by rw [hsz]; omega)])
    obtain ⟨sh4, heq4, hlt4, hge4⟩ := ihr (o + 1 + l.size + 1)
      (σ + PExpr.stepDelta l) _ sh3
      (by omega) (by
        rw [show o + 1 + l.size + 1 = o + 1 + l.size + 1 from rfl]
        exact hsegr2) (by exact hpir2)
      (headOK_parent_ne nodes pf r (o + 1 + l.size + 1) (o + 1 + l.size)
        hpf2 (by rw [hn2]; decide))
      (fun p h1 h2 => by
        rw [hge3 p (by omega)]
        unfold addRange
        rw [if_neg (by omega), hconst p (by omega) (by rw [hsz]; omega)])
    refine ⟨sh4, ?_, fun p h => ?_, fun p h => ?_⟩
    · rw [hsz, show l.size + r.size + 2 = 1 + (l.size + (1 + r.size)) from by
        omega,
        range'_split o 1 (l.size + (1 + r.size)),
        show List.range' o 1 = [o] from rfl, List.foldl_append,
        List.foldl_cons, List.foldl_nil, hhead1,
        range'_split (o + 1) l.size (1 + r.size), List.foldl_append, heq3,
        range'_split (o + 1 + l.size) 1 r.size,
        show List.range' (o + 1 + l.size) 1 = [o + 1 + l.size] from rfl,
        List.foldl_append, List.foldl_cons, List.foldl_nil,
        matchAt_succGuardFail nodes adj pf _ _ (o + 1 + l.size) hn2
          (by
            push_neg
            refine ⟨by rw [hpfr, hn], by omega⟩),
        heq4]
      rw [hconst o (by omega) (by rw [hsz]; omega),
        show addRange sh (o + 1) (o + 1 + l.size + 1) 1 (o + 1 + l.size)
          = σ + 1 from by
          unfold addRange
          rw [if_pos (by omega), hconst (o + 1 + l.size) (by omega)
            (by rw [hsz]; omega)]]
      show _ = (sc ++ opsAt (.plus l (.succ r)) o σ, sh4)
      rw [show opsAt (.plus l (.succ r)) o σ
          = .ins (↑o + σ) 0 "succ" 1 ::
            .del (((o + 1 + l.size : Nat) : Int) + (σ + 1)) ::
            (opsAt l (o + 1) (σ + 1)
              ++ opsAt r (o + 2 + l.size) (σ + PExpr.stepDelta l)) from rfl,
        show o + 2 + l.size = o + 1 + l.size + 1 from by omega]
      simp
    · rw [hlt4 p (by omega), hlt3 p (by omega)]
      unfold addRange
      rw [if_neg (by omega)]
    · rw [hge4 p (by rw [hsz] at h; omega), hge3 p (by rw [hsz] at h; omega)]
      unfold addRange
      rw [if_neg (by rw [hsz] at h; omega)]
      rw [show PExpr.stepDelta (.plus l (.succ r))
          = PExpr.stepDelta l + PExpr.stepDelta r from by
        simp only [PExpr.stepDelta, PExpr.size,
          show PExpr.step (.plus l (.succ r))
            = (PExpr.succ (PExpr.step l)).plus (PExpr.step r) from rfl]
        push_cast
        ring]
      ring
  | case8 l a b ihl ihr =>
    intro o σ sc sh ho hseg hpi hhead hconst
    obtain ⟨hn, hrow, hsegl, hsegr⟩ := hseg
    obtain ⟨hpfl, hpfr, hpil, hpir⟩ := hpi
    have hls := l.size_pos
    have hsab : 0 < (PExpr.plus a b).size := (PExpr.plus a b).size_pos
    have hsz : (PExpr.plus l (.plus a b)).size
        = l.size + (PExpr.plus a b).size + 1 := rfl
    have hright : (adj.getD o []).getD 1 0 = o + 1 + l.size := by rw [hrow]; rfl
    have hn2 : nodes.getD (o + 1 + l.size) "" = "+" := hsegr.1
    have hhead1 := matchAt_plusPlus nodes adj pf sc sh o hn
      (by rw [hright]; exact hn2)
    obtain ⟨sh3, heq3, hlt3, hge3⟩ := ihl (o + 1) σ sc sh
      (by omega) hsegl hpil (headOK_left nodes pf l o hpfl)
      (fun p h1 h2 => hconst p (by omega) (by rw [hsz]; omega))
    obtain ⟨sh4, heq4, hlt4, hge4⟩ := ihr (o + 1 + l.size)
      (σ + PExpr.stepDelta l) _ sh3
      (by omega) hsegr hpir trivial
      (fun p h1 h2 => by
        rw [hge3 p (by omega), hconst p (by omega) (by rw [hsz]; omega)])
    refine ⟨sh4, ?_, fun p h => ?_, fun p h => ?_⟩
    · rw [hsz, show l.size + (PExpr.plus a b).size + 1
          = 1 + (l.size + (PExpr.plus a b).size) from by omega,
        range'_split o 1 (l.size + (PExpr.plus a b).size),
        show List.range' o 1 = [o] from rfl, List.foldl_append,
        List.foldl_cons, List.foldl_nil, hhead1,
        range'_split (o + 1) l.size (PExpr.plus a b).size, List.foldl_append,
        heq3, heq4]
      show _ = (sc ++ opsAt (.plus l (.plus a b)) o σ, sh4)
      rw [show opsAt (.plus l (.plus a b)) o σ
          = opsAt l (o + 1) σ
            ++ opsAt (.plus a b) (o + 1 + l.size) (σ + PExpr.stepDelta l)
          from rfl]
      simp
    · rw [hlt4 p (by omega), hlt3 p (by omega)]
    · rw [hge4 p (by rw [hsz] at h; omega), hge3 p (by rw [hsz] at h; omega)]
      rw [show PExpr.stepDelta (.plus l (.plus a b))
          = PExpr.stepDelta l + PExpr.stepDelta (.plus a b) from by
        simp only [PExpr.stepDelta, PExpr.size,
          show PExpr.step (.plus l (.plus a b))
            = (PExpr.step l).plus (PExpr.step (.plus a b)) from rfl]
        push_cast
        ring]
      ring

end Peano

namespace Peano

theorem rowFold_notmem (row : List Nat) (g : Nat → Nat) (i j : Nat)
    (h : j ∉ row) :
    (row.foldl (fun g x => Function.update g x i) g) j = g j := by
  induction row generalizing g with
  | nil => rfl
  | cons x rest ih =>
    rw [List.foldl_cons, ih _ (fun hx => h (List.mem_cons_of_mem x hx)),
      Function.update_noteq (fun hx => h (by
        rw [hx]; exact List.mem_cons_self x rest))]

theorem rowFold_mem (row : List Nat) (g : Nat → Nat) (i j : Nat)
    (h : j ∈ row) :
    (row.foldl (fun g x => Function.update g x i) g) j = i := by
  induction row generalizing g with
  | nil => cases h
  | cons x rest ih =>
    rw [List.foldl_cons]
    by_cases hr : j ∈ rest
    · exact ih _ hr
    · have hx : j = x := by
        rcases List.mem_cons.mp h with h1 | h1
        · exact h1
        · exact absurd h1 hr
      rw [rowFold_notmem rest _ i j hr, hx, Function.update_same]

theorem listFold_notmem (adj : List (List Nat)) (L : List Nat)
    (f0 : Nat → Nat) (j : Nat) (h : ∀ i ∈ L, j ∉ adj.getD i []) :
    (L.foldl (fun f i => (adj.getD i []).foldl
      (fun g x => Function.update g x i) f) f0) j = f0 j := by
  induction L generalizing f0 with
  | nil => rfl
  | cons i0 L ih =>
    rw [List.foldl_cons, ih _ (fun i hi => h i (List.mem_cons_of_mem i0 hi)),
      rowFold_notmem _ _ _ _ (h i0 (List.mem_cons_self i0 L))]

theorem listFold_mem (adj : List (List Nat)) (L : List Nat)
    (f0 : Nat → Nat) (j i : Nat) (hi : i ∈ L) (hmem : j ∈ adj.getD i [])
    (huniq : ∀ i' ∈ L, i' ≠ i → j ∉ adj.getD i' []) :
    (L.foldl (fun f i => (adj.getD i []).foldl
      (fun g x => Function.update g x i) f) f0) j = i := by
  induction L generalizing f0 with
  | nil => cases hi
  | cons i0 L ih =>
    rw [List.foldl_cons]
    by_cases hL : i ∈ L
    · exact ih _ hL (fun i' hi' hne => huniq i' (List.mem_cons_of_mem i0 hi') hne)
    · have hi0 : i0 = i := by
        rcases List.mem_cons.mp hi with h1 | h1
        · exact h1.symm
        · exact absurd h1 hL
      subst hi0
      rw [listFold_notmem adj L _ j (fun i' hi' =>
        huniq i' (List.mem_cons_of_mem i0 hi')
          (fun he => hL (he ▸ hi')))]
      exact rowFold_mem _ _ _ _ hmem

/-- No preorder position lies in two distinct adjacency rows of a segment. -/
theorem PExpr.adjAt_unique (e : PExpr) (o : Nat) :
    ∀ (d1 d2 q : Nat), q ∈ (e.adjAt o).getD d1 [] →
      q ∈ (e.adjAt o).getD d2 [] → d1 = d2 := by
  induction e generalizing o with
  | num k =>
    intro d1 d2 q h1 h2
    rcases d1 with _ | d1
    · cases h1
    · have : (PExpr.adjAt (.num k) o).getD (d1 + 1) [] = [] := by
        cases d1 <;> rfl
      rw [this] at h1
      cases h1
  | succ x ih =>
    intro d1 d2 q h1 h2
    have hb := fun (d : Nat) (h : q ∈ (PExpr.adjAt (.succ x) o).getD d []) =>
      PExpr.adjAt_bounds (.succ x) o d q h
    rcases d1 with _ | d1 <;> rcases d2 with _ | d2
    · rfl
    · -- d1 = 0: q = o + 1; d2 + 1: inner bounds give o + 1 < q
      simp only [PExpr.adjAt, List.getD_cons_zero, List.mem_singleton] at h1
      simp only [PExpr.adjAt, List.getD_cons_succ] at h2
      obtain ⟨ha, hb2, hc⟩ := PExpr.adjAt_bounds x (o + 1) d2 q h2
      omega
    · simp only [PExpr.adjAt, List.getD_cons_zero, List.mem_singleton] at h2
      simp only [PExpr.adjAt, List.getD_cons_succ] at h1
      obtain ⟨ha, hb2, hc⟩ := PExpr.adjAt_bounds x (o + 1) d1 q h1
      omega
    · simp only [PExpr.adjAt, List.getD_cons_succ] at h1 h2
      have := ih (o + 1) d1 d2 q h1 h2
      omega
  | plus l r ihl ihr =>
    intro d1 d2 q h1 h2
    have hls := l.size_pos
    have hrs := r.size_pos
    have hsplit : ∀ d : Nat, (PExpr.adjAt (.plus l r) o).getD (d + 1) []
        = if d < l.size then (l.adjAt (o + 1)).getD d []
          else (r.adjAt (o + 1 + l.size)).getD (d - l.size) [] := by
      intro d
      simp only [PExpr.adjAt, List.getD_cons_succ]
      by_cases hd : d < l.size
      · rw [if_pos hd, List.getD_eq_getElem?_getD,
          List.getElem?_append_left (by rw [l.adjAt_length]; exact hd),
          ← List.getD_eq_getElem?_getD]
      · rw [if_neg hd, List.getD_eq_getElem?_getD,
          List.getElem?_append_right (by rw [l.adjAt_length]; omega),
          l.adjAt_length, ← List.getD_eq_getElem?_getD]
    rcases d1 with _ | d1 <;> rcases d2 with _ | d2
    · rfl
    · simp only [PExpr.adjAt, List.getD_cons_zero, List.mem_cons,
        List.mem_singleton] at h1
      rw [hsplit d2] at h2
      by_cases hd : d2 < l.size
      · rw [if_pos hd] at h2
        obtain ⟨ha, hb2, hc⟩ := PExpr.adjAt_bounds l (o + 1) d2 q h2
        rcases h1 with h | h | h
        · omega
        · omega
        · cases h
      · rw [if_neg hd] at h2
        obtain ⟨ha, hb2, hc⟩ := PExpr.adjAt_bounds r (o + 1 + l.size)
          (d2 - l.size) q h2
        rcases h1 with h | h | h
        · omega
        · omega
        · cases h
    · simp only [PExpr.adjAt, List.getD_cons_zero, List.mem_cons,
        List.mem_singleton] at h2
      rw [hsplit d1] at h1
      by_cases hd : d1 < l.size
      · rw [if_pos hd] at h1
        obtain ⟨ha, hb2, hc⟩ := PExpr.adjAt_bounds l (o + 1) d1 q h1
        rcases h2 with h | h | h
        · omega
        · omega
        · cases h
      · rw [if_neg hd] at h1
        obtain ⟨ha, hb2, hc⟩ := PExpr.adjAt_bounds r (o + 1 + l.size)
          (d1 - l.size) q h1
        rcases h2 with h | h | h
        · omega
        · omega
        · cases h
    · rw [hsplit d1] at h1
      rw [hsplit d2] at h2
      by_cases hd1 : d1 < l.size <;> by_cases hd2 : d2 < l.size
      · rw [if_pos hd1] at h1
        rw [if_pos hd2] at h2
        have := ihl (o + 1) d1 d2 q h1 h2
        omega
      · rw [if_pos hd1] at h1
        rw [if_neg hd2] at h2
        obtain ⟨ha1, hb1, hc1⟩ := PExpr.adjAt_bounds l (o + 1) d1 q h1
        obtain ⟨ha2, hb2, hc2⟩ := PExpr.adjAt_bounds r (o + 1 + l.size)
          (d2 - l.size) q h2
        omega
      · rw [if_neg hd1] at h1
        rw [if_pos hd2] at h2
        obtain ⟨ha1, hb1, hc1⟩ := PExpr.adjAt_bounds r (o + 1 + l.size)
          (d1 - l.size) q h1
        obtain ⟨ha2, hb2, hc2⟩ := PExpr.adjAt_bounds l (o + 1) d2 q h2
        omega
      · rw [if_neg hd1] at h1
        rw [if_neg hd2] at h2
        have := ihr (o + 1 + l.size) (d1 - l.size) (d2 - l.size) q h1 h2
        omega

end Peano

namespace Peano

/-- The segment hypotheses hold for any flat tree that embeds the segment's
labels and rows at its offset. -/
theorem segHyp_decomp (e : PExpr) : ∀ (o : Nat) (N1 N2 : List Label)
    (A1 A2 : List (List Nat)), N1.length = o → A1.length = o →
    SegHyp (N1 ++ e.labels ++ N2) (A1 ++ e.adjAt o ++ A2) e o := by
  induction e with
  | num k =>
    intro o N1 N2 A1 A2 hN hA
    refine ⟨?_, ?_⟩
    · rw [show N1 ++ (PExpr.num k).labels ++ N2
          = N1 ++ toString (k : Nat) :: N2 from by simp [PExpr.labels]]
      exact getD_append_mid2 _ _ _ _ _ hN
    · rw [show A1 ++ (PExpr.num k).adjAt o ++ A2
          = A1 ++ [] :: A2 from by simp [PExpr.adjAt]]
      exact getD_append_mid2 _ _ _ _ _ hA
  | succ x ih =>
    intro o N1 N2 A1 A2 hN hA
    refine ⟨?_, ?_, ?_⟩
    · rw [show N1 ++ (PExpr.succ x).labels ++ N2
          = N1 ++ "succ" :: (x.labels ++ N2) from by simp [PExpr.labels]]
      exact getD_append_mid2 _ _ _ _ _ hN
    · rw [show A1 ++ (PExpr.succ x).adjAt o ++ A2
          = A1 ++ [o + 1] :: (x.adjAt (o + 1) ++ A2) from by
        simp [PExpr.adjAt]]
      exact getD_append_mid2 _ _ _ _ _ hA
    · have := ih (o + 1) (N1 ++ ["succ"]) N2 (A1 ++ [[o + 1]]) A2
        (by simp; omega) (by simp; omega)
      rw [show (N1 ++ ["succ"]) ++ x.labels ++ N2
          = N1 ++ (PExpr.succ x).labels ++ N2 from by simp [PExpr.labels],
        show (A1 ++ [[o + 1]]) ++ x.adjAt (o + 1) ++ A2
          = A1 ++ (PExpr.succ x).adjAt o ++ A2 from by
        simp [PExpr.adjAt]] at this
      exact this
  | plus l r ihl ihr =>
    intro o N1 N2 A1 A2 hN hA
    have hll := l.labels_length
    have hla := l.adjAt_length (o + 1)
    refine ⟨?_, ?_, ?_, ?_⟩
    · rw [show N1 ++ (PExpr.plus l r).labels ++ N2
          = N1 ++ "+" :: (l.labels ++ (r.labels ++ N2)) from by
        simp [PExpr.labels]]
      exact getD_append_mid2 _ _ _ _ _ hN
    · rw [show A1 ++ (PExpr.plus l r).adjAt o ++ A2
          = A1 ++ [o + 1, o + 1 + l.size] ::
            (l.adjAt (o + 1) ++ (r.adjAt (o + 1 + l.size) ++ A2)) from by
        simp [PExpr.adjAt]]
      exact getD_append_mid2 _ _ _ _ _ hA
    · have := ihl (o + 1) (N1 ++ ["+"]) (r.labels ++ N2)
        (A1 ++ [[o + 1, o + 1 + l.size]]) (r.adjAt (o + 1 + l.size) ++ A2)
        (by simp; omega) (by simp; omega)
      rw [show (N1 ++ ["+"]) ++ l.labels ++ (r.labels ++ N2)
          = N1 ++ (PExpr.plus l r).labels ++ N2 from by simp [PExpr.labels],
        show (A1 ++ [[o + 1, o + 1 + l.size]]) ++ l.adjAt (o + 1)
            ++ (r.adjAt (o + 1 + l.size) ++ A2)
          = A1 ++ (PExpr.plus l r).adjAt o ++ A2 from by
        simp [PExpr.adjAt]] at this
      exact this
    · have := ihr (o + 1 + l.size) (N1 ++ "+" :: l.labels) N2
        (A1 ++ [o + 1, o + 1 + l.size] :: l.adjAt (o + 1)) A2
        (by simp; omega) (by simp; omega)
      rw [show (N1 ++ "+" :: l.labels) ++ r.labels ++ N2
          = N1 ++ (PExpr.plus l r).labels ++ N2 from by simp [PExpr.labels],
        show (A1 ++ [o + 1, o + 1 + l.size] :: l.adjAt (o + 1))
            ++ r.adjAt (o + 1 + l.size) ++ A2
          = A1 ++ (PExpr.plus l r).adjAt o ++ A2 from by
        simp [PExpr.adjAt]] at this
      exact this

/-- The parent-map hypotheses follow from agreement on every edge of the
segment. -/
theorem piHyp_intro (pf : Nat → Nat) (e : PExpr) : ∀ (o : Nat),
    (∀ p q, o ≤ p → p < o + e.size → q ∈ (e.adjAt o).getD (p - o) [] →
      pf q = p) →
    PiHyp pf e o := by
  induction e with
  | num k => intro o h; trivial
  | succ x ih =>
    intro o h
    have hxs := x.size_pos
    have hsz : (PExpr.succ x).size = x.size + 1 := rfl
    refine ⟨?_, ?_⟩
    · exact h o (o + 1) (le_refl o) (by omega)
        (by rw [Nat.sub_self]; simp [PExpr.adjAt])
    · refine ih (o + 1) (fun p q hp1 hp2 hq => ?_)
      refine h p q (by omega) (by omega) ?_
      rw [show p - o = (p - (o + 1)) + 1 from by omega]
      simpa [PExpr.adjAt] using hq
  | plus l r ihl ihr =>
    intro o h
    have hls := l.size_pos
    have hrs := r.size_pos
    have hsz : (PExpr.plus l r).size = l.size + r.size + 1 := rfl
    have hla := l.adjAt_length (o + 1)
    refine ⟨?_, ?_, ?_, ?_⟩
    · exact h o (o + 1) (le_refl o) (by omega)
        (by rw [Nat.sub_self]; simp [PExpr.adjAt])
    · exact h o (o + 1 + l.size) (le_refl o) (by omega)
        (by rw [Nat.sub_self]; simp [PExpr.adjAt])
    · refine ihl (o + 1) (fun p q hp1 hp2 hq => ?_)
      refine h p q (by omega) (by omega) ?_
      rw [show p - o = (p - (o + 1)) + 1 from by omega]
      simp only [PExpr.adjAt, List.getD_cons_succ]
      rw [List.getD_eq_getElem?_getD,
        List.getElem?_append_left (by rw [hla]; omega),
        ← List.getD_eq_getElem?_getD]
      exact hq
    · refine ihr (o + 1 + l.size) (fun p q hp1 hp2 hq => ?_)
      refine h p q (by omega) (by omega) ?_
      rw [show p - o = (p - (o + 1)) + 1 from by omega]
      simp only [PExpr.adjAt, List.getD_cons_succ]
      rw [List.getD_eq_getElem?_getD,
        List.getElem?_append_right (by rw [hla]; omega), hla,
        ← List.getD_eq_getElem?_getD,
        show p - (o + 1) - l.size = p - (o + 1 + l.size) from by omega]
      exact hq

/-- The source's parent map assigns every segment edge its parent. -/
theorem parentMap_enc (e : PExpr) (p q : Nat) (hp1 : 1 ≤ p)
    (hp2 : p < 1 + e.size) (hq : q ∈ (e.adjAt 1).getD (p - 1) []) :
    parentMap ([1] :: e.adjAt 1) q = p := by
  have hlen : ([1] :: e.adjAt 1 : List (List Nat)).length = 1 + e.size := by
    simp [e.adjAt_length]; omega
  have hbq := PExpr.adjAt_bounds e 1 (p - 1) q hq
  obtain ⟨p', rfl⟩ : ∃ p', p = p' + 1 := ⟨p - 1, by omega⟩
  unfold parentMap
  apply listFold_mem
  · rw [hlen]
    exact List.mem_range.mpr (by omega)
  · show q ∈ ([1] :: e.adjAt 1).getD (p' + 1) []
    rw [List.getD_cons_succ]
    simpa using hq
  · intro i' hi' hne
    rcases i' with _ | i'
    · show q ∉ ([1] :: e.adjAt 1).getD 0 []
      rw [List.getD_cons_zero]
      simp only [List.mem_singleton]
      omega
    · show q ∉ ([1] :: e.adjAt 1).getD (i' + 1) []
      rw [List.getD_cons_succ]
      intro hmem
      have := PExpr.adjAt_unique e 1 i' p' q hmem (by simpa using hq)
      omega

/-- The root's only child has parent `0` under the source's parent map. -/
theorem parentMap_enc_top (e : PExpr) : parentMap ([1] :: e.adjAt 1) 1 = 0 := by
  have hlen : ([1] :: e.adjAt 1 : List (List Nat)).length = 1 + e.size := by
    simp [e.adjAt_length]; omega
  have := e.size_pos
  unfold parentMap
  apply listFold_mem
  · rw [hlen]
    exact List.mem_range.mpr (by omega)
  · show (1 : Nat) ∈ ([1] :: e.adjAt 1).getD 0 []
    rw [List.getD_cons_zero]
    simp
  · intro i' hi' hne
    rcases i' with _ | i'
    · exact absurd rfl hne
    · show (1 : Nat) ∉ ([1] :: e.adjAt 1).getD (i' + 1) []
      rw [List.getD_cons_succ]
      intro hmem
      have := PExpr.adjAt_bounds e 1 i' 1 hmem
      omega

/-- One matcher pass over a flattened expression emits exactly the
structural script. -/
theorem passScript_enc (e : PExpr) : (passScript (enc e)).1 = opsAt e 1 0 := by
  have hes := e.size_pos
  have hlen : (enc e).nodes.length = 1 + e.size := by
    simp [enc, e.labels_length]; omega
  have hseg : SegHyp ("root" :: e.labels) ([1] :: e.adjAt 1) e 1 := by
    have := segHyp_decomp e 1 ["root"] [] [[1]] [] rfl rfl
    rw [show (["root"] : List Label) ++ e.labels ++ [] = "root" :: e.labels
        from by simp,
      show ([[1]] : List (List Nat)) ++ e.adjAt 1 ++ [] = [1] :: e.adjAt 1
        from by simp] at this
    exact this
  have hpi : PiHyp (parentMap ([1] :: e.adjAt 1)) e 1 :=
    piHyp_intro _ e 1 (fun p q hp1 hp2 hq =>
      parentMap_enc e p q hp1 (by omega) hq)
  obtain ⟨sh', heq, hlt, hge⟩ := scanSeg ("root" :: e.labels) ([1] :: e.adjAt 1)
    (parentMap ([1] :: e.adjAt 1)) e 1 0 [] (fun _ => 0)
    (le_refl 1) hseg hpi
    (headOK_parent_ne ("root" :: e.labels) (parentMap ([1] :: e.adjAt 1)) e 1 0
      (parentMap_enc_top e)
      (show ("root" :: e.labels).getD 0 "" ≠ "+" from by
        rw [List.getD_cons_zero]; decide))
    (fun p h1 h2 => rfl)
  show ((List.range ("root" :: e.labels).length).foldl
    (matchAt ("root" :: e.labels) ([1] :: e.adjAt 1)
      (parentMap ([1] :: e.adjAt 1)))
    ([], fun _ => 0)).1 = _
  rw [show ("root" :: e.labels).length = 1 + e.size from by
      simpa [e.labels_length] using by omega,
    List.range_eq_range', range'_split 0 1 e.size,
    show List.range' 0 1 = [0] from rfl, List.foldl_append,
    List.foldl_cons, List.foldl_nil,
    matchAt_skip _ _ _ _ _ 0
      (by rw [List.getD_cons_zero]; decide)
      (by rw [List.getD_cons_zero]; decide),
    heq]
  simp

end Peano

namespace Peano

theorem phiR_le_5phiA (e : PExpr) :
    PExpr.phi true e ≤ 5 * PExpr.phi false e := by
  induction e with
  | num k => simp [PExpr.phi]
  | succ x ih => simp [PExpr.phi]; try omega
  | plus l r ihl ihr => simp [PExpr.phi]; try omega

theorem phiA_num (k : Fin 10) : PExpr.phi false (.num k) = (k : Nat) := rfl

theorem phiR_num (k : Fin 10) : PExpr.phi true (.num k) = 5 * (k : Nat) := rfl

theorem phiA_succ (x : PExpr) :
    PExpr.phi false (.succ x) = 2 + PExpr.phi false x := rfl

theorem phiR_succ (x : PExpr) :
    PExpr.phi true (.succ x) = 4 + PExpr.phi true x := rfl

theorem phiA_plus (x y : PExpr) :
    PExpr.phi false (.plus x y)
      = 1 + 5 * (PExpr.phi false x + PExpr.phi true y) := rfl

theorem phiR_plus (x y : PExpr) :
    PExpr.phi true (.plus x y)
      = 1 + 5 * (PExpr.phi false x + PExpr.phi true y) := rfl

/-- The measure facts: one pass never increases the left measure, decreases
it strictly off numerals, increases the right measure by at most one, and
decreases it strictly on additions. -/
theorem phi_step (e : PExpr) :
    PExpr.phi false (PExpr.step e) ≤ PExpr.phi false e
    ∧ PExpr.phi true (PExpr.step e) ≤ PExpr.phi true e + 1
    ∧ ((∃ k, e = PExpr.num k) ∨ PExpr.phi false (PExpr.step e) < PExpr.phi false e)
    ∧ ((∃ l r, e = PExpr.plus l r) →
        PExpr.phi true (PExpr.step e) < PExpr.phi true e) := by
  induction e using PExpr.step.induct with
  | case1 k =>
    refine ⟨le_of_eq rfl, ?_, Or.inl ⟨k, rfl⟩, fun ⟨l, r, h⟩ => by cases h⟩
    rw [show PExpr.step (.num k) = .num k from rfl]
    omega
  | case2 k =>
    have h1 : ((k : Nat) + 1) % 10 ≤ (k : Nat) + 1 := Nat.mod_le _ _
    have hst : PExpr.step (.succ (.num k)) = .num (PExpr.digitSucc k) := rfl
    have hds : ((PExpr.digitSucc k : Fin 10) : Nat) = ((k : Nat) + 1) % 10 := rfl
    refine ⟨?_, ?_, Or.inr ?_, fun ⟨l, r, h⟩ => by cases h⟩
    · rw [hst, phiA_num, phiA_succ, phiA_num, hds]; omega
    · rw [hst, phiR_num, phiR_succ, phiR_num, hds]; omega
    · rw [hst, phiA_num, phiA_succ, phiA_num, hds]; omega
  | case3 x ih =>
    obtain ⟨hA, hR, hAs, hRs⟩ := ih
    have hx : PExpr.phi false (PExpr.step (.succ x)) < PExpr.phi false (.succ x) := by
      rcases hAs with ⟨k, hk⟩ | h
      · cases hk
      · exact h
    have hst : PExpr.step (.succ (.succ x)) = .succ (PExpr.step (.succ x)) := rfl
    refine ⟨?_, ?_, Or.inr ?_, fun ⟨l, r, h⟩ => by cases h⟩
    · rw [hst, phiA_succ, phiA_succ]; omega
    · rw [hst, phiR_succ, phiR_succ]; omega
    · rw [hst, phiA_succ, phiA_succ]; omega
  | case4 l r ih =>
    obtain ⟨hA, hR, hAs, hRs⟩ := ih
    have hx : PExpr.phi false (PExpr.step (.plus l r))
        < PExpr.phi false (.plus l r) := by
      rcases hAs with ⟨k, hk⟩ | h
      · cases hk
      · exact h
    have hst : PExpr.step (.succ (.plus l r))
        = .succ (PExpr.step (.plus l r)) := rfl
    refine ⟨?_, ?_, Or.inr ?_, fun ⟨a, b, h⟩ => by cases h⟩
    · rw [hst, phiA_succ, phiA_succ]; omega
    · rw [hst, phiR_succ, phiR_succ]; omega
    · rw [hst, phiA_succ, phiA_succ]; omega
  | case5 l k hk ih =>
    obtain ⟨hA, hR, hAs, hRs⟩ := ih
    have h5 := phiR_le_5phiA (PExpr.step l)
    have hst : PExpr.step (.plus l (.num k)) = PExpr.step l := by
      show (if (k : Nat) = 0 then _ else _) = _
      rw [if_pos hk]
    refine ⟨?_, ?_, Or.inr ?_, fun _ => ?_⟩
    · rw [hst, phiA_plus, phiR_num, hk]; omega
    · rw [hst, phiR_plus, phiR_num, hk]; omega
    · rw [hst, phiA_plus, phiR_num, hk]; omega
    · rw [hst, phiR_plus, phiR_num, hk]; omega
  | case6 l k hk ih =>
    obtain ⟨hA, hR, hAs, hRs⟩ := ih
    have hst : PExpr.step (.plus l (.num k))
        = (PExpr.step l).plus (.succ (.num (PExpr.digitPred k))) := by
      show (if (k : Nat) = 0 then _ else _) = _
      rw [if_neg hk]
    have hdp : ((PExpr.digitPred k : Fin 10) : Nat) = (k : Nat) - 1 := rfl
    have hkk : 1 ≤ (k : Nat) := by omega
    refine ⟨?_, ?_, Or.inr ?_, fun _ => ?_⟩
    · rw [hst, phiA_plus, phiA_plus, phiR_succ, phiR_num, phiR_num, hdp]; omega
    · rw [hst, phiR_plus, phiR_plus, phiR_succ, phiR_num, phiR_num, hdp]; omega
    · rw [hst, phiA_plus, phiA_plus, phiR_succ, phiR_num, phiR_num, hdp]; omega
    · rw [hst, phiR_plus, phiR_plus, phiR_succ, phiR_num, phiR_num, hdp]; omega
  | case7 l r ihl ihr =>
    obtain ⟨hAl, hRl, hAsl, hRsl⟩ := ihl
    obtain ⟨hAr, hRr, hAsr, hRsr⟩ := ihr
    have hst : PExpr.step (.plus l (.succ r))
        = (PExpr.succ (PExpr.step l)).plus (PExpr.step r) := rfl
    refine ⟨?_, ?_, Or.inr ?_, fun _ => ?_⟩
    · rw [hst, phiA_plus, phiA_plus, phiA_succ, phiR_succ]; omega
    · rw [hst, phiR_plus, phiR_plus, phiA_succ, phiR_succ]; omega
    · rw [hst, phiA_plus, phiA_plus, phiA_succ, phiR_succ]; omega
    · rw [hst, phiR_plus, phiR_plus, phiA_succ, phiR_succ]; omega
  | case8 l a b ihl ihr =>
    obtain ⟨hAl, hRl, hAsl, hRsl⟩ := ihl
    obtain ⟨hAr, hRr, hAsr, hRsr⟩ := ihr
    have hr : PExpr.phi true (PExpr.step (.plus a b))
        < PExpr.phi true (.plus a b) := hRsr ⟨a, b, rfl⟩
    have hst : PExpr.step (.plus l (.plus a b))
        = (PExpr.step l).plus (PExpr.step (.plus a b)) := rfl
    refine ⟨?_, ?_, Or.inr ?_, fun _ => ?_⟩
    · rw [hst, phiA_plus, phiA_plus]; omega
    · rw [hst, phiR_plus, phiR_plus]; omega
    · rw [hst, phiA_plus, phiA_plus]; omega
    · rw [hst, phiR_plus, phiR_plus]; omega

/-- Strict decrease of the left measure off numerals. -/
theorem phiA_step_lt (e : PExpr) (h : ∀ k, e ≠ PExpr.num k) :
    PExpr.phiA (PExpr.step e) < PExpr.phiA e := by
  obtain ⟨_, _, hs, _⟩ := phi_step e
  rcases hs with ⟨k, hk⟩ | hlt
  · exact absurd hk (h k)
  · exact hlt

/-- An empty structural script happens only at a numeral. -/
theorem opsAt_nil (e : PExpr) : ∀ (o : Nat) (σ : Int),
    opsAt e o σ = [] → ∃ k, e = PExpr.num k := by
  induction e using PExpr.step.induct with
  | case1 k => exact fun o σ h => ⟨k, rfl⟩
  | case2 k => intro o σ h; cases h
  | case3 x ih =>
    intro o σ h
    obtain ⟨k, hk⟩ := ih (o + 1) σ h
    cases hk
  | case4 l r ih =>
    intro o σ h
    obtain ⟨k, hk⟩ := ih (o + 1) σ h
    cases hk
  | case5 l k hk ih =>
    intro o σ h
    rw [show opsAt (.plus l (.num k)) o σ
        = (if (k : Nat) = 0 then
            .del (↑o + σ) :: .del (((o + 1 + l.size : Nat) : Int) + (σ - 1)) ::
              opsAt l (o + 1) (σ - 1)
          else
            .ins (↑o + σ) 1 "succ" 1 ::
              .rep (((o + 1 + l.size : Nat) : Int) + (σ + 1))
                (toString ((k : Nat) - 1)) :: opsAt l (o + 1) σ) from rfl,
      if_pos hk] at h
    cases h
  | case6 l k hk ih =>
    intro o σ h
    rw [show opsAt (.plus l (.num k)) o σ
        = (if (k : Nat) = 0 then
            .del (↑o + σ) :: .del (((o + 1 + l.size : Nat) : Int) + (σ - 1)) ::
              opsAt l (o + 1) (σ - 1)
          else
            .ins (↑o + σ) 1 "succ" 1 ::
              .rep (((o + 1 + l.size : Nat) : Int) + (σ + 1))
                (toString ((k : Nat) - 1)) :: opsAt l (o + 1) σ) from rfl,
      if_neg hk] at h
    cases h
  | case7 l r ihl ihr => intro o σ h; cases h
  | case8 l a b ihl ihr =>
    intro o σ h
    rw [show opsAt (.plus l (.plus a b)) o σ
        = opsAt l (o + 1) σ
          ++ opsAt (.plus a b) (o + 1 + l.size) (σ + PExpr.stepDelta l)
        from rfl, List.append_eq_nil] at h
    obtain ⟨k, hk⟩ := ihr (o + 1 + l.size) (σ + PExpr.stepDelta l) h.2
    cases hk

/-- The script of one pass on a flattened expression applies cleanly and
yields the flattening of the stepped expression. -/
theorem pass_apply (e : PExpr) :
    applyScript (passScript (enc e)).1 (enc e) = .ok (enc (PExpr.step e)) := by
  rw [passScript_enc]
  exact mainD e [] 1 0 (by simp [holePos])

end Peano

namespace Peano

/-- Every tree of a trace from a flattened expression is itself a flattened
expression. -/
theorem simplifyFuel_mem (f : Nat) : ∀ (e : PExpr) (ts : List Tree),
    simplifyFuel f (enc e) = some ts → ∀ t ∈ ts, ∃ x : PExpr, t = enc x := by
  induction f with
  | zero =>
    intro e ts h t ht
    by_cases hnil : (passScript (enc e)).1 = []
    · rw [simplifyFuel_nil 0 _ hnil] at h
      obtain rfl : [enc e] = ts := by injection h
      obtain rfl : t = enc e := by simpa using ht
      exact ⟨e, rfl⟩
    · rw [simplifyFuel.eq_def, if_neg hnil] at h
      cases h
  | succ f ih =>
    intro e ts h t ht
    by_cases hnil : (passScript (enc e)).1 = []
    · rw [simplifyFuel_nil (f + 1) _ hnil] at h
      obtain rfl : [enc e] = ts := by injection h
      obtain rfl : t = enc e := by simpa using ht
      exact ⟨e, rfl⟩
    · rw [simplifyFuel_cons f _ _ hnil (pass_apply e)] at h
      cases hs : simplifyFuel f (enc (PExpr.step e)) with
      | none => rw [hs] at h; cases h
      | some ts' =>
        rw [hs] at h
        obtain rfl : enc e :: ts' = ts := by injection h
        rcases List.mem_cons.mp ht with rfl | ht'
        · exact ⟨e, rfl⟩
        · exact ih (PExpr.step e) ts' hs t ht'

/-- A nonempty pass script forces a non-numeral expression. -/
theorem pass_ne_nil_not_num (e : PExpr)
    (h : (passScript (enc e)).1 ≠ []) : ∀ k, e ≠ PExpr.num k := by
  intro k hk
  subst hk
  exact h (by rw [passScript_enc]; rfl)

/-- Termination with trace shape: enough fuel yields a trace of bounded
length from the input to a flattened numeral. -/
theorem simplifyFuel_enc (m : Nat) : ∀ (e : PExpr), PExpr.phiA e ≤ m →
    ∀ f, m ≤ f →
    ∃ ts : List Tree, simplifyFuel f (enc e) = some ts ∧
      ts.length ≤ PExpr.phiA e + 1 ∧
      ts.head? = some (enc e) ∧
      ∃ k : Fin 10, ts.getLast? = some (enc (.num k)) := by
  induction m with
  | zero =>
    intro e hm f hf
    by_cases hnil : (passScript (enc e)).1 = []
    · obtain ⟨k, rfl⟩ := opsAt_nil e 1 0 (by rw [← passScript_enc]; exact hnil)
      exact ⟨[enc (.num k)], simplifyFuel_nil f _ hnil, by simp, rfl, k, rfl⟩
    · exfalso
      have hne := pass_ne_nil_not_num e hnil
      have := phiA_step_lt e hne
      have : 1 ≤ PExpr.phiA e := by omega
      omega
  | succ m ih =>
    intro e hm f hf
    by_cases hnil : (passScript (enc e)).1 = []
    · obtain ⟨k, rfl⟩ := opsAt_nil e 1 0 (by rw [← passScript_enc]; exact hnil)
      exact ⟨[enc (.num k)], simplifyFuel_nil f _ hnil, by simp, rfl, k, rfl⟩
    · have hne := pass_ne_nil_not_num e hnil
      have hlt := phiA_step_lt e hne
      obtain ⟨f', rfl⟩ : ∃ f', f = f' + 1 := ⟨f - 1, by omega⟩
      obtain ⟨ts', h1, h2, h3, k, h4⟩ := ih (PExpr.step e) (by omega) f'
        (by omega)
      refine ⟨enc e :: ts', ?_, ?_, rfl, k, ?_⟩
      · rw [simplifyFuel_cons f' _ _ hnil (pass_apply e), h1]
        rfl
      · simp only [List.length_cons]
        omega
      · have hne' : ts' ≠ [] := by
          intro hnil'
          rw [hnil'] at h3
          cases h3
        cases ts' with
        | nil => exact absurd rfl hne'
        | cons b m2 => exact h4

end Peano

namespace Peano

/-- **C1**, counterexample.  On the well-formed input `root→+(0, 1)` the
driver appends three trees after the initial one, exceeding the claimed
bound `operator count + maximum numeral magnitude = 2`; therefore the
claimed step bound is false (termination and the final shape do hold). -/
theorem c1_counterexample :
    WfInput ⟨["root", "+", "0", "1"], [[1], [2, 3], [], []]⟩ ∧
    simplifyFuel 9 ⟨["root", "+", "0", "1"], [[1], [2, 3], [], []]⟩ =
      some [⟨["root", "+", "0", "1"], [[1], [2, 3], [], []]⟩,
            ⟨["root", "+", "0", "succ", "0"], [[1], [2, 3], [], [4], []]⟩,
            ⟨["root", "+", "succ", "0", "0"], [[1], [2, 4], [3], [], []]⟩,
            ⟨["root", "1"], [[1], []]⟩] ∧
    opCount ⟨["root", "+", "0", "1"], [[1], [2, 3], [], []]⟩
      + maxNumeral ⟨["root", "+", "0", "1"], [[1], [2, 3], [], []]⟩ = 2 ∧
    ¬([⟨["root", "+", "0", "1"], [[1], [2, 3], [], []]⟩,
       ⟨["root", "+", "0", "succ", "0"], [[1], [2, 3], [], [4], []]⟩,
       ⟨["root", "+", "succ", "0", "0"], [[1], [2, 4], [3], [], []]⟩,
       ⟨["root", "1"], [[1], []]⟩] : List Tree).length - 1 ≤ 2 := by
  have hwf : Tree.mk ["root", "+", "0", "1"] [[1], [2, 3], [], []]
      = enc (.plus (.num 0) (.num 1)) := by decide
  refine ⟨⟨.plus (.num 0) (.num 1), hwf⟩, ?_, by decide, by decide⟩
  have n1 : (passScript ⟨["root", "+", "0", "1"], [[1], [2, 3], [], []]⟩).1
      ≠ [] := by decide
  have e1 : applyScript
        (passScript ⟨["root", "+", "0", "1"], [[1], [2, 3], [], []]⟩).1
        ⟨["root", "+", "0", "1"], [[1], [2, 3], [], []]⟩ =
      .ok ⟨["root", "+", "0", "succ", "0"], [[1], [2, 3], [], [4], []]⟩ := by
    decide
  have n2 : (passScript ⟨["root", "+", "0", "succ", "0"],
      [[1], [2, 3], [], [4], []]⟩).1 ≠ [] := by decide
  have e2 : applyScript (passScript ⟨["root", "+", "0", "succ", "0"],
        [[1], [2, 3], [], [4], []]⟩).1
        ⟨["root", "+", "0", "succ", "0"], [[1], [2, 3], [], [4], []]⟩ =
      .ok ⟨["root", "+", "succ", "0", "0"], [[1], [2, 4], [3], [], []]⟩ := by
    decide
  have n3 : (passScript ⟨["root", "+", "succ", "0", "0"],
      [[1], [2, 4], [3], [], []]⟩).1 ≠ [] := by decide
  have e3 : applyScript (passScript ⟨["root", "+", "succ", "0", "0"],
        [[1], [2, 4], [3], [], []]⟩).1
        ⟨["root", "+", "succ", "0", "0"], [[1], [2, 4], [3], [], []]⟩ =
      .ok ⟨["root", "1"], [[1], []]⟩ := by decide
  have f3 : (passScript ⟨["root", "1"], [[1], []]⟩).1 = [] := by decide
  rw [simplifyFuel_cons 8 _ _ n1 e1, simplifyFuel_cons 7 _ _ n2 e2,
    simplifyFuel_cons 6 _ _ n3 e3, simplifyFuel_nil 6 _ f3]
  rfl

/-- **C1**, amended.  For every well-formed input tree the driver
terminates: fuel `phiA e` suffices, the returned trace starts at the input,
appends at most `phiA e` trees, and ends in a tree consisting of the root
wrapper over a single numeral leaf.  (The claimed bound
`operator count + max numeral` is refuted by `c1_counterexample`.) -/
theorem c1_theorem (t : Tree) (h : WfInput t) :
    ∃ e : PExpr, t = enc e ∧
    ∃ ts : List Tree,
      simplifyFuel (PExpr.phiA e) t = some ts ∧
      ts.length ≤ PExpr.phiA e + 1 ∧
      ts.head? = some t ∧
      ∃ k : Fin 10, ts.getLast? = some ⟨["root", toString (k : Nat)], [[1], []]⟩ := by
  obtain ⟨e, rfl⟩ := h
  obtain ⟨ts, h1, h2, h3, k, h4⟩ := simplifyFuel_enc (PExpr.phiA e) e
    (le_refl _) (PExpr.phiA e) (le_refl _)
  exact ⟨e, rfl, ts, h1, h2, h3, k, h4⟩

/-- **C1**, witness at the concrete input `root→+(2, 0)`. -/
theorem c1_theorem_witness :
    WfInput (enc (.plus (.num 2) (.num 0))) ∧
    ∃ e : PExpr, enc (.plus (.num 2) (.num 0)) = enc e ∧
    ∃ ts : List Tree,
      simplifyFuel (PExpr.phiA e) (enc (.plus (.num 2) (.num 0))) = some ts ∧
      ts.length ≤ PExpr.phiA e + 1 ∧
      ts.head? = some (enc (.plus (.num 2) (.num 0))) ∧
      ∃ k : Fin 10, ts.getLast? = some ⟨["root", toString (k : Nat)], [[1], []]⟩ :=
  ⟨⟨.plus (.num 2) (.num 0), rfl⟩,
   c1_theorem (enc (.plus (.num 2) (.num 0))) ⟨.plus (.num 2) (.num 0), rfl⟩⟩

/-- **C4**.  On every tree reachable in a driver run from a well-formed
input, the script emitted by the matcher pass applies without any error:
the application returns a tree (and in fact the flattening of the stepped
expression), so no `OutOfRange` or `InvalidSpan` failure occurs. -/
theorem c4_theorem (t0 : Tree) (h : WfInput t0) (f : Nat) (ts : List Tree)
    (hts : simplifyFuel f t0 = some ts) (t : Tree) (ht : t ∈ ts) :
    ∃ u : Tree, applyScript (passScript t).1 t = .ok u := by
  obtain ⟨e, rfl⟩ := h
  obtain ⟨x, rfl⟩ := simplifyFuel_mem f e ts hts t ht
  exact ⟨enc (PExpr.step x), pass_apply x⟩

/-- **C4**, witness at a concrete one-element trace. -/
theorem c4_theorem_witness :
    ∃ u : Tree, applyScript
      (passScript ⟨["root", "2"], [[1], []]⟩).1 ⟨["root", "2"], [[1], []]⟩
      = .ok u := by
  refine c4_theorem ⟨["root", "2"], [[1], []]⟩ ⟨.num 2, by decide⟩ 0
    [⟨["root", "2"], [[1], []]⟩] ?_ _ (by decide)
  have : (passScript ⟨["root", "2"], [[1], []]⟩).1 = [] := by decide
  rw [simplifyFuel_nil 0 _ this]

end Peano

namespace Peano

theorem aScan_plus0 (nodes : List Label) (adj : List (List Nat))
    (pf : Nat → Nat) (l2r : Nat → Option Int) (sh : Nat → Int) (i : Nat)
    (hp : nodes.getD i "" = "+")
    (h0 : nodes.getD ((adj.getD i []).getD 1 0) "" = "0")
    (hri : i < (adj.getD i []).getD 1 0) :
    alignScanAt nodes adj pf (l2r, sh) i
      = (Function.update (Function.update l2r i (some (-1)))
          ((adj.getD i []).getD 1 0) (some (-1)),
         addSuffix (addSuffix sh i (-1)) ((adj.getD i []).getD 1 0 + 1) (-1)) := by
  simp only [alignScanAt]
  rw [if_pos hp, if_pos h0]
  dsimp only
  rw [Function.update_noteq (fun h => by omega), Function.update_same]

theorem aScan_plusSucc (nodes : List Label) (adj : List (List Nat))
    (pf : Nat → Nat) (l2r : Nat → Option Int) (sh : Nat → Int) (i : Nat)
    (hp : nodes.getD i "" = "+")
    (hs : nodes.getD ((adj.getD i []).getD 1 0) "" = "succ")
    (hri : i < (adj.getD i []).getD 1 0)
    (hnone : l2r i = none) :
    alignScanAt nodes adj pf (l2r, sh) i
      = (Function.update (Function.update l2r ((adj.getD i []).getD 1 0)
            (some (-1))) i
          (some (i + addRange sh (i + 1) ((adj.getD i []).getD 1 0 + 1) 1 i)),
         addRange sh (i + 1) ((adj.getD i []).getD 1 0 + 1) 1) := by
  simp only [alignScanAt]
  rw [if_pos hp, if_neg (by rw [hs]; decide), if_pos hs]
  dsimp only
  rw [Function.update_noteq (fun h => by omega), hnone]

theorem aScan_plusNum (nodes : List Label) (adj : List (List Nat))
    (pf : Nat → Nat) (l2r : Nat → Option Int) (sh : Nat → Int) (i : Nat)
    (hp : nodes.getD i "" = "+")
    (h0 : nodes.getD ((adj.getD i []).getD 1 0) "" ≠ "0")
    (hs : nodes.getD ((adj.getD i []).getD 1 0) "" ≠ "succ")
    (hpl : nodes.getD ((adj.getD i []).getD 1 0) "" ≠ "+")
    (hnone : l2r i = none) :
    alignScanAt nodes adj pf (l2r, sh) i
      = (Function.update l2r i
          (some (i + addSuffix sh ((adj.getD i []).getD 1 0) 1 i)),
         addSuffix sh ((adj.getD i []).getD 1 0) 1) := by
  simp only [alignScanAt]
  rw [if_pos hp, if_neg h0, if_neg hs, if_pos hpl]
  dsimp only
  rw [hnone]

theorem aScan_skip_none (nodes : List Label) (adj : List (List Nat))
    (pf : Nat → Nat) (l2r : Nat → Option Int) (sh : Nat → Int) (i : Nat)
    (hp : nodes.getD i "" ≠ "+") (hs : nodes.getD i "" ≠ "succ")
    (hnone : l2r i = none) :
    alignScanAt nodes adj pf (l2r, sh) i
      = (Function.update l2r i (some (i + sh i)), sh) := by
  simp only [alignScanAt]
  rw [if_neg hp, if_neg (fun h => hs h.1)]
  dsimp only
  rw [hnone]

theorem aScan_skip_some (nodes : List Label) (adj : List (List Nat))
    (pf : Nat → Nat) (l2r : Nat → Option Int) (sh : Nat → Int) (i : Nat)
    (hp : nodes.getD i "" ≠ "+") (hs : nodes.getD i "" ≠ "succ")
    (v : Int) (hv : l2r i = some v) :
    alignScanAt nodes adj pf (l2r, sh) i = (l2r, sh) := by
  simp only [alignScanAt]
  rw [if_neg hp, if_neg (fun h => hs h.1)]
  dsimp only
  rw [hv]

theorem aScan_plusPlus (nodes : List Label) (adj : List (List Nat))
    (pf : Nat → Nat) (l2r : Nat → Option Int) (sh : Nat → Int) (i : Nat)
    (hp : nodes.getD i "" = "+")
    (hpl : nodes.getD ((adj.getD i []).getD 1 0) "" = "+")
    (hnone : l2r i = none) :
    alignScanAt nodes adj pf (l2r, sh) i
      = (Function.update l2r i (some (i + sh i)), sh) := by
  simp only [alignScanAt]
  rw [if_pos hp, if_neg (by rw [hpl]; decide), if_neg (by rw [hpl]; decide),
    if_neg (not_not_intro hpl)]
  dsimp only
  rw [hnone]

theorem aScan_succNum (nodes : List Label) (adj : List (List Nat))
    (pf : Nat → Nat) (l2r : Nat → Option Int) (sh : Nat → Int) (i : Nat)
    (hs : nodes.getD i "" = "succ")
    (hguard : nodes.getD (pf i) "" ≠ "+" ∨ pf i = i - 1)
    (d : Fin 10)
    (hd : nodes.getD ((adj.getD i []).getD 0 0) "" = toString (d : Nat)) :
    alignScanAt nodes adj pf (l2r, sh) i
      = (Function.update l2r i (some (-1)), addSuffix sh i (-1)) := by
  simp only [alignScanAt]
  rw [if_neg (show ¬nodes.getD i "" = "+" by rw [hs]; decide),
    if_pos ⟨hs, hguard⟩,
    if_pos (show nodes.getD ((adj.getD i []).getD 0 0) ""
        ∉ (["succ", "+"] : List Label)
      from fun hmem => digit_label_notin d (hd ▸ hmem))]
  dsimp only
  rw [Function.update_same]

theorem aScan_succChildOp (nodes : List Label) (adj : List (List Nat))
    (pf : Nat → Nat) (l2r : Nat → Option Int) (sh : Nat → Int) (i : Nat)
    (hs : nodes.getD i "" = "succ")
    (hc : nodes.getD ((adj.getD i []).getD 0 0) "" = "succ"
      ∨ nodes.getD ((adj.getD i []).getD 0 0) "" = "+")
    (hnone : l2r i = none) :
    alignScanAt nodes adj pf (l2r, sh) i
      = (Function.update l2r i (some (i + sh i)), sh) := by
  simp only [alignScanAt]
  rw [if_neg (show ¬nodes.getD i "" = "+" by rw [hs]; decide)]
  by_cases hguard : nodes.getD (pf i) "" ≠ "+" ∨ pf i = i - 1
  · rw [if_pos ⟨hs, hguard⟩,
      if_neg (not_not_intro (show nodes.getD ((adj.getD i []).getD 0 0) ""
        ∈ (["succ", "+"] : List Label) by
        rcases hc with h | h <;> rw [h] <;> decide))]
    dsimp only
    rw [hnone]
  · rw [if_neg (fun h => hguard h.2)]
    dsimp only
    rw [hnone]

theorem aScan_succGuardFail_some (nodes : List Label) (adj : List (List Nat))
    (pf : Nat → Nat) (l2r : Nat → Option Int) (sh : Nat → Int) (i : Nat)
    (hs : nodes.getD i "" = "succ")
    (hg : ¬(nodes.getD (pf i) "" ≠ "+" ∨ pf i = i - 1))
    (v : Int) (hv : l2r i = some v) :
    alignScanAt nodes adj pf (l2r, sh) i = (l2r, sh) := by
  simp only [alignScanAt]
  rw [if_neg (show ¬nodes.getD i "" = "+" by rw [hs]; decide),
    if_neg (fun h => hg h.2)]
  dsimp only
  rw [hv]

end Peano

namespace Peano

/-- The alignment scan over the segment of `e` at offset `o` records exactly
the structural values `alnVal` on the segment, leaves the map unchanged
elsewhere, and shifts positions past the segment by the size change. -/
theorem alnScanSeg (nodes : List Label) (adj : List (List Nat)) (pf : Nat → Nat)
    (e : PExpr) : ∀ (o : Nat) (σ : Int) (l2r : Nat → Option Int) (sh : Nat → Int),
    1 ≤ o → SegHyp nodes adj e o → PiHyp pf e o → HeadOK nodes pf e o →
    (∀ p, o ≤ p → p < o + e.size → sh p = σ) →
    (∀ p, o ≤ p → p < o + e.size → l2r p = none) →
    ∃ sh' : Nat → Int,
      (List.range' o e.size).foldl (alignScanAt nodes adj pf) (l2r, sh)
        = ((fun j => if o ≤ j ∧ j < o + e.size then some (alnVal e o σ j)
            else l2r j), sh')
      ∧ (∀ p, p < o → sh' p = sh p)
      ∧ (∀ p, o + e.size ≤ p → sh' p = sh p + PExpr.stepDelta e) := by
  induction e using PExpr.step.induct with
  | case1 k =>
    intro o σ l2r sh ho hseg hpi hhead hconst hnone
    obtain ⟨hn, ha⟩ := hseg
    refine ⟨sh, ?_, fun p h => rfl, fun p h => ?_⟩
    · rw [show (PExpr.num k).size = 1 from rfl,
        show List.range' o 1 = [o] from rfl, List.foldl_cons, List.foldl_nil,
        aScan_skip_none nodes adj pf l2r sh o
          (by rw [hn]; exact digit_ne_plus k)
          (by rw [hn]; exact digit_ne_succ k)
          (hnone o (le_refl o)
            (by rw [show (PExpr.num k).size = 1 from rfl]; omega)),
        hconst o (le_refl o)
          (by rw [show (PExpr.num k).size = 1 from rfl]; omega)]
      refine Prod.ext ?_ rfl
      funext j
      dsimp only
      by_cases hj : j = o
      · subst hj
        rw [if_pos ⟨le_refl j, by omega⟩, Function.update_same]
        rfl
      · rw [if_neg (by omega), Function.update_noteq hj]
    · rw [show PExpr.stepDelta (.num k) = 0 from rfl]
      omega
  | case2 k =>
    intro o σ l2r sh ho hseg hpi hhead hconst hnone
    obtain ⟨hn, hrow, hn2, hrow2⟩ := hseg
    have hsz : (PExpr.succ (PExpr.num k)).size = 2 := rfl
    have hchild : (adj.getD o []).getD 0 0 = o + 1 := by rw [hrow]; rfl
    refine ⟨addSuffix sh o (-1), ?_, fun p h => ?_, fun p h => ?_⟩
    · rw [hsz, show List.range' o 2 = [o, o + 1] from rfl, List.foldl_cons,
        aScan_succNum nodes adj pf l2r sh o hn hhead k
          (by rw [hchild]; exact hn2),
        List.foldl_cons, List.foldl_nil,
        aScan_skip_none nodes adj pf _ _ (o + 1)
          (by rw [hn2]; exact digit_ne_plus k)
          (by rw [hn2]; exact digit_ne_succ k)
          (by rw [Function.update_noteq (by omega)]
              exact hnone (o + 1) (by omega) (by rw [hsz]; omega))]
      refine Prod.ext ?_ rfl
      funext j
      dsimp only
      rcases Nat.lt_trichotomy j o with hj | hj | hj
      · rw [if_neg (by omega), Function.update_noteq (by omega),
          Function.update_noteq (by omega)]
      · subst hj
        rw [if_pos ⟨le_refl j, by omega⟩,
          Function.update_noteq (by omega), Function.update_same,
          show alnVal (.succ (.num k)) j σ j = -1 from by
            simp [alnVal]]
      · by_cases hj2 : j = o + 1
        · subst hj2
          rw [if_pos ⟨by omega, by omega⟩, Function.update_same,
            show alnVal (.succ (.num k)) o σ (o + 1) = (o : Int) + σ from by
              simp [alnVal],
            show addSuffix sh o (-1) (o + 1) = σ - 1 from by
              unfold addSuffix
              rw [if_pos (by omega), hconst (o + 1) (by omega) (by omega)]
              ring]
          congr 1
          push_cast
          ring
        · rw [if_neg (by omega), Function.update_noteq (by omega),
            Function.update_noteq (by omega)]
    · unfold addSuffix
      rw [if_neg (by omega)]
    · unfold addSuffix
      rw [if_pos (by omega),
        show PExpr.stepDelta (.succ (.num k)) = -1 from by
          simp [PExpr.stepDelta, PExpr.step, PExpr.size]]
  | case3 x ih =>
    intro o σ l2r sh ho hseg hpi hhead hconst hnone
    obtain ⟨hn, hrow, hseg2⟩ := hseg
    obtain ⟨hpf, hpi2⟩ := hpi
    have hn2 : nodes.getD (o + 1) "" = "succ" := hseg2.1
    have hsz : (PExpr.succ (.succ x)).size = (PExpr.succ x).size + 1 := rfl
    have hchild : (adj.getD o []).getD 0 0 = o + 1 := by rw [hrow]; rfl
    obtain ⟨sh', heq, hlt, hge⟩ := ih (o + 1) σ
      (Function.update l2r o (some (o + sh o))) sh (by omega) hseg2 hpi2
      (headOK_parent_ne nodes pf _ (o + 1) o hpf (by rw [hn]; decide))
      (fun p h1 h2 => hconst p (by omega) (by rw [hsz]; omega))
      (fun p h1 h2 => by
        rw [Function.update_noteq (by omega)]
        exact hnone p (by omega) (by rw [hsz]; omega))
    refine ⟨sh', ?_, fun p h => hlt p (by omega), fun p h => ?_⟩
    · rw [hsz, show (PExpr.succ x).size + 1 = 1 + (PExpr.succ x).size from by
        omega,
        range'_split o 1 (PExpr.succ x).size,
        show List.range' o 1 = [o] from rfl, List.foldl_append,
        List.foldl_cons, List.foldl_nil,
        aScan_succChildOp nodes adj pf l2r sh o hn
          (Or.inl (by rw [hchild]; exact hn2))
          (hnone o (le_refl o) (by rw [hsz]; omega)),
        heq]
      refine Prod.ext ?_ rfl
      funext j
      dsimp only
      rcases Nat.lt_trichotomy j o with hj | hj | hj
      · rw [if_neg (by omega), if_neg (by omega),
          Function.update_noteq (by omega)]
      · subst hj
        rw [if_neg (by omega), if_pos ⟨le_refl j, by omega⟩,
          Function.update_same,
          show alnVal (.succ (.succ x)) j σ j = (j : Int) + σ from by
            simp [alnVal],
          hconst j (le_refl j) (by rw [hsz]; omega)]
      · by_cases hj2 : j < o + 1 + (PExpr.succ x).size
        · rw [if_pos ⟨by omega, hj2⟩, if_pos ⟨by omega, by omega⟩,
            show alnVal (.succ (.succ x)) o σ j
              = alnVal (.succ x) (o + 1) σ j from by
              simp only [alnVal]
              rw [if_neg (by omega)]]
        · rw [if_neg (by omega), if_neg (by omega),
            Function.update_noteq (by omega)]
    · rw [hge p (by rw [hsz] at h; omega),
        show PExpr.stepDelta (.succ (.succ x)) = PExpr.stepDelta (.succ x)
          from by
          simp only [PExpr.stepDelta, PExpr.step, PExpr.size]
          push_cast
          ring]
  | case4 l r ih =>
    intro o σ l2r sh ho hseg hpi hhead hconst hnone
    obtain ⟨hn, hrow, hseg2⟩ := hseg
    obtain ⟨hpf, hpi2⟩ := hpi
    have hn2 : nodes.getD (o + 1) "" = "+" := hseg2.1
    have hsz : (PExpr.succ (.plus l r)).size = (PExpr.plus l r).size + 1 := rfl
    have hchild : (adj.getD o []).getD 0 0 = o + 1 := by rw [hrow]; rfl
    obtain ⟨sh', heq, hlt, hge⟩ := ih (o + 1) σ
      (Function.update l2r o (some (o + sh o))) sh (by omega) hseg2 hpi2
      trivial
      (fun p h1 h2 => hconst p (by omega) (by rw [hsz]; omega))
      (fun p h1 h2 => by
        rw [Function.update_noteq (by omega)]
        exact hnone p (by omega) (by rw [hsz]; omega))
    refine ⟨sh', ?_, fun p h => hlt p (by omega), fun p h => ?_⟩
    · rw [hsz, show (PExpr.plus l r).size + 1 = 1 + (PExpr.plus l r).size
        from by omega,
        range'_split o 1 (PExpr.plus l r).size,
        show List.range' o 1 = [o] from rfl, List.foldl_append,
        List.foldl_cons, List.foldl_nil,
        aScan_succChildOp nodes adj pf l2r sh o hn
          (Or.inr (by rw [hchild]; exact hn2))
          (hnone o (le_refl o) (by rw [hsz]; omega)),
        heq]
      refine Prod.ext ?_ rfl
      funext j
      dsimp only
      rcases Nat.lt_trichotomy j o with hj | hj | hj
      · rw [if_neg (by omega), if_neg (by omega),
          Function.update_noteq (by omega)]
      · subst hj
        rw [if_neg (by omega), if_pos ⟨le_refl j, by omega⟩,
          Function.update_same,
          show alnVal (.succ (.plus l r)) j σ j = (j : Int) + σ from by
            simp [alnVal],
          hconst j (le_refl j) (by rw [hsz]; omega)]
      · by_cases hj2 : j < o + 1 + (PExpr.plus l r).size
        · rw [if_pos ⟨by omega, hj2⟩, if_pos ⟨by omega, by omega⟩,
            show alnVal (.succ (.plus l r)) o σ j
              = alnVal (.plus l r) (o + 1) σ j from by
              simp only [alnVal]
              rw [if_neg (by omega)]]
        · rw [if_neg (by omega), if_neg (by omega),
            Function.update_noteq (by omega)]
    · rw [hge p (by rw [hsz] at h; omega),
        show PExpr.stepDelta (.succ (.plus l r))
            = PExpr.stepDelta (.plus l r) from by
          simp only [PExpr.stepDelta, PExpr.step, PExpr.size]
          push_cast
          ring]
  | case5 l k hk ih =>
    intro o σ l2r sh ho hseg hpi hhead hconst hnone
    obtain ⟨hn, hrow, hsegl, hsegr⟩ := hseg
    obtain ⟨hpfl, hpfr, hpil, hpir⟩ := hpi
    have hls := l.size_pos
    have hsz : (PExpr.plus l (.num k)).size = l.size + 2 := by
      simp [PExpr.size]
    have hright : (adj.getD o []).getD 1 0 = o + 1 + l.size := by rw [hrow]; rfl
    have hn2 : nodes.getD (o + 1 + l.size) "" = "0" := by
      have := hsegr.1
      rwa [show toString ((k : Fin 10) : Nat) = "0" from
        (digit_eq_zero_iff k).mpr hk] at this
    have hhead1 := aScan_plus0 nodes adj pf l2r sh o hn
      (by rw [hright]; exact hn2) (by rw [hright]; omega)
    rw [hright] at hhead1
    obtain ⟨sh3, heq3, hlt3, hge3⟩ := ih (o + 1) (σ - 1)
      (Function.update (Function.update l2r o (some (-1)))
        (o + 1 + l.size) (some (-1)))
      (addSuffix (addSuffix sh o (-1)) (o + 1 + l.size + 1) (-1))
      (by omega) hsegl hpil (headOK_left nodes pf l o hpfl)
      (fun p h1 h2 => by
        unfold addSuffix
        rw [if_neg (by omega), if_pos (by omega),
          hconst p (by omega) (by rw [hsz]; omega)]
        ring)
      (fun p h1 h2 => by
        rw [Function.update_noteq (by omega), Function.update_noteq (by omega)]
        exact hnone p (by omega) (by rw [hsz]; omega))
    refine ⟨sh3, ?_, fun p h => ?_, fun p h => ?_⟩
    · rw [hsz, show l.size + 2 = 1 + (l.size + 1) from by omega,
        range'_split o 1 (l.size + 1),
        show List.range' o 1 = [o] from rfl, List.foldl_append,
        List.foldl_cons, List.foldl_nil, hhead1,
        range'_split (o + 1) l.size 1, List.foldl_append, heq3,
        show List.range' (o + 1 + l.size) 1 = [o + 1 + l.size] from rfl,
        List.foldl_cons, List.foldl_nil,
        aScan_skip_some nodes adj pf
          (fun j => if o + 1 ≤ j ∧ j < o + 1 + l.size
            then some (alnVal l (o + 1) (σ - 1) j)
            else Function.update (Function.update l2r o (some (-1)))
              (o + 1 + l.size) (some (-1)) j)
          sh3 (o + 1 + l.size)
          (by rw [hn2]; decide) (by rw [hn2]; decide) (-1)
          (by dsimp only
              rw [if_neg (by omega), Function.update_same])]
      refine Prod.ext ?_ rfl
      funext j
      dsimp only
      rcases Nat.lt_trichotomy j o with hj | hj | hj
      · rw [if_neg (by omega), Function.update_noteq (by omega),
          Function.update_noteq (by omega), if_neg (by omega)]
      · subst hj
        rw [if_neg (by omega), Function.update_noteq (by omega),
          Function.update_same, if_pos ⟨le_refl j, by omega⟩,
          show alnVal (.plus l (.num k)) j σ j = -1 from by
            simp only [alnVal]
            rw [if_pos hk, if_pos trivial]]
      · by_cases hj2 : j < o + 1 + l.size
        · rw [if_pos ⟨by omega, hj2⟩, if_pos ⟨by omega, by omega⟩,
            show alnVal (.plus l (.num k)) o σ j
                = alnVal l (o + 1) (σ - 1) j from by
              simp only [alnVal]
              rw [if_pos hk, if_neg (by omega), if_neg (by omega)]]
        · by_cases hj3 : j = o + 1 + l.size
          · subst hj3
            rw [if_neg (by omega), Function.update_same,
              if_pos ⟨by omega, by omega⟩,
              show alnVal (.plus l (.num k)) o σ (o + 1 + l.size) = -1 from by
                simp only [alnVal]
                rw [if_pos hk, if_neg (by omega), if_pos trivial]]
          · rw [if_neg (by omega), Function.update_noteq hj3,
              Function.update_noteq (by omega), if_neg (by omega)]
    · rw [hlt3 p (by omega)]
      unfold addSuffix
      rw [if_neg (by omega), if_neg (by omega)]
    · rw [hge3 p (by rw [hsz] at h; omega)]
      unfold addSuffix
      rw [if_pos (by omega), if_pos (by omega)]
      rw [show PExpr.stepDelta (.plus l (.num k)) = PExpr.stepDelta l - 2 from by
        simp only [PExpr.stepDelta, PExpr.size,
          show PExpr.step (.plus l (.num k)) = PExpr.step l from by
            show (if (k : Nat) = 0 then _ else _) = _
            rw [if_pos hk]]
        push_cast
        ring]
      ring
  | case6 l k hk ih =>
    intro o σ l2r sh ho hseg hpi hhead hconst hnone
    obtain ⟨hn, hrow, hsegl, hsegr⟩ := hseg
    obtain ⟨hpfl, hpfr, hpil, hpir⟩ := hpi
    have hls := l.size_pos
    have hsz : (PExpr.plus l (.num k)).size = l.size + 2 := by
      simp [PExpr.size]
    have hright : (adj.getD o []).getD 1 0 = o + 1 + l.size := by rw [hrow]; rfl
    have hn2 : nodes.getD (o + 1 + l.size) "" = toString ((k : Fin 10) : Nat) :=
      hsegr.1
    have hhead1 := aScan_plusNum nodes adj pf l2r sh o hn
      (by rw [hright, hn2]; exact fun hx => hk ((digit_eq_zero_iff k).mp hx))
      (by rw [hright, hn2]; exact digit_ne_succ k)
      (by rw [hright, hn2]; exact digit_ne_plus k)
      (hnone o (le_refl o) (by rw [hsz]; omega))
    rw [hright] at hhead1
    obtain ⟨sh3, heq3, hlt3, hge3⟩ := ih (o + 1) σ
      (Function.update l2r o
        (some (↑o + addSuffix sh (o + 1 + l.size) 1 o)))
      (addSuffix sh (o + 1 + l.size) 1)
      (by omega) hsegl hpil (headOK_left nodes pf l o hpfl)
      (fun p h1 h2 => by
        unfold addSuffix
        rw [if_neg (by omega), hconst p (by omega) (by rw [hsz]; omega)])
      (fun p h1 h2 => by
        rw [Function.update_noteq (by omega)]
        exact hnone p (by omega) (by rw [hsz]; omega))
    have hval : sh3 (o + 1 + l.size) = σ + 1 + PExpr.stepDelta l := by
      rw [hge3 (o + 1 + l.size) (by omega)]
      unfold addSuffix
      rw [if_pos (by omega),
        hconst (o + 1 + l.size) (by omega) (by rw [hsz]; omega)]
    refine ⟨sh3, ?_, fun p h => ?_, fun p h => ?_⟩
    · rw [hsz, show l.size + 2 = 1 + (l.size + 1) from by omega,
        range'_split o 1 (l.size + 1),
        show List.range' o 1 = [o] from rfl, List.foldl_append,
        List.foldl_cons, List.foldl_nil, hhead1,
        range'_split (o + 1) l.size 1, List.foldl_append, heq3,
        show List.range' (o + 1 + l.size) 1 = [o + 1 + l.size] from rfl,
        List.foldl_cons, List.foldl_nil,
        aScan_skip_none nodes adj pf
          (fun j => if o + 1 ≤ j ∧ j < o + 1 + l.size
            then some (alnVal l (o + 1) σ j)
            else Function.update l2r o
              (some (↑o + addSuffix sh (o + 1 + l.size) 1 o)) j)
          sh3 (o + 1 + l.size)
          (by rw [hn2]; exact digit_ne_plus k)
          (by rw [hn2]; exact digit_ne_succ k)
          (by dsimp only
              rw [if_neg (by omega), Function.update_noteq (by omega)]
              exact hnone (o + 1 + l.size) (by omega) (by rw [hsz]; omega)),
        hval]
      refine Prod.ext ?_ rfl
      funext j
      dsimp only
      rcases Nat.lt_trichotomy j o with hj | hj | hj
      · rw [Function.update_noteq (by omega)]
        rw [if_neg (by omega), Function.update_noteq (by omega),
          if_neg (by omega)]
      · subst hj
        rw [Function.update_noteq (by omega)]
        rw [if_neg (by omega), Function.update_same,
          show addSuffix sh (j + 1 + l.size) 1 j = σ from by
            unfold addSuffix
            rw [if_neg (by omega), hconst j (le_refl j) (by rw [hsz]; omega)],
          if_pos ⟨le_refl j, by omega⟩,
          show alnVal (.plus l (.num k)) j σ j = ↑j + σ from by
            simp only [alnVal]
            rw [if_neg hk, if_pos trivial]]
      · by_cases hj2 : j < o + 1 + l.size
        · rw [Function.update_noteq (by omega)]
          rw [if_pos ⟨by omega, hj2⟩, if_pos ⟨by omega, by omega⟩,
            show alnVal (.plus l (.num k)) o σ j = alnVal l (o + 1) σ j from by
              simp only [alnVal]
              rw [if_neg hk, if_neg (by omega), if_neg (by omega)]]
        · by_cases hj3 : j = o + 1 + l.size
          · subst hj3
            rw [Function.update_same, if_pos ⟨by omega, by omega⟩,
              show alnVal (.plus l (.num k)) o σ (o + 1 + l.size)
                  = ((o + 1 + l.size : Nat) : Int)
                    + (σ + 1 + PExpr.stepDelta l) from by
                simp only [alnVal]
                rw [if_neg hk, if_neg (by omega), if_pos trivial]]
          · rw [Function.update_noteq hj3]
            rw [if_neg (by omega), Function.update_noteq (by omega),
              if_neg (by omega)]
    · rw [hlt3 p (by omega)]
      unfold addSuffix
      rw [if_neg (by omega)]
    · rw [hge3 p (by rw [hsz] at h; omega)]
      unfold addSuffix
      rw [if_pos (by omega)]
      rw [show PExpr.stepDelta (.plus l (.num k)) = PExpr.stepDelta l + 1 from by
        simp only [PExpr.stepDelta, PExpr.size,
          show PExpr.step (.plus l (.num k))
            = (PExpr.step l).plus (.succ (.num (PExpr.digitPred k))) from by
            show (if (k : Nat) = 0 then _ else _) = _
            rw [if_neg hk]]
        push_cast
        ring]
      ring
  | case7 l r ihl ihr =>
    intro o σ l2r sh ho hseg hpi hhead hconst hnone
    obtain ⟨hn, hrow, hsegl, hsegr⟩ := hseg
    obtain ⟨hpfl, hpfr, hpil, hpir⟩ := hpi
    have hls := l.size_pos
    have hrs := r.size_pos
    have hsz : (PExpr.plus l (.succ r)).size = l.size + r.size + 2 := by
      simp [PExpr.size]
      omega
    have hright : (adj.getD o []).getD 1 0 = o + 1 + l.size := by rw [hrow]; rfl
    obtain ⟨hn2, hrow2, hsegr2⟩ := hsegr
    obtain ⟨hpf2, hpir2⟩ := hpir
    have hhead1 := aScan_plusSucc nodes adj pf l2r sh o hn
      (by rw [hright]; exact hn2) (by rw [hright]; omega)
      (hnone o (le_refl o) (by rw [hsz]; omega))
    rw [hright] at hhead1
    obtain ⟨sh3, heq3, hlt3, hge3⟩ := ihl (o + 1) (σ + 1)
      (Function.update (Function.update l2r (o + 1 + l.size) (some (-1))) o
        (some (↑o + addRange sh (o + 1) (o + 1 + l.size + 1) 1 o)))
      (addRange sh (o + 1) (o + 1 + l.size + 1) 1)
      (by omega) hsegl hpil (headOK_left nodes pf l o hpfl)
      (fun p h1 h2 => by
        unfold addRange
        rw [if_pos (by omega), hconst p (by omega) (by rw [hsz]; omega)])
      (fun p h1 h2 => by
        rw [Function.update_noteq (by omega), Function.update_noteq (by omega)]
        exact hnone p (by omega) (by rw [hsz]; omega))
    obtain ⟨sh4, heq4, hlt4, hge4⟩ := ihr (o + 1 + l.size + 1)
      (σ + PExpr.stepDelta l)
      (fun j => if o + 1 ≤ j ∧ j < o + 1 + l.size
        then some (alnVal l (o + 1) (σ + 1) j)
        else Function.update
          (Function.update l2r (o + 1 + l.size) (some (-1))) o
          (some (↑o + addRange sh (o + 1) (o + 1 + l.size + 1) 1 o)) j)
      sh3
      (by omega) hsegr2 hpir2
      (headOK_parent_ne nodes pf r (o + 1 + l.size + 1) (o + 1 + l.size)
        hpf2 (by rw [hn2]; decide))
      (fun p h1 h2 => by
        rw [hge3 p (by omega)]
        unfold addRange
        rw [if_neg (by omega), hconst p (by omega) (by rw [hsz]; omega)])
      (fun p h1 h2 => by
        dsimp only
        rw [if_neg (by omega), Function.update_noteq (by omega),
          Function.update_noteq (by omega)]
        exact hnone p (by omega) (by rw [hsz]; omega))
    refine ⟨sh4, ?_, fun p h => ?_, fun p h => ?_⟩
    · rw [hsz, show l.size + r.size + 2 = 1 + (l.size + (1 + r.size)) from by
        omega,
        range'_split o 1 (l.size + (1 + r.size)),
        show List.range' o 1 = [o] from rfl, List.foldl_append,
        List.foldl_cons, List.foldl_nil, hhead1,
        range'_split (o + 1) l.size (1 + r.size), List.foldl_append, heq3,
        range'_split (o + 1 + l.size) 1 r.size,
        show List.range' (o + 1 + l.size) 1 = [o + 1 + l.size] from rfl,
        List.foldl_append, List.foldl_cons, List.foldl_nil,
        aScan_succGuardFail_some nodes adj pf
          (fun j => if o + 1 ≤ j ∧ j < o + 1 + l.size
            then some (alnVal l (o + 1) (σ + 1) j)
            else Function.update
              (Function.update l2r (o + 1 + l.size) (some (-1))) o
              (some (↑o + addRange sh (o + 1) (o + 1 + l.size + 1) 1 o)) j)
          sh3 (o + 1 + l.size) hn2
          (by push_neg
              exact ⟨by rw [hpfr, hn], by omega⟩)
          (-1)
          (by dsimp only
              rw [if_neg (by omega), Function.update_noteq (by omega),
                Function.update_same]),
        heq4]
      refine Prod.ext ?_ rfl
      funext j
      dsimp only
      rcases Nat.lt_trichotomy j o with hj | hj | hj
      · rw [if_neg (by omega), if_neg (by omega),
          Function.update_noteq (by omega), Function.update_noteq (by omega),
          if_neg (by omega)]
      · subst hj
        rw [if_neg (by omega), if_neg (by omega), Function.update_same,
          show addRange sh (j + 1) (j + 1 + l.size + 1) 1 j = σ from by
            unfold addRange
            rw [if_neg (by omega), hconst j (le_refl j) (by rw [hsz]; omega)],
          if_pos ⟨le_refl j, by omega⟩,
          show alnVal (.plus l (.succ r)) j σ j = ↑j + σ from by
            simp only [alnVal]
            rw [if_pos trivial]]
      · by_cases hj2 : j < o + 1 + l.size
        · rw [if_neg (by omega), if_pos ⟨by omega, hj2⟩,
            if_pos ⟨by omega, by omega⟩,
            show alnVal (.plus l (.succ r)) o σ j
                = alnVal l (o + 1) (σ + 1) j from by
              simp only [alnVal]
              rw [if_neg (by omega), if_neg (by omega), if_pos hj2]]
        · by_cases hj3 : j = o + 1 + l.size
          · subst hj3
            rw [if_neg (by omega), if_neg (by omega),
              Function.update_noteq (by omega), Function.update_same,
              if_pos ⟨by omega, by omega⟩,
              show alnVal (.plus l (.succ r)) o σ (o + 1 + l.size) = -1 from by
                simp only [alnVal]
                rw [if_neg (by omega), if_pos trivial]]
          · by_cases hj4 : j < o + 1 + l.size + 1 + r.size
            · rw [if_pos ⟨by omega, hj4⟩, if_pos ⟨by omega, by omega⟩,
                show alnVal (.plus l (.succ r)) o σ j
                    = alnVal r (o + 1 + l.size + 1)
                      (σ + PExpr.stepDelta l) j from by
                  simp only [alnVal]
                  rw [if_neg (by omega), if_neg hj3, if_neg hj2,
                    show o + 2 + l.size = o + 1 + l.size + 1 from by omega]]
            · rw [if_neg (by omega), if_neg (by omega),
                Function.update_noteq (by omega),
                Function.update_noteq hj3, if_neg (by omega)]
    · rw [hlt4 p (by omega), hlt3 p (by omega)]
      unfold addRange
      rw [if_neg (by omega)]
    · rw [hge4 p (by rw [hsz] at h; omega), hge3 p (by rw [hsz] at h; omega)]
      unfold addRange
      rw [if_neg (by rw [hsz] at h; omega)]
      rw [show PExpr.stepDelta (.plus l (.succ r))
          = PExpr.stepDelta l + PExpr.stepDelta r from by
        simp only [PExpr.stepDelta, PExpr.size,
          show PExpr.step (.plus l (.succ r))
            = (PExpr.succ (PExpr.step l)).plus (PExpr.step r) from rfl]
        push_cast
        ring]
      ring
  | case8 l a b ihl ihr =>
    intro o σ l2r sh ho hseg hpi hhead hconst hnone
    obtain ⟨hn, hrow, hsegl, hsegr⟩ := hseg
    obtain ⟨hpfl, hpfr, hpil, hpir⟩ := hpi
    have hls := l.size_pos
    have hsab : 0 < (PExpr.plus a b).size := (PExpr.plus a b).size_pos
    have hsz : (PExpr.plus l (.plus a b)).size
        = l.size + (PExpr.plus a b).size + 1 := rfl
    have hright : (adj.getD o []).getD 1 0 = o + 1 + l.size := by rw [hrow]; rfl
    have hn2 : nodes.getD (o + 1 + l.size) "" = "+" := hsegr.1
    have hhead1 := aScan_plusPlus nodes adj pf l2r sh o hn
      (by rw [hright]; exact hn2)
      (hnone o (le_refl o) (by rw [hsz]; omega))
    obtain ⟨sh3, heq3, hlt3, hge3⟩ := ihl (o + 1) σ
      (Function.update l2r o (some (↑o + sh o))) sh
      (by omega) hsegl hpil (headOK_left nodes pf l o hpfl)
      (fun p h1 h2 => hconst p (by omega) (by rw [hsz]; omega))
      (fun p h1 h2 => by
        rw [Function.update_noteq (by omega)]
        exact hnone p (by omega) (by rw [hsz]; omega))
    obtain ⟨sh4, heq4, hlt4, hge4⟩ := ihr (o + 1 + l.size)
      (σ + PExpr.stepDelta l)
      (fun j => if o + 1 ≤ j ∧ j < o + 1 + l.size
        then some (alnVal l (o + 1) σ j)
        else Function.update l2r o (some (↑o + sh o)) j)
      sh3
      (by omega) hsegr hpir trivial
      (fun p h1 h2 => by
        rw [hge3 p (by omega), hconst p (by omega) (by rw [hsz]; omega)])
      (fun p h1 h2 => by
        dsimp only
        rw [if_neg (by omega), Function.update_noteq (by omega)]
        exact hnone p (by omega) (by rw [hsz]; omega))
    refine ⟨sh4, ?_, fun p h => ?_, fun p h => ?_⟩
    · rw [hsz, show l.size + (PExpr.plus a b).size + 1
          = 1 + (l.size + (PExpr.plus a b).size) from by omega,
        range'_split o 1 (l.size + (PExpr.plus a b).size),
        show List.range' o 1 = [o] from rfl, List.foldl_append,
        List.foldl_cons, List.foldl_nil, hhead1,
        range'_split (o + 1) l.size (PExpr.plus a b).size, List.foldl_append,
        heq3, heq4]
      refine Prod.ext ?_ rfl
      funext j
      dsimp only
      rcases Nat.lt_trichotomy j o with hj | hj | hj
      · rw [if_neg (by omega), if_neg (by omega),
          Function.update_noteq (by omega), if_neg (by omega)]
      · subst hj
        rw [if_neg (by omega), if_neg (by omega), Function.update_same,
          hconst j (le_refl j) (by rw [hsz]; omega),
          if_pos ⟨le_refl j, by omega⟩,
          show alnVal (.plus l (.plus a b)) j σ j = ↑j + σ from by
            simp only [alnVal]
            rw [if_pos trivial]]
      · by_cases hj2 : j < o + 1 + l.size
        · rw [if_neg (by omega), if_pos ⟨by omega, hj2⟩,
            if_pos ⟨by omega, by omega⟩,
            show alnVal (.plus l (.plus a b)) o σ j
                = alnVal l (o + 1) σ j from by
              simp only [alnVal]
              rw [if_neg (by omega), if_pos hj2]]
        · by_cases hj4 : j < o + 1 + l.size + (PExpr.plus a b).size
          · rw [if_pos ⟨by omega, hj4⟩, if_pos ⟨by omega, by omega⟩,
              show alnVal (.plus l (.plus a b)) o σ j
                  = alnVal (.plus a b) (o + 1 + l.size)
                    (σ + PExpr.stepDelta l) j from by
                simp only [alnVal]
                rw [if_neg (by omega), if_neg hj2]]
          · rw [if_neg (by omega), if_neg (by omega),
              Function.update_noteq (by omega), if_neg (by omega)]
    · rw [hlt4 p (by omega), hlt3 p (by omega)]
    · rw [hge4 p (by rw [hsz] at h; omega), hge3 p (by rw [hsz] at h; omega)]
      rw [show PExpr.stepDelta (.plus l (.plus a b))
          = PExpr.stepDelta l + PExpr.stepDelta (.plus a b) from by
        simp only [PExpr.stepDelta, PExpr.size,
          show PExpr.step (.plus l (.plus a b))
            = (PExpr.step l).plus (PExpr.step (.plus a b)) from rfl]
        push_cast
        ring]
      ring

end Peano

namespace Peano

theorem keepNonneg_nil : keepNonneg [] = [] := rfl

theorem keepNonneg_append (xs ys : List Int) :
    keepNonneg (xs ++ ys) = keepNonneg xs ++ keepNonneg ys := by
  unfold keepNonneg
  rw [List.filter_append]

theorem keepNonneg_cons_neg (x : Int) (xs : List Int) (h : x < 0) :
    keepNonneg (x :: xs) = keepNonneg xs := by
  unfold keepNonneg
  rw [List.filter_cons_of_neg]
  simp only [decide_eq_true_eq]
  omega

theorem keepNonneg_cons_nonneg (x : Int) (xs : List Int) (h : 0 ≤ x) :
    keepNonneg (x :: xs) = x :: keepNonneg xs := by
  unfold keepNonneg
  rw [List.filter_cons_of_pos]
  simp only [decide_eq_true_eq]
  omega

theorem keepNonneg_all_neg : ∀ (xs : List Int), (∀ v ∈ xs, v < 0) →
    keepNonneg xs = []
  | [], _ => rfl
  | x :: xs, h => by
    rw [keepNonneg_cons_neg x xs (h x (List.mem_cons_self x xs)),
      keepNonneg_all_neg xs (fun v hv => h v (List.mem_cons_of_mem x hv))]

theorem keepNonneg_all_nonneg : ∀ (xs : List Int), (∀ v ∈ xs, 0 ≤ v) →
    keepNonneg xs = xs
  | [], _ => rfl
  | x :: xs, h => by
    rw [keepNonneg_cons_nonneg x xs (h x (List.mem_cons_self x xs)),
      keepNonneg_all_nonneg xs (fun v hv => h v (List.mem_cons_of_mem x hv))]

theorem castRange_shift (c m : Nat) :
    (List.range m).map (fun t : Nat => ((c : Int) + (t : Int)))
      = (List.range' c m).map (fun i : Nat => (i : Int)) := by
  rw [List.range'_eq_map_range, List.map_map]
  refine List.map_congr_left (fun a _ => ?_)
  show (c : Int) + (a : Int) = ((c + a : Nat) : Int)
  push_cast
  ring

theorem castRange_append (c m : Nat) (h : c ≤ m) :
    (List.range c).map (fun i : Nat => (i : Int))
      ++ (List.range' c (m - c)).map (fun i : Nat => (i : Int))
      = (List.range m).map (fun i : Nat => (i : Int)) := by
  rw [← List.map_append, List.range_eq_range',
    show List.range' c (m - c) = List.range' (0 + c) (m - c) from by
      rw [Nat.zero_add],
    ← range'_split 0 c (m - c),
    show c + (m - c) = m from by omega, ← List.range_eq_range']

/-- Invariant of the merge pass of `peano_alignment` along a prefix of the
original indices, for a strictly monotone partial value table. -/
theorem mergeInv (L : Nat → Option Int) (V : Nat → Int) (n : Nat)
    (hL : ∀ i, i < n → L i = some (V i))
    (hlow : ∀ i, i < n → V i = -1 ∨ 0 ≤ V i)
    (hmono : ∀ i1 i2, i1 < i2 → i2 < n → V i1 ≠ -1 → V i2 ≠ -1 →
      V i1 < V i2) :
    ∀ k, k ≤ n →
    ∃ (P : List (Int × Int)) (c : Nat),
      (List.range k).foldl (alignMergeAt L) ([], 0) = (P, (c : Int))
      ∧ keepNonneg (P.map Prod.fst)
          = (List.range k).map (fun i : Nat => (i : Int))
      ∧ keepNonneg (P.map Prod.snd)
          = (List.range c).map (fun i : Nat => (i : Int))
      ∧ (∀ p, p ∈ P → 0 ≤ p.1 ∨ 0 ≤ p.2)
      ∧ (∀ j, j < k → V j < (c : Int))
      ∧ (c = 0 ∨ ∃ j, j < k ∧ V j = (c : Int) - 1) := by
  intro k
  induction k with
  | zero =>
    intro hk
    exact ⟨[], 0, rfl, rfl, rfl, fun p hp => absurd hp (List.not_mem_nil p),
      fun j hj => absurd hj (Nat.not_lt_zero j), Or.inl rfl⟩
  | succ k ih =>
    intro hk
    obtain ⟨P, c, hfold, hfst, hsnd, hno, hbound, hlast⟩ := ih (by omega)
    rw [List.range_succ, List.foldl_append, hfold, List.foldl_cons,
      List.foldl_nil]
    have hv := hL k (by omega)
    rcases hlow k (by omega) with hneg | hpos
    · have hstep : alignMergeAt L (P, (c : Int)) k
          = (P ++ [((k : Int), -1)], (c : Int)) := by
        unfold alignMergeAt
        rw [hv]
        simp only [Option.getD_some, hneg]
        rw [if_pos (by norm_num)]
      refine ⟨P ++ [((k : Int), -1)], c, hstep, ?_, ?_, ?_, ?_, ?_⟩
      · rw [List.map_append, keepNonneg_append, hfst, List.map_append]
        rw [show List.map Prod.fst [((k : Int), (-1 : Int))] = [(k : Int)]
          from rfl]
        rw [keepNonneg_all_nonneg [(k : Int)]
          (by intro v hv2; simp at hv2; omega)]
        rfl
      · rw [List.map_append, keepNonneg_append, hsnd,
          show List.map Prod.snd [((k : Int), (-1 : Int))] = [(-1 : Int)]
            from rfl,
          keepNonneg_all_neg [(-1 : Int)] (by intro v hv2; simp at hv2; omega),
          List.append_nil]
      · intro p hp
        rcases List.mem_append.mp hp with hp | hp
        · exact hno p hp
        · obtain rfl : p = ((k : Int), -1) := by simpa using hp
          left
          positivity
      · intro j hj
        by_cases hjk : j = k
        · subst hjk
          omega
        · exact hbound j (by omega)
      · rcases hlast with hc | ⟨j, hj, hvj⟩
        · exact Or.inl hc
        · exact Or.inr ⟨j, by omega, hvj⟩
    · have hVk : V k = ((V k).toNat : Int) := (Int.toNat_of_nonneg hpos).symm
      have hcv : (c : Int) ≤ V k := by
        rcases hlast with rfl | ⟨j, hj, hvj⟩
        · simpa using hpos
        · by_cases hc0 : c = 0
          · subst hc0
            simpa using hpos
          · have hj1 : V j ≠ -1 := by omega
            have := hmono j k hj (by omega) hj1 (by omega)
            omega
      have htn : (V k - (c : Int)).toNat = (V k).toNat - c := by omega
      have hstep : alignMergeAt L (P, (c : Int)) k
          = (P ++ (List.range ((V k).toNat - c)).map
                (fun t : Nat => ((-1 : Int), (c : Int) + (t : Int)))
              ++ [((k : Int), V k)], V k + 1) := by
        unfold alignMergeAt
        rw [hv]
        simp only [Option.getD_some]
        rw [if_neg (by omega), htn, max_eq_right hcv]
      refine ⟨P ++ (List.range ((V k).toNat - c)).map
          (fun t : Nat => ((-1 : Int), (c : Int) + (t : Int)))
          ++ [((k : Int), V k)], (V k).toNat + 1, ?_, ?_, ?_, ?_, ?_, ?_⟩
      · rw [hstep]
        rw [show (((V k).toNat + 1 : Nat) : Int) = V k + 1 from by omega]
      · rw [List.map_append, List.map_append, keepNonneg_append,
          keepNonneg_append, hfst, List.map_map]
        rw [keepNonneg_all_neg ((List.range ((V k).toNat - c)).map _)
          (by
            intro v hv2
            simp only [List.mem_map, Function.comp] at hv2
            obtain ⟨t, _, rfl⟩ := hv2
            norm_num),
          List.append_nil,
          show List.map Prod.fst [((k : Int), V k)] = [(k : Int)] from rfl,
          keepNonneg_all_nonneg [(k : Int)]
            (by intro v hv2; simp at hv2; omega),
          List.map_append]
        rfl
      · rw [List.map_append, List.map_append, keepNonneg_append,
          keepNonneg_append, hsnd, List.map_map]
        rw [show (Prod.snd ∘ fun t : Nat => ((-1 : Int), (c : Int) + (t : Int)))
            = fun t : Nat => ((c : Int) + (t : Int)) from rfl]
        rw [keepNonneg_all_nonneg ((List.range ((V k).toNat - c)).map
            (fun t : Nat => ((c : Int) + (t : Int))))
          (by
            intro v hv2
            simp only [List.mem_map] at hv2
            obtain ⟨t, _, rfl⟩ := hv2
            positivity),
          show List.map Prod.snd [((k : Int), V k)] = [V k] from rfl,
          keepNonneg_all_nonneg [V k] (by intro v hv2; simp at hv2; omega),
          castRange_shift c ((V k).toNat - c)]
        rw [List.range_succ, List.map_append,
          castRange_append c ((V k).toNat) (by omega)]
        rw [show ([(V k)] : List Int) = [(((V k).toNat : Nat) : Int)] from by
          rw [← hVk]]
        rfl
      · intro p hp
        rcases List.mem_append.mp hp with hp | hp
        · rcases List.mem_append.mp hp with hp | hp
          · exact hno p hp
          · simp only [List.mem_map] at hp
            obtain ⟨t, _, rfl⟩ := hp
            right
            positivity
        · obtain rfl : p = ((k : Int), V k) := by simpa using hp
          left
          positivity
      · intro j hj
        by_cases hjk : j = k
        · subst hjk
          omega
        · have := hbound j (by omega)
          omega
      · exact Or.inr ⟨k, by omega, by omega⟩

/-- Final state of the merge pass: the nonnegative first coordinates are
exactly the original indices in order, the nonnegative second coordinates
exactly the successor indices in order, and no pair is doubly `-1`. -/
theorem mergeRun (L : Nat → Option Int) (V : Nat → Int) (n m : Nat)
    (hL : ∀ i, i < n → L i = some (V i))
    (hlow : ∀ i, i < n → V i = -1 ∨ 0 ≤ V i)
    (hup : ∀ i, i < n → V i < (m : Int))
    (hmono : ∀ i1 i2, i1 < i2 → i2 < n → V i1 ≠ -1 → V i2 ≠ -1 →
      V i1 < V i2)
    (hmax : ∃ im, im < n ∧ V im = (m : Int) - 1) (hm : 1 ≤ m) :
    keepNonneg ((((List.range n).foldl (alignMergeAt L) ([], 0)).1).map
        Prod.fst)
      = (List.range n).map (fun i : Nat => (i : Int))
    ∧ keepNonneg ((((List.range n).foldl (alignMergeAt L) ([], 0)).1).map
        Prod.snd)
      = (List.range m).map (fun i : Nat => (i : Int))
    ∧ ∀ p ∈ ((List.range n).foldl (alignMergeAt L) ([], 0)).1,
        0 ≤ p.1 ∨ 0 ≤ p.2 := by
  obtain ⟨P, c, hfold, hfst, hsnd, hno, hbound, hlast⟩ :=
    mergeInv L V n hL hlow hmono n (le_refl n)
  have hcm : c = m := by
    obtain ⟨im, him, hvim⟩ := hmax
    have h1 := hbound im him
    rcases hlast with rfl | ⟨j, hj, hvj⟩
    · omega
    · have h2 := hup j hj
      omega
  subst hcm
  rw [hfold]
  exact ⟨hfst, hsnd, hno⟩

end Peano

namespace Peano

/-- Unfolding lemma: a driver iteration whose script fails to apply. -/
theorem simplifyFuel_err (f : Nat) (t : Tree) (err : Err)
    (h1 : (passScript t).1 ≠ [])
    (h2 : applyScript (passScript t).1 t = .error err) :
    simplifyFuel (f + 1) t = none := by
  rw [simplifyFuel.eq_def, if_neg h1, h2]

/-- The trace returned by the driver starts at its input. -/
theorem simplifyFuel_head (f : Nat) (t : Tree) (ts : List Tree)
    (h : simplifyFuel f t = some ts) : ts.head? = some t := by
  by_cases hnil : (passScript t).1 = []
  · rw [simplifyFuel_nil f t hnil] at h
    obtain rfl : [t] = ts := by injection h
    rfl
  · cases f with
    | zero =>
      rw [simplifyFuel.eq_def, if_neg hnil] at h
      cases h
    | succ f =>
      cases happ : applyScript (passScript t).1 t with
      | error err =>
        rw [simplifyFuel_err f t err hnil happ] at h
        cases h
      | ok t2 =>
        rw [simplifyFuel_cons f t t2 hnil happ] at h
        cases hs : simplifyFuel f t2 with
        | none => rw [hs] at h; cases h
        | some ts2 =>
          rw [hs] at h
          obtain rfl : t :: ts2 = ts := by injection h
          rfl

/-- Consecutive trace elements are a flattened expression and the flattening
of its one-pass step. -/
theorem simplifyFuel_consec (f : Nat) : ∀ (e : PExpr) (ts : List Tree),
    simplifyFuel f (enc e) = some ts → ∀ (i : Nat) (a b : Tree),
    ts[i]? = some a → ts[i + 1]? = some b →
    ∃ y : PExpr, a = enc y ∧ b = enc (PExpr.step y) := by
  induction f with
  | zero =>
    intro e ts h i a b ha hb
    by_cases hnil : (passScript (enc e)).1 = []
    · rw [simplifyFuel_nil 0 _ hnil] at h
      obtain rfl : [enc e] = ts := by injection h
      rcases i with _ | i <;> simp at hb
    · rw [simplifyFuel.eq_def, if_neg hnil] at h
      cases h
  | succ f ih =>
    intro e ts h i a b ha hb
    by_cases hnil : (passScript (enc e)).1 = []
    · rw [simplifyFuel_nil (f + 1) _ hnil] at h
      obtain rfl : [enc e] = ts := by injection h
      rcases i with _ | i <;> simp at hb
    · rw [simplifyFuel_cons f _ _ hnil (pass_apply e)] at h
      cases hs : simplifyFuel f (enc (PExpr.step e)) with
      | none => rw [hs] at h; cases h
      | some ts' =>
        rw [hs] at h
        obtain rfl : enc e :: ts' = ts := by injection h
        rcases i with _ | i
        · refine ⟨e, ?_, ?_⟩
          · have h0 : enc e = a := by simpa using ha
            exact h0.symm
          · have hhead := simplifyFuel_head f (enc (PExpr.step e)) ts' hs
            cases ts' with
            | nil => simp at hb
            | cons u us =>
              have hu : u = enc (PExpr.step e) := by simpa using hhead
              have hbu : u = b := by simpa using hb
              rw [← hbu, hu]
        · rw [List.getElem?_cons_succ] at ha hb
          exact ih (PExpr.step e) ts' hs i a b ha hb

end Peano

namespace Peano

/-- The scan phase of `peano_alignment` on a flattened expression: the root
maps to position `0` and each segment node to its structural value. -/
theorem alignL2r_enc (e : PExpr) :
    ((List.range (enc e).nodes.length).foldl
      (alignScanAt (enc e).nodes (enc e).adj (parentMap (enc e).adj))
      (fun _ => none, fun _ => 0)).1
    = fun j => if j = 0 then some 0
        else if j < 1 + e.size then some (alnVal e 1 0 j) else none := by
  have hes := e.size_pos
  have hseg : SegHyp ("root" :: e.labels) ([1] :: e.adjAt 1) e 1 := by
    have := segHyp_decomp e 1 ["root"] [] [[1]] [] rfl rfl
    rw [show (["root"] : List Label) ++ e.labels ++ [] = "root" :: e.labels
        from by simp,
      show ([[1]] : List (List Nat)) ++ e.adjAt 1 ++ [] = [1] :: e.adjAt 1
        from by simp] at this
    exact this
  have hpi : PiHyp (parentMap ([1] :: e.adjAt 1)) e 1 :=
    piHyp_intro _ e 1 (fun p q hp1 hp2 hq =>
      parentMap_enc e p q hp1 (by omega) hq)
  have hstep0 : alignScanAt ("root" :: e.labels) ([1] :: e.adjAt 1)
      (parentMap ([1] :: e.adjAt 1)) (fun _ => none, fun _ => 0) 0
      = (Function.update (fun _ => none) 0 (some 0), fun _ => 0) := by
    rw [aScan_skip_none _ _ _ _ _ 0
      (by rw [List.getD_cons_zero]; decide)
      (by rw [List.getD_cons_zero]; decide) rfl]
    rw [show ((((0 : Nat) : Int)) + (fun _ => (0 : Int)) 0) = (0 : Int) from by
      norm_num]
  obtain ⟨sh', heq, hlt, hge⟩ := alnScanSeg ("root" :: e.labels)
    ([1] :: e.adjAt 1) (parentMap ([1] :: e.adjAt 1)) e 1 0
    (Function.update (fun _ => none) 0 (some 0)) (fun _ => 0)
    (le_refl 1) hseg hpi
    (headOK_parent_ne ("root" :: e.labels) (parentMap ([1] :: e.adjAt 1)) e 1 0
      (parentMap_enc_top e)
      (show ("root" :: e.labels).getD 0 "" ≠ "+" from by
        rw [List.getD_cons_zero]; decide))
    (fun p h1 h2 => rfl)
    (fun p h1 h2 => by
      rw [Function.update_noteq (by omega)])
  show ((List.range ("root" :: e.labels).length).foldl
    (alignScanAt ("root" :: e.labels) ([1] :: e.adjAt 1)
      (parentMap ([1] :: e.adjAt 1)))
    (fun _ => none, fun _ => 0)).1 = _
  rw [show ("root" :: e.labels).length = 1 + e.size from by
      simpa [e.labels_length] using by omega,
    List.range_eq_range', range'_split 0 1 e.size,
    show List.range' 0 1 = [0] from rfl, List.foldl_append,
    List.foldl_cons, List.foldl_nil, hstep0, heq]
  funext j
  dsimp only
  by_cases hj0 : j = 0
  · subst hj0
    rw [if_neg (by omega), Function.update_same, if_pos rfl]
  · by_cases hj1 : j < 1 + e.size
    · rw [if_pos ⟨by omega, by omega⟩, if_neg hj0, if_pos hj1]
    · rw [if_neg (by omega), Function.update_noteq hj0, if_neg hj0,
        if_neg hj1]

end Peano

namespace Peano

/-- Every structural alignment value is either the deletion sentinel `-1` or
a position inside the successor segment. -/
theorem alnVal_range (e : PExpr) : ∀ (o : Nat) (σ : Int) (j : Nat),
    0 ≤ (o : Int) + σ → o ≤ j → j < o + e.size →
    alnVal e o σ j = -1 ∨
      ((o : Int) + σ ≤ alnVal e o σ j ∧
        alnVal e o σ j < (o : Int) + σ + ((PExpr.step e).size : Int)) := by
  induction e using PExpr.step.induct with
  | case1 k =>
    intro o σ j h0 h1 h2
    right
    rw [show alnVal (.num k) o σ j = (o : Int) + σ from rfl,
      show PExpr.step (.num k) = .num k from rfl,
      show (PExpr.num k).size = 1 from rfl]
    omega
  | case2 k =>
    intro o σ j h0 h1 h2
    rw [show alnVal (.succ (.num k)) o σ j
        = if j = o then -1 else (o : Int) + σ from rfl,
      show PExpr.step (.succ (.num k)) = .num (PExpr.digitSucc k) from rfl,
      show (PExpr.num (PExpr.digitSucc k)).size = 1 from rfl]
    by_cases hj : j = o
    · rw [if_pos hj]
      exact Or.inl rfl
    · rw [if_neg hj]
      right
      omega
  | case3 x ih =>
    intro o σ j h0 h1 h2
    have hsz : (PExpr.succ (.succ x)).size = (PExpr.succ x).size + 1 := rfl
    have hss : (PExpr.step (.succ (.succ x))).size
        = (PExpr.step (.succ x)).size + 1 := rfl
    by_cases hj : j = o
    · have hv : alnVal (.succ (.succ x)) o σ j = (o : Int) + σ := by
        simp only [alnVal]
        rw [if_pos hj]
      rw [hv]
      right
      omega
    · have hv : alnVal (.succ (.succ x)) o σ j
          = alnVal (.succ x) (o + 1) σ j := by
        simp only [alnVal]
        rw [if_neg hj]
      rw [hv]
      rcases ih (o + 1) σ j (by omega) (by omega) (by rw [hsz] at h2; omega)
        with h | ⟨ha, hb⟩
      · exact Or.inl h
      · right
        constructor
        · omega
        · omega
  | case4 l r ih =>
    intro o σ j h0 h1 h2
    have hsz : (PExpr.succ (.plus l r)).size = (PExpr.plus l r).size + 1 := rfl
    have hss : (PExpr.step (.succ (.plus l r))).size
        = (PExpr.step (.plus l r)).size + 1 := rfl
    by_cases hj : j = o
    · have hv : alnVal (.succ (.plus l r)) o σ j = (o : Int) + σ := by
        simp only [alnVal]
        rw [if_pos hj]
      rw [hv]
      right
      omega
    · have hv : alnVal (.succ (.plus l r)) o σ j
          = alnVal (.plus l r) (o + 1) σ j := by
        simp only [alnVal]
        rw [if_neg hj]
      rw [hv]
      rcases ih (o + 1) σ j (by omega) (by omega) (by rw [hsz] at h2; omega)
        with h | ⟨ha, hb⟩
      · exact Or.inl h
      · right
        constructor
        · omega
        · omega
  | case5 l k hk ih =>
    intro o σ j h0 h1 h2
    have hls := l.size_pos
    have hsz : (PExpr.plus l (.num k)).size = l.size + 2 := rfl
    have hstep : PExpr.step (.plus l (.num k)) = PExpr.step l := by
      show (if (k : Nat) = 0 then _ else _) = _
      rw [if_pos hk]
    by_cases hj : j = o
    · exact Or.inl (by
        simp only [alnVal]
        rw [if_pos hk, if_pos hj])
    · by_cases hj2 : j = o + 1 + l.size
      · exact Or.inl (by
          simp only [alnVal]
          rw [if_pos hk, if_neg hj, if_pos hj2])
      · have hv : alnVal (.plus l (.num k)) o σ j
            = alnVal l (o + 1) (σ - 1) j := by
          simp only [alnVal]
          rw [if_pos hk, if_neg hj, if_neg hj2]
        rw [hv]
        rcases ih (o + 1) (σ - 1) j (by omega) (by omega)
          (by rw [hsz] at h2; omega) with h | ⟨ha, hb⟩
        · exact Or.inl h
        · right
          rw [hstep]
          constructor
          · omega
          · omega
  | case6 l k hk ih =>
    intro o σ j h0 h1 h2
    have hls := l.size_pos
    have hsz : (PExpr.plus l (.num k)).size = l.size + 2 := rfl
    have hstep : PExpr.step (.plus l (.num k))
        = .plus (PExpr.step l) (.succ (.num (PExpr.digitPred k))) := by
      show (if (k : Nat) = 0 then _ else _) = _
      rw [if_neg hk]
    have hs2 : (PExpr.step (.plus l (.num k))).size
        = (PExpr.step l).size + 3 := by
      rw [hstep]
      rfl
    have hdel : PExpr.stepDelta l
        = ((PExpr.step l).size : Int) - (l.size : Int) := rfl
    by_cases hj : j = o
    · have hv : alnVal (.plus l (.num k)) o σ j = (o : Int) + σ := by
        simp only [alnVal]
        rw [if_neg hk, if_pos hj]
      rw [hv]
      right
      omega
    · by_cases hj2 : j = o + 1 + l.size
      · have hv : alnVal (.plus l (.num k)) o σ j
            = (j : Int) + (σ + 1 + PExpr.stepDelta l) := by
          simp only [alnVal]
          rw [if_neg hk, if_neg hj, if_pos hj2]
        rw [hv]
        right
        constructor
        · omega
        · omega
      · have hv : alnVal (.plus l (.num k)) o σ j
            = alnVal l (o + 1) σ j := by
          simp only [alnVal]
          rw [if_neg hk, if_neg hj, if_neg hj2]
        rw [hv]
        rcases ih (o + 1) σ j (by omega) (by omega)
          (by rw [hsz] at h2; omega) with h | ⟨ha, hb⟩
        · exact Or.inl h
        · right
          constructor
          · omega
          · omega
  | case7 l r ihl ihr =>
    intro o σ j h0 h1 h2
    have hls := l.size_pos
    have hrs := r.size_pos
    have hsl := (PExpr.step l).size_pos
    have hsr := (PExpr.step r).size_pos
    have hsz : (PExpr.plus l (.succ r)).size = l.size + (r.size + 1) + 1 := rfl
    have hs2 : (PExpr.step (.plus l (.succ r))).size
        = (PExpr.step l).size + 1 + (PExpr.step r).size + 1 := rfl
    have hdel : PExpr.stepDelta l
        = ((PExpr.step l).size : Int) - (l.size : Int) := rfl
    by_cases hj : j = o
    · have hv : alnVal (.plus l (.succ r)) o σ j = (o : Int) + σ := by
        simp only [alnVal]
        rw [if_pos hj]
      rw [hv]
      right
      omega
    · by_cases hj2 : j = o + 1 + l.size
      · exact Or.inl (by
          simp only [alnVal]
          rw [if_neg hj, if_pos hj2])
      · by_cases hj3 : j < o + 1 + l.size
        · have hv : alnVal (.plus l (.succ r)) o σ j
              = alnVal l (o + 1) (σ + 1) j := by
            simp only [alnVal]
            rw [if_neg hj, if_neg hj2, if_pos hj3]
          rw [hv]
          rcases ihl (o + 1) (σ + 1) j (by omega) (by omega) (by omega)
            with h | ⟨ha, hb⟩
          · exact Or.inl h
          · right
            constructor
            · omega
            · omega
        · have hv : alnVal (.plus l (.succ r)) o σ j
              = alnVal r (o + 2 + l.size) (σ + PExpr.stepDelta l) j := by
            simp only [alnVal]
            rw [if_neg hj, if_neg hj2, if_neg hj3]
          rw [hv]
          rcases ihr (o + 2 + l.size) (σ + PExpr.stepDelta l) j (by omega)
            (by omega) (by rw [hsz] at h2; omega) with h | ⟨ha, hb⟩
          · exact Or.inl h
          · right
            constructor
            · omega
            · omega
  | case8 l a b ihl ihr =>
    intro o σ j h0 h1 h2
    have hls := l.size_pos
    have hab := (PExpr.plus a b).size_pos
    have hsl := (PExpr.step l).size_pos
    have hsab := (PExpr.step (.plus a b)).size_pos
    have hsz : (PExpr.plus l (.plus a b)).size
        = l.size + (PExpr.plus a b).size + 1 := rfl
    have hs2 : (PExpr.step (.plus l (.plus a b))).size
        = (PExpr.step l).size + (PExpr.step (.plus a b)).size + 1 := rfl
    have hdel : PExpr.stepDelta l
        = ((PExpr.step l).size : Int) - (l.size : Int) := rfl
    by_cases hj : j = o
    · have hv : alnVal (.plus l (.plus a b)) o σ j = (o : Int) + σ := by
        simp only [alnVal]
        rw [if_pos hj]
      rw [hv]
      right
      omega
    · by_cases hj2 : j < o + 1 + l.size
      · have hv : alnVal (.plus l (.plus a b)) o σ j
            = alnVal l (o + 1) σ j := by
          simp only [alnVal]
          rw [if_neg hj, if_pos hj2]
        rw [hv]
        rcases ihl (o + 1) σ j (by omega) (by omega) (by omega)
          with h | ⟨ha, hb⟩
        · exact Or.inl h
        · right
          constructor
          · omega
          · omega
      · have hv : alnVal (.plus l (.plus a b)) o σ j
            = alnVal (.plus a b) (o + 1 + l.size) (σ + PExpr.stepDelta l) j := by
          simp only [alnVal]
          rw [if_neg hj, if_neg hj2]
        rw [hv]
        rcases ihr (o + 1 + l.size) (σ + PExpr.stepDelta l) j (by omega)
          (by omega) (by rw [hsz] at h2; omega) with h | ⟨ha, hb⟩
        · exact Or.inl h
        · right
          constructor
          · omega
          · omega

end Peano

namespace Peano

/-- Structural alignment values of kept nodes strictly increase with the
node index. -/
theorem alnVal_mono (e : PExpr) : ∀ (o : Nat) (σ : Int) (j1 j2 : Nat),
    0 ≤ (o : Int) + σ → o ≤ j1 → j1 < j2 → j2 < o + e.size →
    alnVal e o σ j1 ≠ -1 → alnVal e o σ j2 ≠ -1 →
    alnVal e o σ j1 < alnVal e o σ j2 := by
  induction e using PExpr.step.induct with
  | case1 k =>
    intro o σ j1 j2 h0 h1 h12 h2 hne1 hne2
    have hsz : (PExpr.num k).size = 1 := rfl
    omega
  | case2 k =>
    intro o σ j1 j2 h0 h1 h12 h2 hne1 hne2
    have hsz : (PExpr.succ (.num k)).size = 2 := rfl
    have hj1 : j1 = o := by omega
    exact absurd (show alnVal (.succ (.num k)) o σ j1 = -1 from by
      simp only [alnVal]
      rw [if_pos hj1]) hne1
  | case3 x ih =>
    intro o σ j1 j2 h0 h1 h12 h2 hne1 hne2
    have hsz : (PExpr.succ (.succ x)).size = (PExpr.succ x).size + 1 := rfl
    have hv2 : alnVal (.succ (.succ x)) o σ j2
        = alnVal (.succ x) (o + 1) σ j2 := by
      simp only [alnVal]
      rw [if_neg (by omega)]
    rw [hv2] at hne2 ⊢
    by_cases hj : j1 = o
    · have hv1 : alnVal (.succ (.succ x)) o σ j1 = (o : Int) + σ := by
        simp only [alnVal]
        rw [if_pos hj]
      rw [hv1]
      rcases alnVal_range (.succ x) (o + 1) σ j2 (by omega) (by omega)
        (by rw [hsz] at h2; omega) with h | ⟨ha, hb⟩
      · exact absurd h hne2
      · omega
    · have hv1 : alnVal (.succ (.succ x)) o σ j1
          = alnVal (.succ x) (o + 1) σ j1 := by
        simp only [alnVal]
        rw [if_neg hj]
      rw [hv1] at hne1 ⊢
      exact ih (o + 1) σ j1 j2 (by omega) (by omega) h12
        (by rw [hsz] at h2; omega) hne1 hne2
  | case4 l r ih =>
    intro o σ j1 j2 h0 h1 h12 h2 hne1 hne2
    have hsz : (PExpr.succ (.plus l r)).size = (PExpr.plus l r).size + 1 := rfl
    have hv2 : alnVal (.succ (.plus l r)) o σ j2
        = alnVal (.plus l r) (o + 1) σ j2 := by
      simp only [alnVal]
      rw [if_neg (by omega)]
    rw [hv2] at hne2 ⊢
    by_cases hj : j1 = o
    · have hv1 : alnVal (.succ (.plus l r)) o σ j1 = (o : Int) + σ := by
        simp only [alnVal]
        rw [if_pos hj]
      rw [hv1]
      rcases alnVal_range (.plus l r) (o + 1) σ j2 (by omega) (by omega)
        (by rw [hsz] at h2; omega) with h | ⟨ha, hb⟩
      · exact absurd h hne2
      · omega
    · have hv1 : alnVal (.succ (.plus l r)) o σ j1
          = alnVal (.plus l r) (o + 1) σ j1 := by
        simp only [alnVal]
        rw [if_neg hj]
      rw [hv1] at hne1 ⊢
      exact ih (o + 1) σ j1 j2 (by omega) (by omega) h12
        (by rw [hsz] at h2; omega) hne1 hne2
  | case5 l k hk ih =>
    intro o σ j1 j2 h0 h1 h12 h2 hne1 hne2
    have hls := l.size_pos
    have hsz : (PExpr.plus l (.num k)).size = l.size + 2 := rfl
    have hj1o : j1 ≠ o := fun hx => hne1 (by
      simp only [alnVal]
      rw [if_pos hk, if_pos hx])
    have hj1r : j1 ≠ o + 1 + l.size := fun hx => hne1 (by
      simp only [alnVal]
      rw [if_pos hk, if_neg hj1o, if_pos hx])
    have hj2o : j2 ≠ o := by omega
    have hj2r : j2 ≠ o + 1 + l.size := fun hx => hne2 (by
      simp only [alnVal]
      rw [if_pos hk, if_neg hj2o, if_pos hx])
    have hv1 : alnVal (.plus l (.num k)) o σ j1
        = alnVal l (o + 1) (σ - 1) j1 := by
      simp only [alnVal]
      rw [if_pos hk, if_neg hj1o, if_neg hj1r]
    have hv2 : alnVal (.plus l (.num k)) o σ j2
        = alnVal l (o + 1) (σ - 1) j2 := by
      simp only [alnVal]
      rw [if_pos hk, if_neg hj2o, if_neg hj2r]
    rw [hv1] at hne1 ⊢
    rw [hv2] at hne2 ⊢
    exact ih (o + 1) (σ - 1) j1 j2 (by omega) (by omega) h12
      (by rw [hsz] at h2; omega) hne1 hne2
  | case6 l k hk ih =>
    intro o σ j1 j2 h0 h1 h12 h2 hne1 hne2
    have hls := l.size_pos
    have hsl := (PExpr.step l).size_pos
    have hsz : (PExpr.plus l (.num k)).size = l.size + 2 := rfl
    have hdel : PExpr.stepDelta l
        = ((PExpr.step l).size : Int) - (l.size : Int) := rfl
    have hj2o : j2 ≠ o := by omega
    by_cases hj1 : j1 = o
    · have hv1 : alnVal (.plus l (.num k)) o σ j1 = (o : Int) + σ := by
        simp only [alnVal]
        rw [if_neg hk, if_pos hj1]
      rw [hv1]
      by_cases hj2 : j2 = o + 1 + l.size
      · have hv2 : alnVal (.plus l (.num k)) o σ j2
            = (j2 : Int) + (σ + 1 + PExpr.stepDelta l) := by
          simp only [alnVal]
          rw [if_neg hk, if_neg hj2o, if_pos hj2]
        rw [hv2]
        omega
      · have hv2 : alnVal (.plus l (.num k)) o σ j2
            = alnVal l (o + 1) σ j2 := by
          simp only [alnVal]
          rw [if_neg hk, if_neg hj2o, if_neg hj2]
        rw [hv2] at hne2 ⊢
        rcases alnVal_range l (o + 1) σ j2 (by omega) (by omega)
          (by rw [hsz] at h2; omega) with h | ⟨ha, hb⟩
        · exact absurd h hne2
        · omega
    · have hj1r : j1 ≠ o + 1 + l.size := by omega
      have hv1 : alnVal (.plus l (.num k)) o σ j1
          = alnVal l (o + 1) σ j1 := by
        simp only [alnVal]
        rw [if_neg hk, if_neg hj1, if_neg hj1r]
      rw [hv1] at hne1 ⊢
      by_cases hj2 : j2 = o + 1 + l.size
      · have hv2 : alnVal (.plus l (.num k)) o σ j2
            = (j2 : Int) + (σ + 1 + PExpr.stepDelta l) := by
          simp only [alnVal]
          rw [if_neg hk, if_neg hj2o, if_pos hj2]
        rw [hv2]
        rcases alnVal_range l (o + 1) σ j1 (by omega) (by omega) (by omega)
          with h | ⟨ha, hb⟩
        · exact absurd h hne1
        · omega
      · have hv2 : alnVal (.plus l (.num k)) o σ j2
            = alnVal l (o + 1) σ j2 := by
          simp only [alnVal]
          rw [if_neg hk, if_neg hj2o, if_neg hj2]
        rw [hv2] at hne2 ⊢
        exact ih (o + 1) σ j1 j2 (by omega) (by omega) h12
          (by rw [hsz] at h2; omega) hne1 hne2
  | case7 l r ihl ihr =>
    intro o σ j1 j2 h0 h1 h12 h2 hne1 hne2
    have hls := l.size_pos
    have hrs := r.size_pos
    have hsl := (PExpr.step l).size_pos
    have hsr := (PExpr.step r).size_pos
    have hsz : (PExpr.plus l (.succ r)).size = l.size + (r.size + 1) + 1 := rfl
    have hdel : PExpr.stepDelta l
        = ((PExpr.step l).size : Int) - (l.size : Int) := rfl
    have hj2o : j2 ≠ o := by omega
    have hj1m : j1 ≠ o + 1 + l.size := fun hx => hne1 (by
      simp only [alnVal]
      rw [if_neg (by omega), if_pos hx])
    have hj2m : j2 ≠ o + 1 + l.size := fun hx => hne2 (by
      simp only [alnVal]
      rw [if_neg hj2o, if_pos hx])
    by_cases hj1 : j1 = o
    · have hv1 : alnVal (.plus l (.succ r)) o σ j1 = (o : Int) + σ := by
        simp only [alnVal]
        rw [if_pos hj1]
      rw [hv1]
      by_cases hj2 : j2 < o + 1 + l.size
      · have hv2 : alnVal (.plus l (.succ r)) o σ j2
            = alnVal l (o + 1) (σ + 1) j2 := by
          simp only [alnVal]
          rw [if_neg hj2o, if_neg hj2m, if_pos hj2]
        rw [hv2] at hne2 ⊢
        rcases alnVal_range l (o + 1) (σ + 1) j2 (by omega) (by omega)
          (by omega) with h | ⟨ha, hb⟩
        · exact absurd h hne2
        · omega
      · have hv2 : alnVal (.plus l (.succ r)) o σ j2
            = alnVal r (o + 2 + l.size) (σ + PExpr.stepDelta l) j2 := by
          simp only [alnVal]
          rw [if_neg hj2o, if_neg hj2m, if_neg hj2]
        rw [hv2] at hne2 ⊢
        rcases alnVal_range r (o + 2 + l.size) (σ + PExpr.stepDelta l) j2
          (by omega) (by omega) (by rw [hsz] at h2; omega) with h | ⟨ha, hb⟩
        · exact absurd h hne2
        · omega
    · by_cases hj1l : j1 < o + 1 + l.size
      · have hv1 : alnVal (.plus l (.succ r)) o σ j1
            = alnVal l (o + 1) (σ + 1) j1 := by
          simp only [alnVal]
          rw [if_neg hj1, if_neg hj1m, if_pos hj1l]
        rw [hv1] at hne1 ⊢
        by_cases hj2 : j2 < o + 1 + l.size
        · have hv2 : alnVal (.plus l (.succ r)) o σ j2
              = alnVal l (o + 1) (σ + 1) j2 := by
            simp only [alnVal]
            rw [if_neg hj2o, if_neg hj2m, if_pos hj2]
          rw [hv2] at hne2 ⊢
          exact ihl (o + 1) (σ + 1) j1 j2 (by omega) (by omega) h12
            (by omega) hne1 hne2
        · have hv2 : alnVal (.plus l (.succ r)) o σ j2
              = alnVal r (o + 2 + l.size) (σ + PExpr.stepDelta l) j2 := by
            simp only [alnVal]
            rw [if_neg hj2o, if_neg hj2m, if_neg hj2]
          rw [hv2] at hne2 ⊢
          rcases alnVal_range l (o + 1) (σ + 1) j1 (by omega) (by omega)
            (by omega) with h | ⟨ha1, hb1⟩
          · exact absurd h hne1
          · rcases alnVal_range r (o + 2 + l.size) (σ + PExpr.stepDelta l) j2
              (by omega) (by omega) (by rw [hsz] at h2; omega)
              with h | ⟨ha2, hb2⟩
            · exact absurd h hne2
            · omega
      · have hv1 : alnVal (.plus l (.succ r)) o σ j1
            = alnVal r (o + 2 + l.size) (σ + PExpr.stepDelta l) j1 := by
          simp only [alnVal]
          rw [if_neg hj1, if_neg hj1m, if_neg hj1l]
        rw [hv1] at hne1 ⊢
        have hj2 : ¬ j2 < o + 1 + l.size := by omega
        have hv2 : alnVal (.plus l (.succ r)) o σ j2
            = alnVal r (o + 2 + l.size) (σ + PExpr.stepDelta l) j2 := by
          simp only [alnVal]
          rw [if_neg hj2o, if_neg hj2m, if_neg hj2]
        rw [hv2] at hne2 ⊢
        exact ihr (o + 2 + l.size) (σ + PExpr.stepDelta l) j1 j2 (by omega)
          (by omega) h12 (by rw [hsz] at h2; omega) hne1 hne2
  | case8 l a b ihl ihr =>
    intro o σ j1 j2 h0 h1 h12 h2 hne1 hne2
    have hls := l.size_pos
    have hab := (PExpr.plus a b).size_pos
    have hsl := (PExpr.step l).size_pos
    have hsab := (PExpr.step (.plus a b)).size_pos
    have hsz : (PExpr.plus l (.plus a b)).size
        = l.size + (PExpr.plus a b).size + 1 := rfl
    have hdel : PExpr.stepDelta l
        = ((PExpr.step l).size : Int) - (l.size : Int) := rfl
    have hj2o : j2 ≠ o := by omega
    by_cases hj1 : j1 = o
    · have hv1 : alnVal (.plus l (.plus a b)) o σ j1 = (o : Int) + σ := by
        simp only [alnVal]
        rw [if_pos hj1]
      rw [hv1]
      by_cases hj2 : j2 < o + 1 + l.size
      · have hv2 : alnVal (.plus l (.plus a b)) o σ j2
            = alnVal l (o + 1) σ j2 := by
          simp only [alnVal]
          rw [if_neg hj2o, if_pos hj2]
        rw [hv2] at hne2 ⊢
        rcases alnVal_range l (o + 1) σ j2 (by omega) (by omega) (by omega)
          with h | ⟨ha, hb⟩
        · exact absurd h hne2
        · omega
      · have hv2 : alnVal (.plus l (.plus a b)) o σ j2
            = alnVal (.plus a b) (o + 1 + l.size) (σ + PExpr.stepDelta l) j2 := by
          simp only [alnVal]
          rw [if_neg hj2o, if_neg hj2]
        rw [hv2] at hne2 ⊢
        rcases alnVal_range (.plus a b) (o + 1 + l.size)
          (σ + PExpr.stepDelta l) j2 (by omega) (by omega)
          (by rw [hsz] at h2; omega) with h | ⟨ha, hb⟩
        · exact absurd h hne2
        · omega
    · by_cases hj1l : j1 < o + 1 + l.size
      · have hv1 : alnVal (.plus l (.plus a b)) o σ j1
            = alnVal l (o + 1) σ j1 := by
          simp only [alnVal]
          rw [if_neg hj1, if_pos hj1l]
        rw [hv1] at hne1 ⊢
        by_cases hj2 : j2 < o + 1 + l.size
        · have hv2 : alnVal (.plus l (.plus a b)) o σ j2
              = alnVal l (o + 1) σ j2 := by
            simp only [alnVal]
            rw [if_neg hj2o, if_pos hj2]
          rw [hv2] at hne2 ⊢
          exact ihl (o + 1) σ j1 j2 (by omega) (by omega) h12 (by omega)
            hne1 hne2
        · have hv2 : alnVal (.plus l (.plus a b)) o σ j2
              = alnVal (.plus a b) (o + 1 + l.size)
                (σ + PExpr.stepDelta l) j2 := by
            simp only [alnVal]
            rw [if_neg hj2o, if_neg hj2]
          rw [hv2] at hne2 ⊢
          rcases alnVal_range l (o + 1) σ j1 (by omega) (by omega) (by omega)
            with h | ⟨ha1, hb1⟩
          · exact absurd h hne1
          · rcases alnVal_range (.plus a b) (o + 1 + l.size)
              (σ + PExpr.stepDelta l) j2 (by omega) (by omega)
              (by rw [hsz] at h2; omega) with h | ⟨ha2, hb2⟩
            · exact absurd h hne2
            · omega
      · have hv1 : alnVal (.plus l (.plus a b)) o σ j1
            = alnVal (.plus a b) (o + 1 + l.size) (σ + PExpr.stepDelta l) j1 := by
          simp only [alnVal]
          rw [if_neg hj1, if_neg hj1l]
        rw [hv1] at hne1 ⊢
        have hj2 : ¬ j2 < o + 1 + l.size := by omega
        have hv2 : alnVal (.plus l (.plus a b)) o σ j2
            = alnVal (.plus a b) (o + 1 + l.size) (σ + PExpr.stepDelta l) j2 := by
          simp only [alnVal]
          rw [if_neg hj2o, if_neg hj2]
        rw [hv2] at hne2 ⊢
        exact ihr (o + 1 + l.size) (σ + PExpr.stepDelta l) j1 j2 (by omega)
          (by omega) h12 (by rw [hsz] at h2; omega) hne1 hne2

end Peano

namespace Peano

/-- The largest successor-segment position is attained by some kept node. -/
theorem alnVal_max (e : PExpr) : ∀ (o : Nat) (σ : Int),
    ∃ jm : Nat, o ≤ jm ∧ jm < o + e.size ∧
      alnVal e o σ jm = (o : Int) + σ + ((PExpr.step e).size : Int) - 1 := by
  induction e using PExpr.step.induct with
  | case1 k =>
    intro o σ
    refine ⟨o, le_refl o, by rw [show (PExpr.num k).size = 1 from rfl]; omega,
      ?_⟩
    rw [show alnVal (.num k) o σ o = (o : Int) + σ from rfl,
      show PExpr.step (.num k) = .num k from rfl,
      show (PExpr.num k).size = 1 from rfl]
    omega
  | case2 k =>
    intro o σ
    refine ⟨o + 1, by omega,
      by rw [show (PExpr.succ (.num k)).size = 2 from rfl]; omega, ?_⟩
    rw [show alnVal (.succ (.num k)) o σ (o + 1)
        = if o + 1 = o then -1 else (o : Int) + σ from rfl,
      if_neg (by omega),
      show PExpr.step (.succ (.num k)) = .num (PExpr.digitSucc k) from rfl,
      show (PExpr.num (PExpr.digitSucc k)).size = 1 from rfl]
    omega
  | case3 x ih =>
    intro o σ
    obtain ⟨jm, h1, h2, hv⟩ := ih (o + 1) σ
    have hsz : (PExpr.succ (.succ x)).size = (PExpr.succ x).size + 1 := rfl
    have hss : (PExpr.step (.succ (.succ x))).size
        = (PExpr.step (.succ x)).size + 1 := rfl
    refine ⟨jm, by omega, by rw [hsz]; omega, ?_⟩
    rw [show alnVal (.succ (.succ x)) o σ jm
        = alnVal (.succ x) (o + 1) σ jm from by
      simp only [alnVal]
      rw [if_neg (by omega)], hv]
    omega
  | case4 l r ih =>
    intro o σ
    obtain ⟨jm, h1, h2, hv⟩ := ih (o + 1) σ
    have hsz : (PExpr.succ (.plus l r)).size = (PExpr.plus l r).size + 1 := rfl
    have hss : (PExpr.step (.succ (.plus l r))).size
        = (PExpr.step (.plus l r)).size + 1 := rfl
    refine ⟨jm, by omega, by rw [hsz]; omega, ?_⟩
    rw [show alnVal (.succ (.plus l r)) o σ jm
        = alnVal (.plus l r) (o + 1) σ jm from by
      simp only [alnVal]
      rw [if_neg (by omega)], hv]
    omega
  | case5 l k hk ih =>
    intro o σ
    obtain ⟨jm, h1, h2, hv⟩ := ih (o + 1) (σ - 1)
    have hls := l.size_pos
    have hsz : (PExpr.plus l (.num k)).size = l.size + 2 := rfl
    have hstep : PExpr.step (.plus l (.num k)) = PExpr.step l := by
      show (if (k : Nat) = 0 then _ else _) = _
      rw [if_pos hk]
    refine ⟨jm, by omega, by rw [hsz]; omega, ?_⟩
    rw [show alnVal (.plus l (.num k)) o σ jm
        = alnVal l (o + 1) (σ - 1) jm from by
      simp only [alnVal]
      rw [if_pos hk, if_neg (by omega), if_neg (by omega)], hv, hstep]
    omega
  | case6 l k hk ih =>
    intro o σ
    have hls := l.size_pos
    have hsz : (PExpr.plus l (.num k)).size = l.size + 2 := rfl
    have hstep : PExpr.step (.plus l (.num k))
        = .plus (PExpr.step l) (.succ (.num (PExpr.digitPred k))) := by
      show (if (k : Nat) = 0 then _ else _) = _
      rw [if_neg hk]
    have hs2 : (PExpr.step (.plus l (.num k))).size
        = (PExpr.step l).size + 3 := by
      rw [hstep]
      rfl
    have hdel : PExpr.stepDelta l
        = ((PExpr.step l).size : Int) - (l.size : Int) := rfl
    refine ⟨o + 1 + l.size, by omega, by rw [hsz]; omega, ?_⟩
    rw [show alnVal (.plus l (.num k)) o σ (o + 1 + l.size)
        = ((o + 1 + l.size : Nat) : Int) + (σ + 1 + PExpr.stepDelta l) from by
      simp only [alnVal]
      rw [if_neg hk, if_neg (by omega), if_pos trivial]]
    omega
  | case7 l r ihl ihr =>
    intro o σ
    obtain ⟨jm, h1, h2, hv⟩ := ihr (o + 2 + l.size) (σ + PExpr.stepDelta l)
    have hls := l.size_pos
    have hrs := r.size_pos
    have hsz : (PExpr.plus l (.succ r)).size = l.size + (r.size + 1) + 1 := rfl
    have hs2 : (PExpr.step (.plus l (.succ r))).size
        = (PExpr.step l).size + 1 + (PExpr.step r).size + 1 := rfl
    have hdel : PExpr.stepDelta l
        = ((PExpr.step l).size : Int) - (l.size : Int) := rfl
    refine ⟨jm, by omega, by rw [hsz]; omega, ?_⟩
    rw [show alnVal (.plus l (.succ r)) o σ jm
        = alnVal r (o + 2 + l.size) (σ + PExpr.stepDelta l) jm from by
      simp only [alnVal]
      rw [if_neg (by omega), if_neg (by omega), if_neg (by omega)], hv]
    omega
  | case8 l a b ihl ihr =>
    intro o σ
    obtain ⟨jm, h1, h2, hv⟩ := ihr (o + 1 + l.size) (σ + PExpr.stepDelta l)
    have hls := l.size_pos
    have hab := (PExpr.plus a b).size_pos
    have hsz : (PExpr.plus l (.plus a b)).size
        = l.size + (PExpr.plus a b).size + 1 := rfl
    have hs2 : (PExpr.step (.plus l (.plus a b))).size
        = (PExpr.step l).size + (PExpr.step (.plus a b)).size + 1 := rfl
    have hdel : PExpr.stepDelta l
        = ((PExpr.step l).size : Int) - (l.size : Int) := rfl
    refine ⟨jm, by omega, by rw [hsz]; omega, ?_⟩
    rw [show alnVal (.plus l (.plus a b)) o σ jm
        = alnVal (.plus a b) (o + 1 + l.size) (σ + PExpr.stepDelta l) jm
        from by
      simp only [alnVal]
      rw [if_neg (by omega), if_neg (by omega)], hv]
    omega

end Peano

namespace Peano

/-- `peano_alignment` on a flattened expression covers every source index
exactly once as a first coordinate and every successor index exactly once as
a second coordinate, in increasing order, never emitting `(-1, -1)`. -/
theorem alignment_enc (y : PExpr) :
    keepNonneg ((peano_alignment (enc y)).map Prod.fst)
        = (List.range (enc y).nodes.length).map (fun s : Nat => (s : Int))
    ∧ keepNonneg ((peano_alignment (enc y)).map Prod.snd)
        = (List.range (enc (PExpr.step y)).nodes.length).map
            (fun s : Nat => (s : Int))
    ∧ ∀ p ∈ peano_alignment (enc y), 0 ≤ p.1 ∨ 0 ≤ p.2 := by
  have hes := y.size_pos
  have hss := (PExpr.step y).size_pos
  have hn : (enc y).nodes.length = 1 + y.size := by
    simp [enc, y.labels_length]
    omega
  have hm : (enc (PExpr.step y)).nodes.length = 1 + (PExpr.step y).size := by
    simp [enc, (PExpr.step y).labels_length]
    omega
  have hpa : peano_alignment (enc y)
      = ((List.range (1 + y.size)).foldl
          (alignMergeAt (fun j => if j = 0 then some 0
            else if j < 1 + y.size then some (alnVal y 1 0 j) else none))
          ([], 0)).1 := by
    show ((List.range (enc y).nodes.length).foldl
        (alignMergeAt (((List.range (enc y).nodes.length).foldl
          (alignScanAt (enc y).nodes (enc y).adj (parentMap (enc y).adj))
          (fun _ => none, fun _ => 0)).1)) ([], 0)).1 = _
    rw [alignL2r_enc, hn]
  rw [hpa, hn, hm]
  exact mergeRun
    (fun j => if j = 0 then some 0
      else if j < 1 + y.size then some (alnVal y 1 0 j) else none)
    (fun i => if i = 0 then 0 else alnVal y 1 0 i)
    (1 + y.size) (1 + (PExpr.step y).size)
    (fun i hi => by
      dsimp only
      by_cases hi0 : i = 0
      · subst hi0
        rw [if_pos rfl, if_pos rfl]
      · rw [if_neg hi0, if_pos hi, if_neg hi0])
    (fun i hi => by
      dsimp only
      by_cases hi0 : i = 0
      · subst hi0
        rw [if_pos rfl]
        right
        omega
      · rw [if_neg hi0]
        rcases alnVal_range y 1 0 i (by omega) (by omega) (by omega)
          with h | ⟨ha, hb⟩
        · exact Or.inl h
        · right
          omega)
    (fun i hi => by
      dsimp only
      by_cases hi0 : i = 0
      · subst hi0
        rw [if_pos rfl]
        omega
      · rw [if_neg hi0]
        rcases alnVal_range y 1 0 i (by omega) (by omega) (by omega)
          with h | ⟨ha, hb⟩
        · omega
        · omega)
    (fun i1 i2 h12 h2 hne1 hne2 => by
      dsimp only at hne1 hne2 ⊢
      by_cases hi0 : i1 = 0
      · subst hi0
        have hi20 : i2 ≠ 0 := by omega
        rw [if_pos rfl]
        rw [if_neg hi20] at hne2 ⊢
        rcases alnVal_range y 1 0 i2 (by omega) (by omega) (by omega)
          with h | ⟨ha, hb⟩
        · exact absurd h hne2
        · omega
      · have hi20 : i2 ≠ 0 := by omega
        rw [if_neg hi0] at hne1 ⊢
        rw [if_neg hi20] at hne2 ⊢
        exact alnVal_mono y 1 0 i1 i2 (by omega) (by omega) h12 (by omega)
          hne1 hne2)
    (by
      obtain ⟨jm, h1, h2, hv⟩ := alnVal_max y 1 0
      refine ⟨jm, by omega, ?_⟩
      dsimp only
      rw [if_neg (by omega), hv]
      omega)
    (by omega)

end Peano

namespace Peano

/-- **C5**.  For every consecutive pair `(a, b)` of a driver trace from a
well-formed input, `peano_alignment a` emits every source index exactly once
as a first coordinate and every successor-tree index exactly once as a
second coordinate, each in strictly increasing order (the nonnegative
entries of each coordinate are exactly `0, 1, 2, …` in emission order), and
the pair `(-1, -1)` never occurs. -/
theorem c5_theorem (t0 : Tree) (h : WfInput t0) (f : Nat) (ts : List Tree)
    (hts : simplifyFuel f t0 = some ts) (i : Nat) (a b : Tree)
    (ha : ts[i]? = some a) (hb : ts[i + 1]? = some b) :
    keepNonneg ((peano_alignment a).map Prod.fst)
        = (List.range a.nodes.length).map (fun s : Nat => (s : Int))
    ∧ keepNonneg ((peano_alignment a).map Prod.snd)
        = (List.range b.nodes.length).map (fun s : Nat => (s : Int))
    ∧ ∀ p ∈ peano_alignment a, 0 ≤ p.1 ∨ 0 ≤ p.2 := by
  obtain ⟨e, rfl⟩ := h
  obtain ⟨y, rfl, rfl⟩ := simplifyFuel_consec f e ts hts i a b ha hb
  exact alignment_enc y

/-- **C5**, witness at the concrete trace of `root→+(2, 0)`. -/
theorem c5_theorem_witness :
    WfInput (enc (.plus (.num 2) (.num 0))) ∧
    (keepNonneg ((peano_alignment (enc (.plus (.num 2) (.num 0)))).map
          Prod.fst)
        = (List.range (enc (.plus (.num 2) (.num 0))).nodes.length).map
            (fun s : Nat => (s : Int))
      ∧ keepNonneg ((peano_alignment (enc (.plus (.num 2) (.num 0)))).map
          Prod.snd)
        = (List.range (⟨["root", "2"], [[1], []]⟩ : Tree).nodes.length).map
            (fun s : Nat => (s : Int))
      ∧ ∀ p ∈ peano_alignment (enc (.plus (.num 2) (.num 0))),
          0 ≤ p.1 ∨ 0 ≤ p.2) := by
  have hw : WfInput (enc (.plus (.num 2) (.num 0))) :=
    ⟨.plus (.num 2) (.num 0), rfl⟩
  have n1 : (passScript (enc (.plus (.num 2) (.num 0)))).1 ≠ [] := by decide
  have e1 : applyScript (passScript (enc (.plus (.num 2) (.num 0)))).1
      (enc (.plus (.num 2) (.num 0)))
      = .ok ⟨["root", "2"], [[1], []]⟩ := by decide
  have f1 : (passScript ⟨["root", "2"], [[1], []]⟩).1 = [] := by decide
  have hts : simplifyFuel 1 (enc (.plus (.num 2) (.num 0)))
      = some [enc (.plus (.num 2) (.num 0)), ⟨["root", "2"], [[1], []]⟩] := by
    rw [simplifyFuel_cons 0 _ _ n1 e1, simplifyFuel_nil 0 _ f1]
    rfl
  exact ⟨hw, c5_theorem (enc (.plus (.num 2) (.num 0))) hw 1
    [enc (.plus (.num 2) (.num 0)), ⟨["root", "2"], [[1], []]⟩] hts 0
    (enc (.plus (.num 2) (.num 0))) ⟨["root", "2"], [[1], []]⟩ rfl rfl⟩

end Peano
